import Mathlib

/-!
# TriePrediction: a two-level trie for word prediction

A shallow embedding of `TriePrediction.c` and proofs about it.

Conventions of the embedding.

* The header `TriePrediction.h` is not among the sources. It declares the
  struct `TrieNode` and the constants `MAX_CHARACTERS_PER_WORD` and
  `MAX_WORDS_PER_LINE`; the struct is taken from the specification and the
  constants are left open.
* A C string is the list of its characters before the terminating NUL.
  Buffer capacities are not part of the model: every buffer is large enough.
* A value of `TrieNode` is a value of the C type `TrieNode*`: either `NULL` or
  a pointer to a struct that owns its 26 children and its subtrie.
* `count` is an unbounded integer, as in the specification; the code
  increments it and compares it with 0, so it is an `Int` here.
* A pointer into a trie that the code keeps across writes
  (`previousWordNode`) is the path of child indices leading to its node.
* An array access outside `children[0..25]` and the read of a buffer that was
  never written are faults.
* The read operations are embedded a second time, under `Mem`, on the structs
  in memory: a pointer is the address of a struct, and every call takes the
  memory it runs on and gives back the memory it leaves. The recursion of the
  enumerators over the nodes in memory is followed to a given nesting.
* Calls have no stack in the embedding: the room that the activations of
  nested calls take is not part of the model.
-/

namespace TriePrediction

/-- Undefined behaviour that the embedding tracks. -/
inductive Fault where
  | outOfBounds
  | uninitialised
  deriving DecidableEq, Repr

/-- Modelled from the spec: the struct `TrieNode` of the missing header, with
`count` (an integer), `children` (26 slots, index = letter − 'a') and the
optional `subtrie`. A value of this type is a value of the C type
`TrieNode*`: `NULL`, or a pointer to such a struct. -/
inductive TrieNode where
  | null : TrieNode
  | node (count : Int) (children : Fin 26 → TrieNode) (subtrie : TrieNode) : TrieNode

namespace TrieNode

/-- The test `p == NULL`. -/
def isNull : TrieNode → Bool
  | .null => true
  | .node _ _ _ => false

/-- The field `count` (0 behind `NULL`, which the code never reads). -/
def countOf : TrieNode → Int
  | .null => 0
  | .node c _ _ => c

/-- The field `subtrie` (`NULL` behind `NULL`). -/
def subtrieOf : TrieNode → TrieNode
  | .null => .null
  | .node _ _ s => s

/-- The child `children[i]` (`NULL` behind `NULL`). -/
def childOf : TrieNode → Fin 26 → TrieNode
  | .null, _ => .null
  | .node _ ch _, i => ch i

/-- Follows a path of child indices; `NULL` as soon as a child is missing. -/
def deref : TrieNode → List (Fin 26) → TrieNode
  | n, [] => n
  | .null, _ :: _ => .null
  | .node _ ch _, i :: is => deref (ch i) is

end TrieNode

/-- The children array with slot `i` overwritten by `v`. -/
def setChild (children : Fin 26 → TrieNode) (i : Fin 26) (v : TrieNode) : Fin 26 → TrieNode :=
  fun j => if j = i then v else children j

/-- `createTrieNode`: `calloc` gives count 0, all children and the subtrie `NULL`. -/
def createTrieNode : TrieNode := .node 0 (fun _ => .null) .null

/-- `strlwr`, which the C library of the target platform provides: lowercases
the string in place. -/
def strlwr (s : List Char) : List Char := s.map Char.toLower

/-- `stripPunctuators`: keeps the characters that are alphabetic or a space,
lowercased, and drops all others. (The capacity of the local buffer
`newString` is not modelled.) -/
def stripPunctuators : List Char → List Char
  | [] => []
  | c :: cs =>
    if c.isAlpha || c == ' ' then c.toLower :: stripPunctuators cs
    else stripPunctuators cs

/-- `getIndex`: `tolower(letter) - 'a'`. -/
def getIndex (letter : Char) : Int := (letter.toLower.toNat : Int) - 97

/-- The read `node->children[index]` for an `int` index. -/
def childAt (children : Fin 26 → TrieNode) (index : Int) : Except Fault TrieNode :=
  if h : 0 ≤ index ∧ index < 26 then .ok (children ⟨index.toNat, by omega⟩)
  else .error .outOfBounds

/-- `getNumberOfChildren`. -/
def getNumberOfChildren : TrieNode → Nat
  | .null => 0
  | .node _ ch _ =>
    (List.finRange 26).foldl (fun n i => if (ch i).isNull then n else n + 1) 0

/-- `hasChildren`. -/
def hasChildren : TrieNode → Bool
  | .null => false
  | .node _ ch _ => (List.finRange 26).any (fun i => !(ch i).isNull)

/-- The loop of `getTrieNode` over the letters of the normalised word, started
at a node: `index = word[i] - 'a'`, step to `children[index]`, and return
`NULL` when that child is `NULL`. -/
def getTrieNodeLoop : TrieNode → List Char → Except Fault TrieNode
  | .null, _ => .ok .null
  | .node c ch s, [] => .ok (.node c ch s)
  | .node _ ch _, letter :: rest =>
    match childAt ch ((letter.toNat : Int) - 97) with
    | .error e => .error e
    | .ok child => getTrieNodeLoop child rest

/-- `getTrieNode`: `NULL` for a `NULL` root, then `strlwr`, `stripPunctuators`,
`NULL` for length 0, then the walk. -/
def getTrieNode (root : TrieNode) (word : List Char) : Except Fault TrieNode :=
  match root with
  | .null => .ok .null
  | .node c ch s =>
    let word := stripPunctuators (strlwr word)
    if word.length = 0 then .ok .null
    else getTrieNodeLoop (.node c ch s) word

/-- The statement `child->count++`. -/
def incrementCount : TrieNode → TrieNode
  | .null => .null
  | .node c ch s => .node (c + 1) ch s

/-- `insertWord`: returns the node after the insertion together with the
returned pointer, as the path below `node` of the node it points to
(`none` for `NULL`). (The capacity of the local buffer `substring` is not
modelled.) -/
def insertWord : TrieNode → List Char → Except Fault (TrieNode × Option (List (Fin 26)))
  | .null, _ => .ok (.null, none)
  | .node c ch s, [] => .ok (.node c ch s, none)
  | .node c ch s, letter :: rest =>
    if h : 0 ≤ getIndex letter ∧ getIndex letter < 26 then
      let i : Fin 26 := ⟨(getIndex letter).toNat, by omega⟩
      let child := if (ch i).isNull then createTrieNode else ch i
      if 1 < (letter :: rest).length then
        match insertWord child rest with
        | .error e => .error e
        | .ok (child1, ret) => .ok (.node c (setChild ch i child1) s, ret.map (fun p => i :: p))
      else
        .ok (.node c (setChild ch i (incrementCount child)) s, some [i])
    else .error .outOfBounds

/-- The write `p->subtrie = s` through a pointer `p` given by its path. -/
def setSubtrieAt (s : TrieNode) : TrieNode → List (Fin 26) → TrieNode
  | .null, _ => .null
  | .node c ch _, [] => .node c ch s
  | .node c ch sub, i :: is => .node c (setChild ch i (setSubtrieAt s (ch i) is)) sub

/-- The variables of the loop of `insertPhrase`. -/
structure PhraseState where
  root : TrieNode
  previousWordNode : Option (List (Fin 26))
  word : List Char

/-- The `else` branch of the loop of `insertPhrase`: the word is complete. -/
def insertPhraseWordEnd (st : PhraseState) : Except Fault PhraseState :=
  let linked : Except Fault TrieNode :=
    match st.previousWordNode with
    | none => .ok st.root
    | some p =>
      let sub := (st.root.deref p).subtrieOf
      let sub := if sub.isNull then createTrieNode else sub
      match insertWord sub st.word with
      | .error e => .error e
      | .ok (sub1, _) => .ok (setSubtrieAt sub1 st.root p)
  match linked with
  | .error e => .error e
  | .ok root1 =>
    match insertWord root1 st.word with
    | .error e => .error e
    | .ok (root2, ret) => .ok ⟨root2, ret, []⟩

/-- The loop of `insertPhrase` over `phrase[index1]`, `index1 <= strlen(phrase)`:
the empty list is the position of the terminating NUL. -/
def insertPhraseLoop : PhraseState → List Char → Except Fault PhraseState
  | st, [] => insertPhraseWordEnd st
  | st, c :: cs =>
    if c ≠ ' ' then insertPhraseLoop ⟨st.root, st.previousWordNode, st.word ++ [c]⟩ cs
    else
      match insertPhraseWordEnd st with
      | .error e => .error e
      | .ok st1 => insertPhraseLoop st1 cs

/-- `insertPhrase`: returns the trie after the call. -/
def insertPhrase (root : TrieNode) (phrase : List Char) : Except Fault TrieNode :=
  match root with
  | .null => .ok .null
  | .node c ch s =>
    if phrase.length = 0 then .ok (.node c ch s)
    else
      match insertPhraseLoop ⟨.node c ch s, none, []⟩ (stripPunctuators (strlwr phrase)) with
      | .error e => .error e
      | .ok st => .ok st.root

/-- The loop of `buildTrie` over the lines read from the file. -/
def insertPhrases : TrieNode → List (List Char) → Except Fault TrieNode
  | root, [] => .ok root
  | root, phrase :: rest =>
    match insertPhrase root phrase with
    | .error e => .error e
    | .ok root1 => insertPhrases root1 rest

/-- `buildTrie` on the lines of the file: a fresh root, then `insertPhrase`
for each line in turn. -/
def buildTrie (phrases : List (List Char)) : Except Fault TrieNode :=
  insertPhrases createTrieNode phrases

/-- The letter `'a' + i`. -/
def letterOf (i : Fin 26) : Char := Char.ofNat (97 + i.val)

/-- `printTrieNodeWordsSimpleFormat`: `out` is what has been printed so far,
one pair per line `word (count)`. -/
def printTrieNodeWordsSimpleFormat :
    TrieNode → List Char → List (List Char × Int) → List (List Char × Int)
  | .null, _, out => out
  | .node count ch s, word, out =>
    let out := if 0 < count then out ++ [(word, count)] else out
    if 0 < getNumberOfChildren (.node count ch s) then
      (List.finRange 26).foldl (fun out i =>
        if (ch i).isNull then out
        else printTrieNodeWordsSimpleFormat (ch i) (word ++ [letterOf i]) out) out
    else out

/-- `printTrieSimpleFormat`: the lines printed for the trie. -/
def printTrieSimpleFormat : TrieNode → List (List Char × Int)
  | .null => []
  | .node count ch s =>
    if 0 < getNumberOfChildren (.node count ch s) then
      (List.finRange 26).foldl (fun out i =>
        if (ch i).isNull then out
        else printTrieNodeWordsSimpleFormat (ch i) [letterOf i] out) []
    else []

/-- `getTrieNodeWords`: returns the buffer `listOfWords` after the call. -/
def getTrieNodeWords : TrieNode → List Char → List Char → List Char
  | .null, listOfWords, _ => listOfWords
  | .node count ch s, listOfWords, word =>
    let listOfWords := if 0 < count then listOfWords ++ word ++ [' '] else listOfWords
    if 0 < getNumberOfChildren (.node count ch s) then
      (List.finRange 26).foldl (fun acc i =>
        if (ch i).isNull then acc
        else getTrieNodeWords (ch i) acc (word ++ [letterOf i])) listOfWords
    else listOfWords

/-- `getTrieWords`: returns the buffer `listOfWords` after the call. -/
def getTrieWords : TrieNode → List Char → List Char
  | .null, listOfWords => listOfWords
  | .node count ch s, listOfWords =>
    if 0 < getNumberOfChildren (.node count ch s) then
      (List.finRange 26).foldl (fun acc i =>
        if (ch i).isNull then acc
        else getTrieNodeWords (ch i) acc [letterOf i]) listOfWords
    else listOfWords

/-- The variables of the search loop of `getTextPrediction`;
`mostFrequentWord` is `none` until the first `strcpy` into it. -/
structure ScanState where
  word : List Char
  maxFrequency : Int
  mostFrequentWord : Option (List Char)

/-- The search loop of `getTextPrediction` over `listOfWords[i]`,
`i < strlen(listOfWords)`. -/
def getTextPredictionScan (subtrie : TrieNode) : ScanState → List Char → Except Fault ScanState
  | st, [] => .ok st
  | st, c :: cs =>
    if c ≠ ' ' then
      getTextPredictionScan subtrie ⟨st.word ++ [c], st.maxFrequency, st.mostFrequentWord⟩ cs
    else
      match getTrieNode subtrie st.word with
      | .error e => .error e
      | .ok .null => getTextPredictionScan subtrie ⟨[], st.maxFrequency, st.mostFrequentWord⟩ cs
      | .ok (.node count _ _) =>
        if st.maxFrequency < count then
          getTextPredictionScan subtrie ⟨[], count, some st.word⟩ cs
        else
          getTextPredictionScan subtrie ⟨[], st.maxFrequency, st.mostFrequentWord⟩ cs

/-- What a prediction run printed: the predicted words in order, up to the
fault that ended the run, if any. -/
structure Printed where
  words : List (List Char)
  fault : Option Fault
  deriving DecidableEq, Repr

/-- `getTextPrediction` for a counter that is not negative. -/
def getTextPrediction (root : TrieNode) : TrieNode → Nat → Printed
  | .null, _ => ⟨[], none⟩
  | .node _ _ _, 0 => ⟨[], none⟩
  | .node _ _ subtrie, counter + 1 =>
    match getTextPredictionScan subtrie ⟨[], 0, none⟩ (getTrieWords subtrie []) with
    | .error e => ⟨[], some e⟩
    | .ok st =>
      match st.mostFrequentWord with
      | none => ⟨[], some .uninitialised⟩
      | some mostFrequentWord =>
        match getTrieNode root mostFrequentWord with
        | .error e => ⟨[mostFrequentWord], some e⟩
        | .ok nextWord =>
          if nextWord.isNull then ⟨[mostFrequentWord], none⟩
          else if nextWord.subtrieOf.isNull then ⟨[mostFrequentWord], none⟩
          else
            let rest := getTextPrediction root nextWord counter
            ⟨mostFrequentWord :: rest.words, rest.fault⟩

/-- `atoi` on a string of decimal digits. -/
def atoi (number : List Char) : Nat :=
  number.foldl (fun n d => 10 * n + (d.toNat - 48)) 0

/-- The splitting loop of `eventCommand2`: the letters of the command go to
`word`, its digits to `number`. -/
def eventCommand2Split : List Char → List Char × List Char
  | [] => ([], [])
  | c :: cs =>
    let r := eventCommand2Split cs
    if c.isAlpha && c ≠ ' ' then (c :: r.1, r.2)
    else if c.isDigit && c ≠ ' ' then (r.1, c :: r.2)
    else r

/-- `eventCommand2`: the echoed seed word and the prediction printed after it. -/
def eventCommand2 (root : TrieNode) (phrase : List Char) : List Char × Printed :=
  match root with
  | .null => ([], ⟨[], none⟩)
  | .node c ch s =>
    let word := (eventCommand2Split phrase).1
    let numberOfWords := atoi (eventCommand2Split phrase).2
    match getTrieNode (.node c ch s) word with
    | .error e => (word, ⟨[], some e⟩)
    | .ok node =>
      if node.isNull then (word, ⟨[], none⟩)
      else if node.subtrieOf.isNull then (word, ⟨[], none⟩)
      else (word, getTextPrediction (.node c ch s) node numberOfWords)


/-! ## Definitions used by the statements and the proofs -/

/-- The word spelled by a path of child indices. -/
def wordOf (p : List (Fin 26)) : List Char := p.map letterOf

/-- The child index `c - 'a'` of a lowercase letter (reduced into range for
any other character). -/
def indexOf (c : Char) : Fin 26 := ⟨(c.toNat - 97) % 26, Nat.mod_lt _ (by decide)⟩

/-- The path of child indices spelled by a word of lowercase letters. -/
def pathOf (w : List Char) : List (Fin 26) := w.map indexOf

/-- All pairs of a path below the node (the empty path for the node itself)
and the count stored there, for the counts greater than 0, in the order of
the depth-first traversal by ascending child index. -/
def entries : TrieNode → List (List (Fin 26) × Int)
  | .null => []
  | .node c ch _ =>
    (if 0 < c then [([], c)] else []) ++
      ((List.finRange 26).map (fun i => (entries (ch i)).map (fun e => (i :: e.1, e.2)))).flatten

/-- The entries strictly below the node. -/
def entriesBelow : TrieNode → List (List (Fin 26) × Int)
  | .null => []
  | .node _ ch _ =>
    ((List.finRange 26).map (fun i => (entries (ch i)).map (fun e => (i :: e.1, e.2)))).flatten

/-- The child to descend into: the existing child, or a fresh node when the
slot holds `NULL`. -/
def orCreate (n : TrieNode) : TrieNode := if n.isNull then createTrieNode else n

/-- The trie after inserting the word spelled by a path of child indices. -/
def insertPath : TrieNode → List (Fin 26) → TrieNode
  | .null, _ => .null
  | .node c ch s, [] => .node c ch s
  | .node c ch s, [i] => .node c (setChild ch i (incrementCount (orCreate (ch i)))) s
  | .node c ch s, i :: j :: r => .node c (setChild ch i (insertPath (orCreate (ch i)) (j :: r))) s

/-- The trie after the `else` branch of the loop of `insertPhrase` for the
word spelled by `p`, when `previousWordNode` is `prev`. -/
def linkStep (root : TrieNode) (prev : Option (List (Fin 26))) (p : List (Fin 26)) : TrieNode :=
  match prev with
  | none => insertPath root p
  | some r =>
    insertPath (setSubtrieAt (insertPath (orCreate (root.deref r).subtrieOf) p) root r) p

/-- The count stored at a path. -/
def cnt (t : TrieNode) (q : List (Fin 26)) : Int := (t.deref q).countOf

/-- The count stored at path `b` of the subtrie of the node at path `a`. -/
def fol (t : TrieNode) (a b : List (Fin 26)) : Int :=
  (((t.deref a).subtrieOf).deref b).countOf

/-- The text of a phrase: its words separated by single spaces. -/
def phraseText : List (List Char) → List Char
  | [] => []
  | [w] => w
  | w :: v :: rest => w ++ ' ' :: phraseText (v :: rest)

/-- The pairs of neighbours of a list, in order. -/
def adjacentPairs {α : Type} : List α → List (α × α)
  | a :: b :: rest => (a, b) :: adjacentPairs (b :: rest)
  | _ => []

/-- A corpus is a list of phrases, each a list of words; it is well formed
when every word is a non-empty string of lowercase letters. -/
def WellFormed (corpus : List (List (List Char))) : Prop :=
  ∀ ph ∈ corpus, ∀ w ∈ ph, w ≠ [] ∧ ∀ c ∈ w, c.isLower = true

instance (corpus : List (List (List Char))) : Decidable (WellFormed corpus) := by
  unfold WellFormed; infer_instance

/-- The number of occurrences of a word in the corpus. -/
def occurrences (corpus : List (List (List Char))) (w : List Char) : Nat :=
  corpus.flatten.count w

/-- The number of places of the corpus where `v` comes immediately after `w`
inside one phrase. -/
def followCount (corpus : List (List (List Char))) (w v : List Char) : Nat :=
  (corpus.map (fun ph => (adjacentPairs ph).count (w, v))).sum

/-- The trie after the words spelled by `ps` were completed in turn by the
loop of `insertPhrase`, starting with `previousWordNode = prev`. -/
def insertPaths (root : TrieNode) (prev : Option (List (Fin 26))) :
    List (List (Fin 26)) → TrieNode
  | [] => root
  | p :: ps => insertPaths (linkStep root prev p) (some p) ps

/-- The trie after the phrases spelled by `pc` were inserted in turn. -/
def insertCorpus (root : TrieNode) : List (List (List (Fin 26))) → TrieNode
  | [] => root
  | ps :: rest => insertCorpus (insertPaths root none ps) rest

/-- The search loop of `getTextPrediction` on the printed pairs rather than on
the buffer: the running maximum and the word that reached it first. -/
def pickBest : Int × Option (List Char) → List (List Char × Int) → Int × Option (List Char)
  | st, [] => st
  | st, e :: rest => pickBest (if st.1 < e.2 then (e.2, some e.1) else st) rest

/-- What `getTextPrediction` does after it has chosen `mostFrequentWord`:
it prints the word, resolves it in `root` and goes on from there. -/
def predictionAfter (root : TrieNode) (mostFrequentWord : List Char) (counter : Nat) : Printed :=
  match getTrieNode root mostFrequentWord with
  | .error e => ⟨[mostFrequentWord], some e⟩
  | .ok nextWord =>
    if nextWord.isNull then ⟨[mostFrequentWord], none⟩
    else if nextWord.subtrieOf.isNull then ⟨[mostFrequentWord], none⟩
    else
      let rest := getTextPrediction root nextWord counter
      ⟨mostFrequentWord :: rest.words, rest.fault⟩

/-- The query as the specification normalises it: the letters of the string,
lowercased, every other character deleted. -/
def lettersOnly (word : List Char) : List Char :=
  (word.filter Char.isAlpha).map Char.toLower

/-- The corpus of the two phrases `the cat sat` and `the dog sat`. -/
def corpusTheCat : List (List (List Char)) :=
  [["the".toList, "cat".toList, "sat".toList], ["the".toList, "dog".toList, "sat".toList]]

/-- The trie built from the lines of a file (`NULL` if the build faults). -/
def builtTrie (phrases : List (List Char)) : TrieNode :=
  match buildTrie phrases with
  | .ok root => root
  | .error _ => .null

/-- The trie of the lines `the cat sat`, `the dog sat`. -/
def trieTheCat : TrieNode := builtTrie ["the cat sat".toList, "the dog sat".toList]

/-- The trie of the lines `a x`, `a y`. -/
def trieAXY : TrieNode := builtTrie ["a x".toList, "a y".toList]

/-- The trie of the lines `i like cats`, `i like dogs`, `i like cats`. -/
def trieILike : TrieNode :=
  builtTrie ["i like cats".toList, "i like dogs".toList, "i like cats".toList]

/-- The trie of the single line `ab`. -/
def trieAB : TrieNode := builtTrie ["ab".toList]

/-- The path of child indices that `insertWord` follows for a word:
`getIndex` lowercases each letter. -/
def indexPath (word : List Char) : List (Fin 26) := word.map (fun c => indexOf c.toLower)

/-- The sum of the counts of the nodes reachable from a node through
children, the node included and subtries excluded. -/
def totalCount : TrieNode → Int
  | .null => 0
  | .node c ch _ => c + ((List.finRange 26).map (fun i => totalCount (ch i))).sum

/-- The trie of the single line `a b a`, whose follow relation is cyclic. -/
def trieABA : TrieNode := builtTrie ["a b a".toList]

/-- The words that the loop of `insertPhrase` completes on a normalised text,
in order: the pieces between the spaces, the first of them continuing the
`word` read so far. A piece is empty where two spaces meet and where the text
starts or ends with a space. -/
def tokensAux : List Char → List Char → List (List Char)
  | buf, [] => [buf]
  | buf, c :: cs => if c ≠ ' ' then tokensAux (buf ++ [c]) cs else buf :: tokensAux [] cs

/-- The paths of the words that `insertPhrase` completes for a phrase. -/
def phraseTokens (phrase : List Char) : List (List (Fin 26)) :=
  (tokensAux [] (stripPunctuators (strlwr phrase))).map pathOf

/-- The value of `previousWordNode` after the word spelled by `p` was
completed: `insertWord` returns `NULL` for the empty word. -/
def nextPrev (p : List (Fin 26)) : Option (List (Fin 26)) := if p = [] then none else some p

/-- The trie after the words spelled by `ps`, empty ones included, were
completed in turn by the loop of `insertPhrase`. -/
def insertTokens (root : TrieNode) (prev : Option (List (Fin 26))) :
    List (List (Fin 26)) → TrieNode
  | [] => root
  | p :: ps => insertTokens (linkStep root prev p) (nextPrev p) ps

/-- The words completed while `previousWordNode` pointed to the node at `q`. -/
def followersOf (q : List (Fin 26)) : Option (List (Fin 26)) → List (List (Fin 26)) →
    List (List (Fin 26))
  | _, [] => []
  | prev, p :: ps => (if prev = some q then [p] else []) ++ followersOf q (nextPrev p) ps

/-- What the loop of `insertPhrase` does to the subtrie of the previous word:
it creates the subtrie when it is `NULL` and inserts the word. -/
def extendSubtrie (s : TrieNode) (p : List (Fin 26)) : TrieNode := insertPath (orCreate s) p

/-- How often the non-empty path `q` occurs among the completed words. -/
def tokenCount (q : List (Fin 26)) : List (List (Fin 26)) → Int
  | [] => 0
  | p :: ps => (if q = p ∧ p ≠ [] then 1 else 0) + tokenCount q ps

/-- The trie of the single line `a  b`, with two spaces. -/
def trieTwoSpaces : TrieNode := builtTrie ["a  b".toList]

/-- The trie of the single line `a - b`. -/
def trieDash : TrieNode := builtTrie ["a - b".toList]

/-- The trie of the single line `a b`. -/
def trieOneSpace : TrieNode := builtTrie ["a b".toList]

/-- The trie of the single line `a `, which ends with a space. -/
def trieTrailingSpace : TrieNode := builtTrie ["a ".toList]

/-- What `eventCommand3` prints after the echoed string: `(INVALID STRING)`,
`(EMPTY)`, or the lines of `printTrieNodeWordsSimpleFormat` for the subtrie
with the partial word `- `. -/
inductive SearchResult where
  | invalidString
  | empty
  | followers (lines : List (List Char × Int))
  | fault (e : Fault)
  deriving DecidableEq

/-- `eventCommand3`: the echoed string and what is printed after it; `none`
when nothing is printed for a `NULL` root. -/
def eventCommand3 (root : TrieNode) (word : List Char) : Option (List Char × SearchResult) :=
  match root with
  | .null => none
  | .node c ch s =>
    match getTrieNode (.node c ch s) word with
    | .error e => some (word, .fault e)
    | .ok node =>
      if node.isNull then some (word, .invalidString)
      else if node.subtrieOf.isNull then some (word, .empty)
      else some (word, .followers (printTrieNodeWordsSimpleFormat node.subtrieOf "- ".toList []))

/-- The trie after the phrases whose completed words are `tl`, phrase by
phrase, were inserted in turn: `previousWordNode` starts at `NULL` in each
phrase. -/
def insertTokenLists (root : TrieNode) : List (List (List (Fin 26))) → TrieNode
  | [] => root
  | ps :: rest => insertTokenLists (insertTokens root none ps) rest

/-- The words that the loop of `insertPhrase` completes for the lines of a
file, empty ones included: the pieces between the spaces of each normalised
line. -/
def completedWords (phrases : List (List Char)) : List (List Char) :=
  (phrases.map (fun phrase => tokensAux [] (stripPunctuators (strlwr phrase)))).flatten

/-- The words that `insertPhrase` inserts for the lines of a file: the
non-empty completed words. -/
def insertedWords (phrases : List (List Char)) : List (List Char) :=
  (completedWords phrases).filter (fun w => w ≠ [])

/-! ## The trie in memory

The read operations once more, this time on the structs in memory: a pointer
is an address, and every call takes the memory it runs on and gives back the
memory it leaves. -/

/-- Modelled from the spec: the struct `TrieNode` of the missing header as it
lies in memory. A pointer to a node is the address of its struct, `none` is
`NULL`. -/
structure Cell where
  count : Int
  children : Fin 26 → Option Nat
  subtrie : Option Nat

/-- The memory that holds the nodes: the struct at each address. -/
def Heap : Type := Nat → Cell

/-- How a call that works on the nodes in memory ends: it returns a value and
leaves a memory, or it runs into undefined behaviour, or its recursion goes
deeper than the nesting that is followed. -/
inductive Outcome (α : Type) where
  | returned (value : α) (heap : Heap)
  | fault (e : Fault)
  | nullDereference
  | tooDeep

/-- Sequencing: what follows a call runs on the value it returned and on the
memory it left. -/
def Outcome.andThen {α β : Type} (o : Outcome α) (f : α → Heap → Outcome β) : Outcome β :=
  match o with
  | .returned value heap => f value heap
  | .fault e => .fault e
  | .nullDereference => .nullDereference
  | .tooDeep => .tooDeep

/-- `getNumberOfChildren` on the node at an address. -/
def Mem.getNumberOfChildren (heap : Heap) : Option Nat → Outcome Nat
  | none => .returned 0 heap
  | some node =>
    .returned ((List.finRange 26).foldl
      (fun numberOfChildren i =>
        if ((heap node).children i).isNone then numberOfChildren
        else numberOfChildren + 1) 0) heap

/-- The loop of `getTrieNode` over the letters of the normalised word, started
at the node at an address. -/
def Mem.getTrieNodeLoop (heap : Heap) : Nat → List Char → Outcome (Option Nat)
  | node, [] => .returned (some node) heap
  | node, letter :: rest =>
    if h : 0 ≤ (letter.toNat : Int) - 97 ∧ (letter.toNat : Int) - 97 < 26 then
      match (heap node).children ⟨((letter.toNat : Int) - 97).toNat, by omega⟩ with
      | none => .returned none heap
      | some child => Mem.getTrieNodeLoop heap child rest
    else .fault .outOfBounds

/-- `getTrieNode` on the nodes in memory: the pointer it returns and the
memory it leaves. -/
def Mem.getTrieNode (heap : Heap) (root : Option Nat) (word : List Char) :
    Outcome (Option Nat) :=
  match root with
  | none => .returned none heap
  | some root =>
    let word := stripPunctuators (strlwr word)
    if word.length = 0 then .returned none heap
    else Mem.getTrieNodeLoop heap root word

/-- `getTrieNodeWords` on the nodes in memory: the buffer `listOfWords` after
the call and the memory it leaves. Each turn of the loop reads
`node->children[i]` from the memory that the turn before left. The first
argument is the number of nested calls that are followed. -/
def Mem.getTrieNodeWords :
    Nat → Heap → Option Nat → List Char → List Char → Outcome (List Char)
  | _, heap, none, listOfWords, _ => .returned listOfWords heap
  | 0, _, some _, _, _ => .tooDeep
  | depth + 1, heap, some node, listOfWords, word =>
    let listOfWords :=
      if 0 < (heap node).count then listOfWords ++ word ++ [' '] else listOfWords
    (Mem.getNumberOfChildren heap (some node)).andThen fun numberOfChildren heap =>
      if 0 < numberOfChildren then
        (List.finRange 26).foldl (fun acc i =>
          acc.andThen fun listOfWords heap =>
            match (heap node).children i with
            | none => .returned listOfWords heap
            | some child =>
              Mem.getTrieNodeWords depth heap (some child) listOfWords (word ++ [letterOf i]))
          (.returned listOfWords heap)
      else .returned listOfWords heap

/-- `getTrieWords` on the nodes in memory. -/
def Mem.getTrieWords (depth : Nat) (heap : Heap) (root : Option Nat)
    (listOfWords : List Char) : Outcome (List Char) :=
  match root with
  | none => .returned listOfWords heap
  | some root =>
    (Mem.getNumberOfChildren heap (some root)).andThen fun numberOfChildren heap =>
      if 0 < numberOfChildren then
        (List.finRange 26).foldl (fun acc i =>
          acc.andThen fun listOfWords heap =>
            match (heap root).children i with
            | none => .returned listOfWords heap
            | some child =>
              Mem.getTrieNodeWords depth heap (some child) listOfWords [letterOf i])
          (.returned listOfWords heap)
      else .returned listOfWords heap

/-- `printTrieNodeWordsSimpleFormat` on the nodes in memory: `out` is what
has been printed so far, one pair per line `word (count)`. The first argument
is the number of nested calls that are followed. -/
def Mem.printTrieNodeWordsSimpleFormat :
    Nat → Heap → Option Nat → List Char → List (List Char × Int) →
      Outcome (List (List Char × Int))
  | _, heap, none, _, out => .returned out heap
  | 0, _, some _, _, _ => .tooDeep
  | depth + 1, heap, some node, word, out =>
    let out := if 0 < (heap node).count then out ++ [(word, (heap node).count)] else out
    (Mem.getNumberOfChildren heap (some node)).andThen fun numberOfChildren heap =>
      if 0 < numberOfChildren then
        (List.finRange 26).foldl (fun acc i =>
          acc.andThen fun out heap =>
            match (heap node).children i with
            | none => .returned out heap
            | some child =>
              Mem.printTrieNodeWordsSimpleFormat depth heap (some child)
                (word ++ [letterOf i]) out)
          (.returned out heap)
      else .returned out heap

/-- `printTrieSimpleFormat` on the nodes in memory: the lines printed for the
trie and the memory that the call leaves. -/
def Mem.printTrieSimpleFormat (depth : Nat) (heap : Heap) (root : Option Nat) :
    Outcome (List (List Char × Int)) :=
  match root with
  | none => .returned [] heap
  | some root =>
    (Mem.getNumberOfChildren heap (some root)).andThen fun numberOfChildren heap =>
      if 0 < numberOfChildren then
        (List.finRange 26).foldl (fun acc i =>
          acc.andThen fun out heap =>
            match (heap root).children i with
            | none => .returned out heap
            | some child =>
              Mem.printTrieNodeWordsSimpleFormat depth heap (some child) [letterOf i] out)
          (.returned [] heap)
      else .returned [] heap

/-- The search loop of `getTextPrediction` on the nodes in memory. At the end
of a word the code calls `getTrieNode(node->subtrie, word)` up to three times:
for the test against `NULL`, for the comparison of `count` with
`maxFrequency`, and for the assignment to `maxFrequency`; each call reads
`node->subtrie` from the memory that the call before left. -/
def Mem.getTextPredictionScan (node : Nat) : Heap → ScanState → List Char → Outcome ScanState
  | heap, st, [] => .returned st heap
  | heap, st, c :: cs =>
    if c ≠ ' ' then
      Mem.getTextPredictionScan node heap
        ⟨st.word ++ [c], st.maxFrequency, st.mostFrequentWord⟩ cs
    else
      (Mem.getTrieNode heap (heap node).subtrie st.word).andThen fun found heap =>
        match found with
        | none =>
          Mem.getTextPredictionScan node heap ⟨[], st.maxFrequency, st.mostFrequentWord⟩ cs
        | some _ =>
          (Mem.getTrieNode heap (heap node).subtrie st.word).andThen fun compared heap =>
            match compared with
            | none => .nullDereference
            | some compared =>
              if st.maxFrequency < (heap compared).count then
                (Mem.getTrieNode heap (heap node).subtrie st.word).andThen fun assigned heap =>
                  match assigned with
                  | none => .nullDereference
                  | some assigned =>
                    Mem.getTextPredictionScan node heap
                      ⟨[], (heap assigned).count, some st.word⟩ cs
              else
                Mem.getTextPredictionScan node heap
                  ⟨[], st.maxFrequency, st.mostFrequentWord⟩ cs

/-- `getTextPrediction` on the nodes in memory, for a counter that is not
negative: the words it prints and the memory it leaves. -/
def Mem.getTextPrediction (depth : Nat) (root : Option Nat) :
    Heap → Option Nat → Nat → Outcome (List (List Char))
  | heap, none, _ => .returned [] heap
  | heap, some _, 0 => .returned [] heap
  | heap, some node, counter + 1 =>
    (Mem.getTrieWords depth heap (heap node).subtrie []).andThen fun listOfWords heap =>
      (Mem.getTextPredictionScan node heap ⟨[], 0, none⟩ listOfWords).andThen fun st heap =>
        match st.mostFrequentWord with
        | none => .fault .uninitialised
        | some mostFrequentWord =>
          (Mem.getTrieNode heap root mostFrequentWord).andThen fun nextWord heap =>
            match nextWord with
            | none => .returned [mostFrequentWord] heap
            | some next =>
              if (heap next).subtrie.isNone then .returned [mostFrequentWord] heap
              else
                (Mem.getTextPrediction depth root heap (some next) counter).andThen
                  fun rest heap => .returned (mostFrequentWord :: rest) heap

/-- The trie value that the structs reachable from a pointer make up: the
pointer is `NULL` for `NULL`, and otherwise its struct holds the count of the
node and pointers that stand for its children and its subtrie. -/
def represents (heap : Heap) : Option Nat → TrieNode → Bool
  | none, .null => true
  | none, .node _ _ _ => false
  | some _, .null => false
  | some a, .node count children subtrie =>
    decide ((heap a).count = count)
      && (List.finRange 26).all (fun i => represents heap ((heap a).children i) (children i))
      && represents heap (heap a).subtrie subtrie

/-- The number of nodes on the longest chain of children and subtries that
starts at a node. -/
def TrieNode.height : TrieNode → Nat
  | .null => 0
  | .node _ children subtrie =>
    1 + max ((List.finRange 26).foldl (fun m i => max m (height (children i))) 0)
          (height subtrie)

/-- What a call on the nodes in memory gives when it leaves the memory as it
is and ends like the call on the trie value. -/
def Outcome.ofExcept {α : Type} (heap : Heap) : Except Fault α → Outcome α
  | .ok value => .returned value heap
  | .error e => .fault e

/-- What a prediction on the nodes in memory gives when it leaves the memory
as it is and prints like the prediction on the trie value. -/
def Outcome.ofPrinted (heap : Heap) (printed : Printed) : Outcome (List (List Char)) :=
  match printed.fault with
  | none => .returned printed.words heap
  | some e => .fault e

/-- The trie of the line `a b a` in memory: the root at address 0, its
children `a` and `b` at 1 and 2, the subtrie of `a` at 3 with the node of `b`
at 4, the subtrie of `b` at 5 with the node of `a` at 6. -/
def heapABA : Heap := fun address =>
  match address with
  | 0 => ⟨0, fun i => if i = 0 then some 1 else if i = 1 then some 2 else none, none⟩
  | 1 => ⟨2, fun _ => none, some 3⟩
  | 2 => ⟨1, fun _ => none, some 5⟩
  | 3 => ⟨0, fun i => if i = 1 then some 4 else none, none⟩
  | 4 => ⟨1, fun _ => none, none⟩
  | 5 => ⟨0, fun i => if i = 0 then some 6 else none, none⟩
  | 6 => ⟨1, fun _ => none, none⟩
  | _ => ⟨0, fun _ => none, none⟩

/-- A call ended without a change to the memory `heap` it was given: if it
returned, the memory it left is `heap`. -/
def Outcome.leaves {α : Type} (heap : Heap) (o : Outcome α) : Prop :=
  ∀ value heap1, o = .returned value heap1 → heap1 = heap

/-! # Theorems -/

set_option maxRecDepth 100000

/-! ## Letters, paths and words -/

theorem letterOf_toNat (i : Fin 26) : (letterOf i).toNat = 97 + i.val := by
  revert i; decide

theorem letterOf_isLower (i : Fin 26) : (letterOf i).isLower = true := by
  revert i; decide

theorem letterOf_isAlpha (i : Fin 26) : (letterOf i).isAlpha = true := by
  revert i; decide

theorem letterOf_toLower (i : Fin 26) : (letterOf i).toLower = letterOf i := by
  revert i; decide

theorem letterOf_ne_space (i : Fin 26) : letterOf i ≠ ' ' := by
  revert i; decide

theorem indexOf_letterOf (i : Fin 26) : indexOf (letterOf i) = i := by
  revert i; decide

theorem letterOf_lt_iff (i j : Fin 26) : letterOf i < letterOf j ↔ i < j := by
  revert i j; decide

theorem letterOf_injective : Function.Injective letterOf := by
  intro i j h
  have := congrArg indexOf h
  simpa [indexOf_letterOf] using this

theorem isLower_iff (c : Char) : c.isLower = true ↔ 97 ≤ c.toNat ∧ c.toNat ≤ 122 := by
  simp only [Char.isLower, Bool.and_eq_true, decide_eq_true_eq]
  constructor
  · rintro ⟨h1, h2⟩
    exact ⟨h1, h2⟩
  · rintro ⟨h1, h2⟩
    exact ⟨h1, h2⟩

theorem letterOf_indexOf (c : Char) (h : c.isLower = true) : letterOf (indexOf c) = c := by
  rw [isLower_iff] at h
  have e : 97 + (c.toNat - 97) % 26 = c.toNat := by omega
  simp only [letterOf, indexOf, e, Char.ofNat_toNat]

theorem toLower_of_isLower (c : Char) (h : c.isLower = true) : c.toLower = c := by
  rw [isLower_iff] at h
  simp only [Char.toLower]
  split
  · omega
  · rfl

theorem isAlpha_of_isLower (c : Char) (h : c.isLower = true) : c.isAlpha = true := by
  simp [Char.isAlpha, h]

theorem ne_space_of_isLower (c : Char) (h : c.isLower = true) : c ≠ ' ' := by
  rintro rfl
  exact absurd h (by decide)

theorem wordOf_pathOf (w : List Char) (h : ∀ c ∈ w, c.isLower = true) : wordOf (pathOf w) = w := by
  induction w with
  | nil => rfl
  | cons c cs ih =>
    simp only [wordOf, pathOf, List.map_cons, List.map_map] at ih ⊢
    rw [letterOf_indexOf c (h c (List.mem_cons_self _ _))]
    congr 1
    exact ih (fun d hd => h d (List.mem_cons_of_mem _ hd))

theorem pathOf_wordOf (p : List (Fin 26)) : pathOf (wordOf p) = p := by
  induction p with
  | nil => rfl
  | cons i is ih =>
    simp only [wordOf, pathOf, List.map_cons, List.map_map] at ih ⊢
    rw [indexOf_letterOf, ih]

theorem wordOf_injective : Function.Injective wordOf :=
  List.map_injective_iff.mpr letterOf_injective

theorem strlwr_wordOf (p : List (Fin 26)) : strlwr (wordOf p) = wordOf p := by
  induction p with
  | nil => rfl
  | cons i is ih =>
    simp only [strlwr, wordOf, List.map_cons] at ih ⊢
    rw [letterOf_toLower, ih]

theorem stripPunctuators_wordOf (p : List (Fin 26)) : stripPunctuators (wordOf p) = wordOf p := by
  induction p with
  | nil => rfl
  | cons i is ih =>
    simp only [wordOf, List.map_cons] at ih ⊢
    simp only [stripPunctuators, letterOf_isAlpha, Bool.true_or, if_true, letterOf_toLower, ih]

theorem childAt_letterOf (ch : Fin 26 → TrieNode) (i : Fin 26) :
    childAt ch (((letterOf i).toNat : Int) - 97) = .ok (ch i) := by
  have h : (((letterOf i).toNat : Int) - 97) = (i.val : Int) := by
    rw [letterOf_toNat]; push_cast; ring
  have hi := i.isLt
  rw [h, childAt, dif_pos ⟨by omega, by omega⟩]
  congr 2

theorem getTrieNodeLoop_wordOf (n : TrieNode) (p : List (Fin 26)) :
    getTrieNodeLoop n (wordOf p) = .ok (n.deref p) := by
  induction p generalizing n with
  | nil => cases n <;> rfl
  | cons i is ih =>
    cases n with
    | null => rfl
    | node c ch s =>
      simp only [wordOf, List.map_cons] at ih ⊢
      simp only [getTrieNodeLoop, childAt_letterOf, TrieNode.deref]
      exact ih (ch i)

theorem deref_null (p : List (Fin 26)) : TrieNode.null.deref p = .null := by
  cases p <;> rfl

theorem getTrieNode_wordOf (root : TrieNode) (p : List (Fin 26)) :
    getTrieNode root (wordOf p) = .ok (if p = [] then .null else root.deref p) := by
  cases root with
  | null => simp [getTrieNode, deref_null]
  | node c ch s =>
    simp only [getTrieNode, strlwr_wordOf, stripPunctuators_wordOf, getTrieNodeLoop_wordOf]
    cases p with
    | nil => simp [wordOf]
    | cons i is => simp [wordOf]

/-! ## The enumerators as lists of entries -/

theorem foldl_count_ge (ch : Fin 26 → TrieNode) (l : List (Fin 26)) (a : Nat) :
    a ≤ l.foldl (fun n i => if (ch i).isNull then n else n + 1) a := by
  induction l generalizing a with
  | nil => exact Nat.le_refl _
  | cons i is ih =>
    simp only [List.foldl_cons]
    split
    · exact ih a
    · exact Nat.le_trans (Nat.le_succ a) (ih (a + 1))

theorem foldl_count_eq (ch : Fin 26 → TrieNode) (l : List (Fin 26)) (a : Nat)
    (h : l.foldl (fun n i => if (ch i).isNull then n else n + 1) a = a) :
    ∀ i ∈ l, (ch i).isNull = true := by
  induction l generalizing a with
  | nil => intro i hi; cases hi
  | cons j js ih =>
    simp only [List.foldl_cons] at h
    by_cases hj : (ch j).isNull = true
    · simp only [hj, if_true] at h
      intro i hi
      rcases List.mem_cons.mp hi with rfl | hi
      · exact hj
      · exact ih a h i hi
    · simp only [hj] at h
      have := foldl_count_ge ch js (a + 1)
      simp only [Bool.false_eq_true, if_false] at h
      omega

theorem children_null_of_count_zero (c : Int) (ch : Fin 26 → TrieNode) (s : TrieNode)
    (h : ¬ 0 < getNumberOfChildren (.node c ch s)) (i : Fin 26) : (ch i).isNull = true := by
  have h0 : getNumberOfChildren (.node c ch s) = 0 := by omega
  exact foldl_count_eq ch _ 0 h0 i (List.mem_finRange i)

theorem entries_of_isNull (n : TrieNode) (h : n.isNull = true) : entries n = [] := by
  cases n with
  | null => rfl
  | node c ch s => cases h

/-- A loop over children that skips `NULL` children and otherwise appends. -/
theorem foldl_children_append {β : Type} (ch : Fin 26 → TrieNode)
    (step : Fin 26 → List β → List β) (g : Fin 26 → List β)
    (hstep : ∀ i out, step i out = out ++ g i)
    (hnull : ∀ i, (ch i).isNull = true → g i = [])
    (l : List (Fin 26)) (out : List β) :
    l.foldl (fun out i => if (ch i).isNull then out else step i out) out
      = out ++ (l.map g).flatten := by
  induction l generalizing out with
  | nil => simp
  | cons i is ih =>
    simp only [List.foldl_cons, List.map_cons, List.flatten_cons]
    by_cases hi : (ch i).isNull = true
    · simp only [hi, if_true, hnull i hi, List.nil_append]
      exact ih out
    · simp only [hi, Bool.false_eq_true, if_false]
      rw [ih, hstep, List.append_assoc]

theorem printTrieNodeWordsSimpleFormat_eq (n : TrieNode) :
    ∀ (word : List Char) (out : List (List Char × Int)),
      printTrieNodeWordsSimpleFormat n word out
        = out ++ (entries n).map (fun e => (word ++ wordOf e.1, e.2)) := by
  induction n with
  | null => intro word out; simp [printTrieNodeWordsSimpleFormat, entries]
  | node c ch s ih _ =>
    intro word out
    have key : ∀ out0 : List (List Char × Int),
        (List.finRange 26).foldl (fun out i =>
          if (ch i).isNull then out
          else printTrieNodeWordsSimpleFormat (ch i) (word ++ [letterOf i]) out) out0
        = out0 ++ ((List.finRange 26).map (fun i =>
            (entries (ch i)).map (fun e => (word ++ wordOf (i :: e.1), e.2)))).flatten := by
      intro out0
      apply foldl_children_append ch
        (fun i out => printTrieNodeWordsSimpleFormat (ch i) (word ++ [letterOf i]) out)
      · intro i out1
        rw [ih i]
        simp [wordOf]
      · intro i hi
        simp [entries_of_isNull _ hi]
    have hflat : ((List.finRange 26).map (fun i =>
            (entries (ch i)).map (fun e => (word ++ wordOf (i :: e.1), e.2)))).flatten
        = (((List.finRange 26).map (fun i =>
            (entries (ch i)).map (fun e => (i :: e.1, e.2)))).flatten).map
              (fun e => (word ++ wordOf e.1, e.2)) := by
      rw [List.map_flatten, List.map_map]
      congr 1
      apply List.map_congr_left
      intro i _
      simp [List.map_map, Function.comp]
    simp only [printTrieNodeWordsSimpleFormat, entries]
    by_cases hk : 0 < getNumberOfChildren (.node c ch s)
    · rw [if_pos hk, key, hflat]
      by_cases hc : 0 < c
      · simp [hc, wordOf]
      · simp [hc]
    · rw [if_neg hk]
      have hall := children_null_of_count_zero c ch s hk
      have hnil : ((List.finRange 26).map (fun i =>
            (entries (ch i)).map (fun e => (i :: e.1, e.2)))).flatten = [] := by
        rw [List.flatten_eq_nil_iff]
        intro l hl
        rcases List.mem_map.mp hl with ⟨i, _, rfl⟩
        simp [entries_of_isNull _ (hall i)]
      rw [hnil]
      by_cases hc : 0 < c
      · simp [hc, wordOf]
      · simp [hc]

theorem flatten_entries_nil (c : Int) (ch : Fin 26 → TrieNode) (s : TrieNode)
    (hk : ¬ 0 < getNumberOfChildren (.node c ch s)) :
    ((List.finRange 26).map (fun i =>
        (entries (ch i)).map (fun e => (i :: e.1, e.2)))).flatten = [] := by
  have hall := children_null_of_count_zero c ch s hk
  rw [List.flatten_eq_nil_iff]
  intro l hl
  rcases List.mem_map.mp hl with ⟨i, _, rfl⟩
  simp [entries_of_isNull _ (hall i)]

theorem printTrieSimpleFormat_eq (root : TrieNode) :
    printTrieSimpleFormat root = (entriesBelow root).map (fun e => (wordOf e.1, e.2)) := by
  cases root with
  | null => rfl
  | node c ch s =>
    simp only [printTrieSimpleFormat, entriesBelow]
    by_cases hk : 0 < getNumberOfChildren (.node c ch s)
    · rw [if_pos hk]
      rw [foldl_children_append ch
        (fun i out => printTrieNodeWordsSimpleFormat (ch i) [letterOf i] out)
        (fun i => (entries (ch i)).map (fun e => (wordOf (i :: e.1), e.2)))]
      · rw [List.nil_append, List.map_flatten, List.map_map]
        congr 1
        apply List.map_congr_left
        intro i _
        simp [List.map_map, Function.comp]
      · intro i out
        rw [printTrieNodeWordsSimpleFormat_eq]
        simp [wordOf]
      · intro i hi
        simp [entries_of_isNull _ hi]
    · rw [if_neg hk, flatten_entries_nil c ch s hk]
      rfl

theorem getTrieNodeWords_eq (n : TrieNode) :
    ∀ (listOfWords word : List Char),
      getTrieNodeWords n listOfWords word
        = listOfWords ++ ((entries n).map (fun e => word ++ wordOf e.1 ++ [' '])).flatten := by
  induction n with
  | null => intro listOfWords word; simp [getTrieNodeWords, entries]
  | node c ch s ih _ =>
    intro listOfWords word
    have key : ∀ acc0 : List Char,
        (List.finRange 26).foldl (fun acc i =>
          if (ch i).isNull then acc
          else getTrieNodeWords (ch i) acc (word ++ [letterOf i])) acc0
        = acc0 ++ ((List.finRange 26).map (fun i =>
            ((entries (ch i)).map (fun e => word ++ wordOf (i :: e.1) ++ [' '])).flatten)).flatten := by
      intro acc0
      apply foldl_children_append ch
        (fun i acc => getTrieNodeWords (ch i) acc (word ++ [letterOf i]))
      · intro i acc1
        rw [ih i]
        simp [wordOf]
      · intro i hi
        simp [entries_of_isNull _ hi]
    have hflat : ((List.finRange 26).map (fun i =>
            ((entries (ch i)).map (fun e => word ++ wordOf (i :: e.1) ++ [' '])).flatten)).flatten
        = ((((List.finRange 26).map (fun i =>
            (entries (ch i)).map (fun e => (i :: e.1, e.2)))).flatten).map
              (fun e => word ++ wordOf e.1 ++ [' '])).flatten := by
      rw [List.map_flatten, List.map_map, List.flatten_flatten, List.map_map]
      congr 1
      apply List.map_congr_left
      intro i _
      simp only [List.map_map, Function.comp_def]
    simp only [getTrieNodeWords, entries]
    by_cases hk : 0 < getNumberOfChildren (.node c ch s)
    · rw [if_pos hk, key, hflat]
      by_cases hc : 0 < c
      · simp [hc, wordOf]
      · simp [hc]
    · rw [if_neg hk, flatten_entries_nil c ch s hk]
      by_cases hc : 0 < c
      · simp [hc, wordOf]
      · simp [hc]

theorem getTrieWords_eq (root : TrieNode) (listOfWords : List Char) :
    getTrieWords root listOfWords
      = listOfWords ++ ((entriesBelow root).map (fun e => wordOf e.1 ++ [' '])).flatten := by
  cases root with
  | null => simp [getTrieWords, entriesBelow]
  | node c ch s =>
    simp only [getTrieWords, entriesBelow]
    by_cases hk : 0 < getNumberOfChildren (.node c ch s)
    · rw [if_pos hk]
      rw [foldl_children_append ch
        (fun i acc => getTrieNodeWords (ch i) acc [letterOf i])
        (fun i => ((entries (ch i)).map (fun e => wordOf (i :: e.1) ++ [' '])).flatten)]
      · rw [List.map_flatten, List.map_map, List.flatten_flatten, List.map_map]
        congr 2
        apply List.map_congr_left
        intro i _
        simp only [List.map_map, Function.comp_def]
      · intro i acc
        rw [getTrieNodeWords_eq]
        simp [wordOf]
      · intro i hi
        simp [entries_of_isNull _ hi]
    · rw [if_neg hk, flatten_entries_nil c ch s hk]
      simp

/-! ### What the entries are -/

theorem mem_entries (n : TrieNode) :
    ∀ (p : List (Fin 26)) (k : Int),
      (p, k) ∈ entries n ↔ (k = (n.deref p).countOf ∧ 0 < k) := by
  induction n with
  | null =>
    intro p k
    simp only [entries, List.not_mem_nil, deref_null, TrieNode.countOf, false_iff]
    omega
  | node c ch s ih _ =>
    intro p k
    simp only [entries, List.mem_append, List.mem_flatten, List.mem_map, List.mem_finRange,
      true_and]
    cases p with
    | nil =>
      simp only [TrieNode.deref, TrieNode.countOf]
      constructor
      · rintro (h | ⟨l, ⟨i, rfl⟩, hl⟩)
        · by_cases hc : 0 < c
          · simp only [hc, if_true, List.mem_singleton, Prod.mk.injEq, true_and] at h
            subst h; exact ⟨rfl, hc⟩
          · simp [hc] at h
        · rcases List.mem_map.mp hl with ⟨e, _, he⟩
          simp at he
      · rintro ⟨rfl, hk⟩
        left
        simp [hk]
    | cons i is =>
      simp only [TrieNode.deref]
      rw [← ih i is k]
      constructor
      · rintro (h | ⟨l, ⟨j, rfl⟩, hl⟩)
        · by_cases hc : 0 < c
          · simp [hc] at h
          · simp [hc] at h
        · rcases List.mem_map.mp hl with ⟨e, he, hee⟩
          simp only [Prod.mk.injEq, List.cons.injEq] at hee
          obtain ⟨⟨rfl, rfl⟩, rfl⟩ := hee
          exact he
      · intro h
        right
        exact ⟨_, ⟨i, rfl⟩, List.mem_map.mpr ⟨(is, k), h, rfl⟩⟩

theorem mem_entriesBelow (n : TrieNode) (p : List (Fin 26)) (k : Int) :
    (p, k) ∈ entriesBelow n ↔ (p ≠ [] ∧ k = (n.deref p).countOf ∧ 0 < k) := by
  cases n with
  | null =>
    simp only [entriesBelow, List.not_mem_nil, deref_null, TrieNode.countOf, false_iff]
    omega
  | node c ch s =>
    simp only [entriesBelow, List.mem_flatten, List.mem_map, List.mem_finRange, true_and]
    cases p with
    | nil =>
      simp only [ne_eq, not_true_eq_false, false_and, iff_false]
      rintro ⟨l, ⟨j, rfl⟩, hl⟩
      rcases List.mem_map.mp hl with ⟨e, _, he⟩
      simp at he
    | cons i is =>
      simp only [TrieNode.deref, ne_eq, reduceCtorEq, not_false_eq_true, true_and]
      rw [← mem_entries (ch i) is k]
      constructor
      · rintro ⟨l, ⟨j, rfl⟩, hl⟩
        rcases List.mem_map.mp hl with ⟨e, he, hee⟩
        simp only [Prod.mk.injEq, List.cons.injEq] at hee
        obtain ⟨⟨rfl, rfl⟩, rfl⟩ := hee
        exact he
      · intro h
        exact ⟨_, ⟨i, rfl⟩, List.mem_map.mpr ⟨(is, k), h, rfl⟩⟩

/-! ### The entries are listed in strictly increasing lexicographic order -/

theorem entries_eq_append (c : Int) (ch : Fin 26 → TrieNode) (s : TrieNode) :
    entries (.node c ch s)
      = (if 0 < c then [([], c)] else []) ++ entriesBelow (.node c ch s) := rfl

theorem entriesBelow_sorted_of (ch : Fin 26 → TrieNode)
    (ih : ∀ i, (entries (ch i)).Pairwise (fun a b => a.1 < b.1)) :
    (((List.finRange 26).map (fun i =>
        (entries (ch i)).map (fun e => (i :: e.1, e.2)))).flatten).Pairwise
      (fun a b => a.1 < b.1) := by
  rw [List.pairwise_flatten]
  constructor
  · intro l hl
    rcases List.mem_map.mp hl with ⟨i, _, rfl⟩
    rw [List.pairwise_map]
    refine (ih i).imp ?_
    intro a b hab
    exact List.Lex.cons hab
  · rw [List.pairwise_map]
    refine (List.pairwise_lt_finRange 26).imp ?_
    intro i j hij x hx y hy
    rcases List.mem_map.mp hx with ⟨e, _, rfl⟩
    rcases List.mem_map.mp hy with ⟨f, _, rfl⟩
    exact List.Lex.rel hij

theorem entries_sorted (n : TrieNode) : (entries n).Pairwise (fun a b => a.1 < b.1) := by
  induction n with
  | null => simp [entries]
  | node c ch s ih _ =>
    simp only [entries]
    rw [List.pairwise_append]
    refine ⟨?_, entriesBelow_sorted_of ch ih, ?_⟩
    · by_cases hc : 0 < c <;> simp [hc]
    · intro a ha b hb
      have ha1 : a.1 = [] := by
        by_cases hc : 0 < c
        · simp only [hc, if_true, List.mem_singleton] at ha
          rw [ha]
        · simp [hc] at ha
      rcases List.mem_flatten.mp hb with ⟨l, hl, hbl⟩
      rcases List.mem_map.mp hl with ⟨i, _, rfl⟩
      rcases List.mem_map.mp hbl with ⟨e, _, rfl⟩
      rw [ha1]
      exact List.Lex.nil

theorem entriesBelow_sorted (n : TrieNode) :
    (entriesBelow n).Pairwise (fun a b => a.1 < b.1) := by
  cases n with
  | null => simp [entriesBelow]
  | node c ch s => exact entriesBelow_sorted_of ch (fun i => entries_sorted (ch i))

theorem wordOf_lt {p q : List (Fin 26)} (h : p < q) : wordOf p < wordOf q := by
  induction h with
  | nil => exact List.Lex.nil
  | cons _ ih => exact List.Lex.cons ih
  | rel hab => exact List.Lex.rel ((letterOf_lt_iff _ _).mpr hab)

theorem append_lt_append_left (w : List Char) {a b : List Char} (h : a < b) : w ++ a < w ++ b := by
  induction w with
  | nil => exact h
  | cons c cs ih => exact List.Lex.cons ih

theorem printTrieSimpleFormat_sorted (root : TrieNode) :
    ((printTrieSimpleFormat root).map Prod.fst).Pairwise (fun a b => a < b) := by
  rw [printTrieSimpleFormat_eq, List.map_map, List.pairwise_map]
  refine (entriesBelow_sorted root).imp ?_
  intro a b hab
  exact wordOf_lt hab

theorem printTrieNodeWordsSimpleFormat_sorted (n : TrieNode) (word : List Char) :
    ((printTrieNodeWordsSimpleFormat n word []).map Prod.fst).Pairwise (fun a b => a < b) := by
  rw [printTrieNodeWordsSimpleFormat_eq, List.nil_append, List.map_map, List.pairwise_map]
  refine (entries_sorted n).imp ?_
  intro a b hab
  exact append_lt_append_left word (wordOf_lt hab)

/-! ## What `insertWord` does to a trie -/

theorem getIndex_letterOf (i : Fin 26) : getIndex (letterOf i) = (i.val : Int) := by
  rw [getIndex, letterOf_toLower, letterOf_toNat]; push_cast; ring

theorem orCreate_isNull (n : TrieNode) : (orCreate n).isNull = false := by
  cases n <;> rfl

theorem orCreate_of_not_isNull (n : TrieNode) (h : n.isNull = false) : orCreate n = n := by
  cases n with
  | null => cases h
  | node c ch s => rfl

theorem insertPath_isNull (n : TrieNode) (p : List (Fin 26)) :
    (insertPath n p).isNull = n.isNull := by
  cases n with
  | null => cases p <;> rfl
  | node c ch s =>
    match p with
    | [] => rfl
    | [i] => rfl
    | i :: j :: r => rfl

theorem insertWord_wordOf (n : TrieNode) (p : List (Fin 26)) (hn : n.isNull = false)
    (hp : p ≠ []) : insertWord n (wordOf p) = .ok (insertPath n p, some p) := by
  induction p generalizing n with
  | nil => exact absurd rfl hp
  | cons i r ih =>
    cases n with
    | null => cases hn
    | node c ch s =>
      have hi := i.isLt
      have hidx : (⟨(getIndex (letterOf i)).toNat, by rw [getIndex_letterOf]; omega⟩ : Fin 26) = i := by
        apply Fin.ext
        simp only [getIndex_letterOf, Int.toNat_ofNat]
      have hrange : 0 ≤ getIndex (letterOf i) ∧ getIndex (letterOf i) < 26 := by
        rw [getIndex_letterOf]; omega
      simp only [wordOf, List.map_cons] at ih ⊢
      rw [insertWord, dif_pos hrange]
      simp only [hidx]
      cases r with
      | nil =>
        simp only [List.map_nil, List.length_cons, List.length_nil, Nat.zero_add, lt_irrefl,
          if_false, insertPath, orCreate]
      | cons j r2 =>
        have hlen : 1 < ((letterOf i) :: List.map letterOf (j :: r2)).length := by
          simp
        rw [if_pos hlen]
        have := ih (orCreate (ch i)) (orCreate_isNull _) (by simp)
        simp only [orCreate] at this
        rw [this]
        simp [insertPath, orCreate]

theorem insertWord_nil (n : TrieNode) : insertWord n [] = .ok (n, none) := by
  cases n <;> rfl

/-! ### Counts, subtries and presence after an insertion -/

theorem deref_createTrieNode_countOf (q : List (Fin 26)) :
    (createTrieNode.deref q).countOf = 0 := by
  cases q with
  | nil => rfl
  | cons i r => simp [createTrieNode, TrieNode.deref, deref_null, TrieNode.countOf]

theorem deref_createTrieNode_subtrieOf (q : List (Fin 26)) :
    (createTrieNode.deref q).subtrieOf = .null := by
  cases q with
  | nil => rfl
  | cons i r => simp [createTrieNode, TrieNode.deref, deref_null, TrieNode.subtrieOf]

theorem deref_orCreate_countOf (n : TrieNode) (q : List (Fin 26)) :
    ((orCreate n).deref q).countOf = (n.deref q).countOf := by
  cases n with
  | null =>
    show (createTrieNode.deref q).countOf = _
    rw [deref_createTrieNode_countOf, deref_null]; rfl
  | node c ch s => rfl

theorem deref_orCreate_subtrieOf (n : TrieNode) (q : List (Fin 26)) :
    ((orCreate n).deref q).subtrieOf = (n.deref q).subtrieOf := by
  cases n with
  | null =>
    show (createTrieNode.deref q).subtrieOf = _
    rw [deref_createTrieNode_subtrieOf, deref_null]; rfl
  | node c ch s => rfl

theorem deref_node_cons (c : Int) (ch : Fin 26 → TrieNode) (s : TrieNode) (i : Fin 26)
    (q : List (Fin 26)) : (TrieNode.node c ch s).deref (i :: q) = (ch i).deref q := rfl

theorem setChild_same (ch : Fin 26 → TrieNode) (i : Fin 26) (v : TrieNode) :
    setChild ch i v i = v := by simp [setChild]

theorem setChild_other (ch : Fin 26 → TrieNode) (i j : Fin 26) (v : TrieNode) (h : j ≠ i) :
    setChild ch i v j = ch j := by simp [setChild, h]

theorem countOf_incrementCount (n : TrieNode) (h : n.isNull = false) :
    (incrementCount n).countOf = n.countOf + 1 := by
  cases n with
  | null => cases h
  | node c ch s => rfl

theorem deref_incrementCount_cons (n : TrieNode) (i : Fin 26) (q : List (Fin 26)) :
    (incrementCount n).deref (i :: q) = n.deref (i :: q) := by
  cases n <;> rfl

theorem subtrieOf_incrementCount (n : TrieNode) : (incrementCount n).subtrieOf = n.subtrieOf := by
  cases n <;> rfl

theorem isNull_incrementCount (n : TrieNode) : (incrementCount n).isNull = n.isNull := by
  cases n <;> rfl

theorem countOf_deref_insertPath (n : TrieNode) (p : List (Fin 26)) (hn : n.isNull = false)
    (hp : p ≠ []) (q : List (Fin 26)) :
    ((insertPath n p).deref q).countOf = (n.deref q).countOf + (if q = p then 1 else 0) := by
  induction p generalizing n q with
  | nil => exact absurd rfl hp
  | cons i r ih =>
    cases n with
    | null => cases hn
    | node c ch s =>
      cases q with
      | nil =>
        cases r with
        | nil => simp [insertPath, TrieNode.deref, TrieNode.countOf]
        | cons j r2 => simp [insertPath, TrieNode.deref, TrieNode.countOf]
      | cons k q2 =>
        by_cases hk : k = i
        · subst hk
          cases r with
          | nil =>
            simp only [insertPath, deref_node_cons, setChild_same]
            cases q2 with
            | nil =>
              simp only [TrieNode.deref, if_true]
              rw [countOf_incrementCount _ (orCreate_isNull _)]
              have := deref_orCreate_countOf (ch k) []
              simp only [TrieNode.deref] at this
              rw [this]
            | cons m q3 =>
              rw [deref_incrementCount_cons, deref_orCreate_countOf]
              simp
          | cons j r2 =>
            simp only [insertPath, deref_node_cons, setChild_same]
            rw [ih (orCreate (ch k)) (orCreate_isNull _) (by simp), deref_orCreate_countOf]
            simp
        · have hne : ¬ (k :: q2 = i :: r) := by
            intro h; exact hk (List.cons.inj h).1
          cases r with
          | nil =>
            simp only [insertPath, deref_node_cons, setChild_other _ _ _ _ hk, hne, if_false,
              add_zero]
          | cons j r2 =>
            simp only [insertPath, deref_node_cons, setChild_other _ _ _ _ hk, hne, if_false,
              add_zero]

theorem subtrieOf_deref_insertPath (n : TrieNode) (p : List (Fin 26)) (q : List (Fin 26)) :
    ((insertPath n p).deref q).subtrieOf = (n.deref q).subtrieOf := by
  induction p generalizing n q with
  | nil => cases n <;> rfl
  | cons i r ih =>
    cases n with
    | null => rfl
    | node c ch s =>
      cases q with
      | nil =>
        cases r with
        | nil => rfl
        | cons j r2 => rfl
      | cons k q2 =>
        by_cases hk : k = i
        · subst hk
          cases r with
          | nil =>
            simp only [insertPath, deref_node_cons, setChild_same]
            cases q2 with
            | nil =>
              simp only [TrieNode.deref]
              rw [subtrieOf_incrementCount]
              have := deref_orCreate_subtrieOf (ch k) []
              simp only [TrieNode.deref] at this
              exact this
            | cons m q3 =>
              rw [deref_incrementCount_cons, deref_orCreate_subtrieOf]
          | cons j r2 =>
            simp only [insertPath, deref_node_cons, setChild_same]
            rw [ih (orCreate (ch k)), deref_orCreate_subtrieOf]
        · cases r with
          | nil => simp only [insertPath, deref_node_cons, setChild_other _ _ _ _ hk]
          | cons j r2 => simp only [insertPath, deref_node_cons, setChild_other _ _ _ _ hk]

theorem isNull_deref_insertPath (n : TrieNode) (p : List (Fin 26)) (q : List (Fin 26))
    (h : (n.deref q).isNull = false) : ((insertPath n p).deref q).isNull = false := by
  induction p generalizing n q with
  | nil => cases n <;> exact h
  | cons i r ih =>
    cases n with
    | null => rw [deref_null] at h; cases h
    | node c ch s =>
      cases q with
      | nil =>
        cases r with
        | nil => rfl
        | cons j r2 => rfl
      | cons k q2 =>
        rw [deref_node_cons] at h
        have hch : (ch k).isNull = false := by
          cases hck : ch k with
          | null => rw [hck, deref_null] at h; cases h
          | node _ _ _ => rfl
        by_cases hk : k = i
        · subst hk
          cases r with
          | nil =>
            simp only [insertPath, deref_node_cons, setChild_same]
            rw [orCreate_of_not_isNull _ hch]
            cases q2 with
            | nil =>
              simp only [TrieNode.deref]
              rw [isNull_incrementCount]; exact hch
            | cons m q3 => rw [deref_incrementCount_cons]; exact h
          | cons j r2 =>
            simp only [insertPath, deref_node_cons, setChild_same]
            rw [orCreate_of_not_isNull _ hch]
            exact ih (ch k) q2 h
        · cases r with
          | nil =>
            simp only [insertPath, deref_node_cons, setChild_other _ _ _ _ hk]; exact h
          | cons j r2 =>
            simp only [insertPath, deref_node_cons, setChild_other _ _ _ _ hk]; exact h

theorem isNull_deref_insertPath_self (n : TrieNode) (p : List (Fin 26)) (hn : n.isNull = false)
    (hp : p ≠ []) : ((insertPath n p).deref p).isNull = false := by
  induction p generalizing n with
  | nil => exact absurd rfl hp
  | cons i r ih =>
    cases n with
    | null => cases hn
    | node c ch s =>
      cases r with
      | nil =>
        simp only [insertPath, deref_node_cons, setChild_same, TrieNode.deref]
        rw [isNull_incrementCount]; exact orCreate_isNull _
      | cons j r2 =>
        simp only [insertPath, deref_node_cons, setChild_same]
        exact ih (orCreate (ch i)) (orCreate_isNull _) (by simp)

/-! ### The write of a subtrie through a pointer -/

theorem setSubtrieAt_isNull (s n : TrieNode) (p : List (Fin 26)) :
    (setSubtrieAt s n p).isNull = n.isNull := by
  cases n with
  | null => cases p <;> rfl
  | node c ch sub => cases p <;> rfl

theorem isNull_deref_setSubtrieAt (s n : TrieNode) (p q : List (Fin 26)) :
    ((setSubtrieAt s n p).deref q).isNull = (n.deref q).isNull := by
  induction p generalizing n q with
  | nil =>
    cases n with
    | null => rfl
    | node c ch sub => cases q <;> rfl
  | cons i r ih =>
    cases n with
    | null => rfl
    | node c ch sub =>
      cases q with
      | nil => rfl
      | cons k q2 =>
        simp only [setSubtrieAt, deref_node_cons]
        by_cases hk : k = i
        · subst hk; rw [setChild_same]; exact ih (ch k) q2
        · rw [setChild_other _ _ _ _ hk]

theorem countOf_deref_setSubtrieAt (s n : TrieNode) (p q : List (Fin 26)) :
    ((setSubtrieAt s n p).deref q).countOf = (n.deref q).countOf := by
  induction p generalizing n q with
  | nil =>
    cases n with
    | null => rfl
    | node c ch sub => cases q <;> rfl
  | cons i r ih =>
    cases n with
    | null => rfl
    | node c ch sub =>
      cases q with
      | nil => rfl
      | cons k q2 =>
        simp only [setSubtrieAt, deref_node_cons]
        by_cases hk : k = i
        · subst hk; rw [setChild_same]; exact ih (ch k) q2
        · rw [setChild_other _ _ _ _ hk]

theorem subtrieOf_deref_setSubtrieAt (s n : TrieNode) (p q : List (Fin 26))
    (h : (n.deref p).isNull = false) :
    ((setSubtrieAt s n p).deref q).subtrieOf = if q = p then s else (n.deref q).subtrieOf := by
  induction p generalizing n q with
  | nil =>
    cases n with
    | null => cases h
    | node c ch sub =>
      cases q with
      | nil => rfl
      | cons k q2 => simp [setSubtrieAt, deref_node_cons]
  | cons i r ih =>
    cases n with
    | null => cases h
    | node c ch sub =>
      cases q with
      | nil => simp [setSubtrieAt, TrieNode.deref, TrieNode.subtrieOf]
      | cons k q2 =>
        simp only [setSubtrieAt, deref_node_cons]
        by_cases hk : k = i
        · subst hk
          rw [setChild_same, ih (ch k) q2 h]
          simp
        · rw [setChild_other _ _ _ _ hk]
          have : ¬ (k :: q2 = i :: r) := fun e => hk (List.cons.inj e).1
          simp [this]

/-! ### One completed word of a phrase -/

theorem insertPhraseWordEnd_wordOf (root : TrieNode) (prev : Option (List (Fin 26)))
    (p : List (Fin 26)) (hroot : root.isNull = false) (hp : p ≠ []) :
    insertPhraseWordEnd ⟨root, prev, wordOf p⟩ = .ok ⟨linkStep root prev p, some p, []⟩ := by
  cases prev with
  | none =>
    simp only [insertPhraseWordEnd, insertWord_wordOf root p hroot hp, linkStep]
  | some r =>
    have h1 := insertWord_wordOf (orCreate (root.deref r).subtrieOf) p (orCreate_isNull _) hp
    simp only [orCreate] at h1
    have h2 := insertWord_wordOf
      (setSubtrieAt (insertPath (orCreate (root.deref r).subtrieOf) p) root r) p
      (by rw [setSubtrieAt_isNull]; exact hroot) hp
    simp only [orCreate] at h2
    simp only [insertPhraseWordEnd, h1, h2, linkStep, orCreate]

theorem insertPhraseWordEnd_nil (root : TrieNode) :
    insertPhraseWordEnd ⟨root, none, []⟩ = .ok ⟨root, none, []⟩ := by
  simp only [insertPhraseWordEnd, insertWord_nil]

theorem linkStep_isNull (root : TrieNode) (prev : Option (List (Fin 26))) (p : List (Fin 26)) :
    (linkStep root prev p).isNull = root.isNull := by
  cases prev with
  | none => exact insertPath_isNull _ _
  | some r =>
    simp only [linkStep]
    rw [insertPath_isNull, setSubtrieAt_isNull]

theorem linkStep_present (root : TrieNode) (prev : Option (List (Fin 26))) (p q : List (Fin 26))
    (h : (root.deref q).isNull = false) : ((linkStep root prev p).deref q).isNull = false := by
  cases prev with
  | none => exact isNull_deref_insertPath _ _ _ h
  | some r =>
    simp only [linkStep]
    apply isNull_deref_insertPath
    rw [isNull_deref_setSubtrieAt]; exact h

theorem linkStep_present_self (root : TrieNode) (prev : Option (List (Fin 26)))
    (p : List (Fin 26)) (hroot : root.isNull = false) (hp : p ≠ []) :
    ((linkStep root prev p).deref p).isNull = false := by
  cases prev with
  | none => exact isNull_deref_insertPath_self _ _ hroot hp
  | some r =>
    simp only [linkStep]
    apply isNull_deref_insertPath_self _ _ _ hp
    rw [setSubtrieAt_isNull]; exact hroot

theorem cnt_linkStep (root : TrieNode) (prev : Option (List (Fin 26))) (p q : List (Fin 26))
    (hroot : root.isNull = false) (hp : p ≠ []) :
    cnt (linkStep root prev p) q = cnt root q + (if q = p then 1 else 0) := by
  cases prev with
  | none => exact countOf_deref_insertPath _ _ hroot hp q
  | some r =>
    simp only [linkStep, cnt]
    rw [countOf_deref_insertPath _ _ (by rw [setSubtrieAt_isNull]; exact hroot) hp,
      countOf_deref_setSubtrieAt]

theorem fol_linkStep (root : TrieNode) (prev : Option (List (Fin 26))) (p a b : List (Fin 26))
    (hprev : ∀ r, prev = some r → (root.deref r).isNull = false) (hp : p ≠ []) :
    fol (linkStep root prev p) a b
      = fol root a b + (if prev = some a ∧ b = p then 1 else 0) := by
  cases prev with
  | none =>
    simp only [linkStep, fol, subtrieOf_deref_insertPath]
    simp
  | some r =>
    simp only [linkStep, fol, subtrieOf_deref_insertPath]
    rw [subtrieOf_deref_setSubtrieAt _ _ _ _ (hprev r rfl)]
    by_cases har : a = r
    · subst har
      simp only [if_true, Option.some.injEq, true_and]
      rw [countOf_deref_insertPath _ _ (orCreate_isNull _) hp, deref_orCreate_countOf]
    · have : ¬ (r = a) := fun e => har e.symm
      simp [har, this]

/-! ## Phrases and corpora -/

theorem insertPhraseLoop_append (root : TrieNode) (prev : Option (List (Fin 26)))
    (w : List Char) (hw : ∀ c ∈ w, c ≠ ' ') (buf rest : List Char) :
    insertPhraseLoop ⟨root, prev, buf⟩ (w ++ rest)
      = insertPhraseLoop ⟨root, prev, buf ++ w⟩ rest := by
  induction w generalizing buf with
  | nil => simp
  | cons c cs ih =>
    have hc : c ≠ ' ' := hw c (List.mem_cons_self _ _)
    rw [List.cons_append, insertPhraseLoop, if_pos hc]
    have := ih (fun d hd => hw d (List.mem_cons_of_mem _ hd)) (buf ++ [c])
    simp only [List.append_assoc, List.singleton_append] at this
    exact this

theorem wordOf_no_space (p : List (Fin 26)) : ∀ c ∈ wordOf p, c ≠ ' ' := by
  intro c hc
  rcases List.mem_map.mp hc with ⟨i, _, rfl⟩
  exact letterOf_ne_space i

theorem insertPhraseLoop_paths (ps : List (List (Fin 26))) :
    ∀ (root : TrieNode) (prev : Option (List (Fin 26))),
      root.isNull = false → ps ≠ [] → (∀ p ∈ ps, p ≠ []) →
      ∃ last, insertPhraseLoop ⟨root, prev, []⟩ (phraseText (ps.map wordOf))
        = .ok ⟨insertPaths root prev ps, last, []⟩ := by
  induction ps with
  | nil => intro root prev _ h; exact absurd rfl h
  | cons p rest ih =>
    intro root prev hroot _ hne
    have hp : p ≠ [] := hne p (List.mem_cons_self _ _)
    cases rest with
    | nil =>
      refine ⟨some p, ?_⟩
      have := insertPhraseLoop_append root prev (wordOf p) (wordOf_no_space p) [] []
      simp only [List.append_nil, List.nil_append] at this
      simp only [List.map_cons, List.map_nil, phraseText]
      rw [this, insertPhraseLoop, insertPhraseWordEnd_wordOf root prev p hroot hp]
      rfl
    | cons p2 rest2 =>
      have hrest := ih (linkStep root prev p) (some p)
        (by rw [linkStep_isNull]; exact hroot) (by simp)
        (fun q hq => hne q (List.mem_cons_of_mem _ hq))
      obtain ⟨last, hlast⟩ := hrest
      refine ⟨last, ?_⟩
      simp only [List.map_cons, phraseText] at hlast ⊢
      rw [insertPhraseLoop_append root prev (wordOf p) (wordOf_no_space p)]
      simp only [List.nil_append, insertPhraseLoop, ne_eq, not_true_eq_false, if_false]
      rw [insertPhraseWordEnd_wordOf root prev p hroot hp]
      simp only [hlast, insertPaths]

theorem stripPunctuators_strlwr_clean (s : List Char)
    (h : ∀ c ∈ s, c.isLower = true ∨ c = ' ') : stripPunctuators (strlwr s) = s := by
  induction s with
  | nil => rfl
  | cons c cs ih =>
    have ih2 := ih (fun d hd => h d (List.mem_cons_of_mem _ hd))
    simp only [strlwr, List.map_cons] at ih2 ⊢
    rcases h c (List.mem_cons_self _ _) with hc | rfl
    · rw [toLower_of_isLower c hc]
      simp only [stripPunctuators, isAlpha_of_isLower c hc, Bool.true_or, if_true,
        toLower_of_isLower c hc, ih2]
    · have e : (' ' : Char).toLower = ' ' := by decide
      rw [e]
      simp only [stripPunctuators, beq_self_eq_true, Bool.or_true, if_true, e, ih2]

theorem phraseText_clean (ps : List (List (Fin 26))) :
    ∀ c ∈ phraseText (ps.map wordOf), c.isLower = true ∨ c = ' ' := by
  induction ps with
  | nil => intro c hc; cases hc
  | cons p rest ih =>
    cases rest with
    | nil =>
      intro c hc
      simp only [List.map_cons, List.map_nil, phraseText] at hc
      rcases List.mem_map.mp hc with ⟨i, _, rfl⟩
      exact Or.inl (letterOf_isLower i)
    | cons p2 rest2 =>
      intro c hc
      simp only [List.map_cons, phraseText, List.mem_append, List.mem_cons] at hc ih
      rcases hc with hc | rfl | hc
      · rcases List.mem_map.mp hc with ⟨i, _, rfl⟩
        exact Or.inl (letterOf_isLower i)
      · exact Or.inr rfl
      · exact ih c hc

theorem insertPhrase_paths (root : TrieNode) (ps : List (List (Fin 26)))
    (hroot : root.isNull = false) (hne : ∀ p ∈ ps, p ≠ []) :
    insertPhrase root (phraseText (ps.map wordOf)) = .ok (insertPaths root none ps) := by
  cases root with
  | null => cases hroot
  | node c ch s =>
    cases ps with
    | nil => rfl
    | cons p rest =>
      have hp : p ≠ [] := hne p (List.mem_cons_self _ _)
      have hlen : ¬ (phraseText ((p :: rest).map wordOf)).length = 0 := by
        cases p with
        | nil => exact absurd rfl hp
        | cons i r =>
          cases rest <;> simp [phraseText, wordOf]
      obtain ⟨last, hlast⟩ := insertPhraseLoop_paths (p :: rest) (.node c ch s) none rfl
        (by simp) hne
      simp only [insertPhrase, if_neg hlen]
      rw [stripPunctuators_strlwr_clean _ (phraseText_clean _), hlast]

theorem insertPaths_isNull (ps : List (List (Fin 26))) :
    ∀ (root : TrieNode) (prev : Option (List (Fin 26))),
      (insertPaths root prev ps).isNull = root.isNull := by
  induction ps with
  | nil => intro root prev; rfl
  | cons p rest ih =>
    intro root prev
    simp only [insertPaths]
    rw [ih, linkStep_isNull]

theorem insertPhrases_paths (pc : List (List (List (Fin 26)))) :
    ∀ (root : TrieNode), root.isNull = false → (∀ ps ∈ pc, ∀ p ∈ ps, p ≠ []) →
      insertPhrases root (pc.map (fun ps => phraseText (ps.map wordOf)))
        = .ok (insertCorpus root pc) := by
  induction pc with
  | nil => intro root _ _; rfl
  | cons ps rest ih =>
    intro root hroot hne
    simp only [List.map_cons, insertPhrases, insertCorpus]
    rw [insertPhrase_paths root ps hroot (hne ps (List.mem_cons_self _ _))]
    exact ih _ (by rw [insertPaths_isNull]; exact hroot)
      (fun qs hqs => hne qs (List.mem_cons_of_mem _ hqs))

/-! ### Counts after a phrase and after a corpus -/

theorem insertPaths_present (ps : List (List (Fin 26))) :
    ∀ (root : TrieNode) (prev : Option (List (Fin 26))) (q : List (Fin 26)),
      (root.deref q).isNull = false → ((insertPaths root prev ps).deref q).isNull = false := by
  induction ps with
  | nil => intro root prev q h; exact h
  | cons p rest ih =>
    intro root prev q h
    exact ih _ _ q (linkStep_present root prev p q h)

theorem insertPaths_present_mem (ps : List (List (Fin 26))) :
    ∀ (root : TrieNode) (prev : Option (List (Fin 26))),
      root.isNull = false → (∀ p ∈ ps, p ≠ []) →
      ∀ q ∈ ps, ((insertPaths root prev ps).deref q).isNull = false := by
  induction ps with
  | nil => intro root prev _ _ q hq; cases hq
  | cons p rest ih =>
    intro root prev hroot hne q hq
    rcases List.mem_cons.mp hq with rfl | hq
    · exact insertPaths_present rest _ _ q
        (linkStep_present_self root prev q hroot (hne q (List.mem_cons_self _ _)))
    · exact ih _ _ (by rw [linkStep_isNull]; exact hroot)
        (fun r hr => hne r (List.mem_cons_of_mem _ hr)) q hq

theorem cnt_insertPaths (ps : List (List (Fin 26))) :
    ∀ (root : TrieNode) (prev : Option (List (Fin 26))) (q : List (Fin 26)),
      root.isNull = false → (∀ p ∈ ps, p ≠ []) →
      cnt (insertPaths root prev ps) q = cnt root q + (ps.count q : Int) := by
  induction ps with
  | nil => intro root prev q _ _; simp [insertPaths]
  | cons p rest ih =>
    intro root prev q hroot hne
    have hp : p ≠ [] := hne p (List.mem_cons_self _ _)
    simp only [insertPaths]
    rw [ih _ _ q (by rw [linkStep_isNull]; exact hroot)
      (fun r hr => hne r (List.mem_cons_of_mem _ hr)), cnt_linkStep root prev p q hroot hp,
      List.count_cons]
    by_cases hqp : q = p
    · subst hqp; simp; ring
    · have : (p == q) = false := by
        simp only [beq_eq_false_iff_ne, ne_eq]; exact fun e => hqp e.symm
      simp [hqp, this]

theorem fol_insertPaths (ps : List (List (Fin 26))) :
    ∀ (root : TrieNode) (prev : Option (List (Fin 26))) (a b : List (Fin 26)),
      root.isNull = false → (∀ p ∈ ps, p ≠ []) →
      (∀ r, prev = some r → (root.deref r).isNull = false) →
      fol (insertPaths root prev ps) a b
        = fol root a b + ((adjacentPairs (prev.toList ++ ps)).count (a, b) : Int) := by
  induction ps with
  | nil =>
    intro root prev a b _ _ _
    cases prev <;> simp [insertPaths, adjacentPairs]
  | cons p rest ih =>
    intro root prev a b hroot hne hprev
    have hp : p ≠ [] := hne p (List.mem_cons_self _ _)
    simp only [insertPaths]
    rw [ih _ (some p) a b (by rw [linkStep_isNull]; exact hroot)
      (fun r hr => hne r (List.mem_cons_of_mem _ hr))
      (by
        intro r hr
        cases hr
        exact linkStep_present_self root prev p hroot hp),
      fol_linkStep root prev p a b hprev hp]
    cases prev with
    | none => simp
    | some r =>
      simp only [Option.toList, List.singleton_append, adjacentPairs, Option.some.injEq,
        List.count_cons]
      by_cases h : r = a ∧ b = p
      · obtain ⟨rfl, rfl⟩ := h
        simp; ring
      · have : ((r, p) == (a, b)) = false := by
          simp only [beq_eq_false_iff_ne, ne_eq, Prod.mk.injEq]
          rintro ⟨h1, h2⟩; exact h ⟨h1, h2.symm⟩
        simp [h, this]

theorem insertCorpus_isNull (pc : List (List (List (Fin 26)))) :
    ∀ (root : TrieNode), (insertCorpus root pc).isNull = root.isNull := by
  induction pc with
  | nil => intro root; rfl
  | cons ps rest ih => intro root; simp only [insertCorpus]; rw [ih, insertPaths_isNull]

theorem insertCorpus_present (pc : List (List (List (Fin 26)))) :
    ∀ (root : TrieNode) (q : List (Fin 26)),
      (root.deref q).isNull = false → ((insertCorpus root pc).deref q).isNull = false := by
  induction pc with
  | nil => intro root q h; exact h
  | cons ps rest ih =>
    intro root q h
    exact ih _ q (insertPaths_present ps root none q h)

theorem insertCorpus_present_mem (pc : List (List (List (Fin 26)))) :
    ∀ (root : TrieNode), root.isNull = false → (∀ ps ∈ pc, ∀ p ∈ ps, p ≠ []) →
      ∀ q ∈ pc.flatten, ((insertCorpus root pc).deref q).isNull = false := by
  induction pc with
  | nil => intro root _ _ q hq; cases hq
  | cons ps rest ih =>
    intro root hroot hne q hq
    rw [List.flatten_cons, List.mem_append] at hq
    rcases hq with hq | hq
    · exact insertCorpus_present rest _ q
        (insertPaths_present_mem ps root none hroot (hne ps (List.mem_cons_self _ _)) q hq)
    · exact ih _ (by rw [insertPaths_isNull]; exact hroot)
        (fun qs hqs => hne qs (List.mem_cons_of_mem _ hqs)) q hq

theorem cnt_insertCorpus (pc : List (List (List (Fin 26)))) :
    ∀ (root : TrieNode) (q : List (Fin 26)),
      root.isNull = false → (∀ ps ∈ pc, ∀ p ∈ ps, p ≠ []) →
      cnt (insertCorpus root pc) q = cnt root q + (pc.flatten.count q : Int) := by
  induction pc with
  | nil => intro root q _ _; simp [insertCorpus]
  | cons ps rest ih =>
    intro root q hroot hne
    simp only [insertCorpus, List.flatten_cons, List.count_append]
    rw [ih _ q (by rw [insertPaths_isNull]; exact hroot)
      (fun qs hqs => hne qs (List.mem_cons_of_mem _ hqs)),
      cnt_insertPaths ps root none q hroot (hne ps (List.mem_cons_self _ _))]
    push_cast; ring

theorem fol_insertCorpus (pc : List (List (List (Fin 26)))) :
    ∀ (root : TrieNode) (a b : List (Fin 26)),
      root.isNull = false → (∀ ps ∈ pc, ∀ p ∈ ps, p ≠ []) →
      fol (insertCorpus root pc) a b
        = fol root a b + (((pc.map (fun ps => (adjacentPairs ps).count (a, b))).sum : Nat) : Int) := by
  induction pc with
  | nil => intro root a b _ _; simp [insertCorpus]
  | cons ps rest ih =>
    intro root a b hroot hne
    simp only [insertCorpus, List.map_cons, List.sum_cons]
    rw [ih _ a b (by rw [insertPaths_isNull]; exact hroot)
      (fun qs hqs => hne qs (List.mem_cons_of_mem _ hqs)),
      fol_insertPaths ps root none a b hroot (hne ps (List.mem_cons_self _ _))
        (by intro r hr; cases hr)]
    simp only [Option.toList, List.nil_append]
    push_cast; ring

theorem cnt_createTrieNode (q : List (Fin 26)) : cnt createTrieNode q = 0 :=
  deref_createTrieNode_countOf q

theorem fol_createTrieNode (a b : List (Fin 26)) : fol createTrieNode a b = 0 := by
  simp only [fol, deref_createTrieNode_subtrieOf, deref_null, TrieNode.countOf]

/-! ### From words to paths -/

theorem adjacentPairs_map {α β : Type} (f : α → β) (l : List α) :
    adjacentPairs (l.map f) = (adjacentPairs l).map (Prod.map f f) := by
  induction l with
  | nil => rfl
  | cons a rest ih =>
    cases rest with
    | nil => rfl
    | cons b rest2 =>
      simp only [List.map_cons, adjacentPairs, Prod.map] at ih ⊢
      rw [ih]

theorem count_map_injective {α β : Type} [BEq α] [LawfulBEq α] [BEq β] [LawfulBEq β]
    (f : α → β) (hf : Function.Injective f) (l : List α) (x : α) :
    (l.map f).count (f x) = l.count x := by
  induction l with
  | nil => rfl
  | cons a rest ih =>
    simp only [List.map_cons, List.count_cons, ih]
    by_cases h : a = x
    · subst h; simp
    · have h1 : (a == x) = false := by simpa using h
      have h2 : (f a == f x) = false := by
        simp only [beq_eq_false_iff_ne, ne_eq]
        exact fun e => h (hf e)
      rw [h1, h2]

theorem count_adjacentPairs_wordOf (ps : List (List (Fin 26))) (a b : List (Fin 26)) :
    (adjacentPairs (ps.map wordOf)).count (wordOf a, wordOf b)
      = (adjacentPairs ps).count (a, b) := by
  rw [adjacentPairs_map]
  exact count_map_injective (Prod.map wordOf wordOf)
    (Function.Injective.prodMap wordOf_injective wordOf_injective) (adjacentPairs ps) (a, b)

theorem occurrences_wordOf (pc : List (List (List (Fin 26)))) (q : List (Fin 26)) :
    occurrences (pc.map (fun ps => ps.map wordOf)) (wordOf q) = pc.flatten.count q := by
  unfold occurrences
  rw [← List.map_flatten]
  exact count_map_injective wordOf wordOf_injective pc.flatten q

theorem followCount_wordOf (pc : List (List (List (Fin 26)))) (a b : List (Fin 26)) :
    followCount (pc.map (fun ps => ps.map wordOf)) (wordOf a) (wordOf b)
      = (pc.map (fun ps => (adjacentPairs ps).count (a, b))).sum := by
  unfold followCount
  rw [List.map_map]
  congr 1
  apply List.map_congr_left
  intro ps _
  exact count_adjacentPairs_wordOf ps a b

theorem wellFormed_eq_map (corpus : List (List (List Char))) (h : WellFormed corpus) :
    corpus = (corpus.map (fun ph => ph.map pathOf)).map (fun ps => ps.map wordOf) := by
  rw [List.map_map]
  conv_lhs => rw [← List.map_id corpus]
  apply List.map_congr_left
  intro ph hph
  simp only [id, Function.comp, List.map_map]
  conv_lhs => rw [← List.map_id ph]
  apply List.map_congr_left
  intro w hw
  exact (wordOf_pathOf w (h ph hph w hw).2).symm

theorem wellFormed_paths_ne_nil (corpus : List (List (List Char))) (h : WellFormed corpus) :
    ∀ ps ∈ corpus.map (fun ph => ph.map pathOf), ∀ p ∈ ps, p ≠ [] := by
  intro ps hps p hp
  rcases List.mem_map.mp hps with ⟨ph, hph, rfl⟩
  rcases List.mem_map.mp hp with ⟨w, hw, rfl⟩
  have := (h ph hph w hw).1
  cases w with
  | nil => exact absurd rfl this
  | cons c cs => simp [pathOf]

/-! ## The trie built from a well-formed corpus -/

theorem buildTrie_wellFormed (corpus : List (List (List Char))) (h : WellFormed corpus) :
    ∃ root, buildTrie (corpus.map phraseText) = .ok root ∧ root.isNull = false ∧
      (∀ q, cnt root q = (occurrences corpus (wordOf q) : Int)) ∧
      (∀ a b, fol root a b = (followCount corpus (wordOf a) (wordOf b) : Int)) ∧
      (∀ w ∈ corpus.flatten, (root.deref (pathOf w)).isNull = false) := by
  have hne := wellFormed_paths_ne_nil corpus h
  have heq := wellFormed_eq_map corpus h
  generalize hpc : corpus.map (fun ph => ph.map pathOf) = pc at hne heq
  refine ⟨insertCorpus createTrieNode pc, ?_, ?_, ?_, ?_, ?_⟩
  · have := insertPhrases_paths pc createTrieNode rfl hne
    unfold buildTrie
    rw [← this, heq, List.map_map]
    rfl
  · rw [insertCorpus_isNull]; rfl
  · intro q
    rw [cnt_insertCorpus pc createTrieNode q rfl hne, cnt_createTrieNode, zero_add, heq,
      occurrences_wordOf]
  · intro a b
    rw [fol_insertCorpus pc createTrieNode a b rfl hne, fol_createTrieNode, zero_add, heq,
      followCount_wordOf]
  · intro w hw
    apply insertCorpus_present_mem pc createTrieNode rfl hne
    rw [← hpc, ← List.map_flatten]
    exact List.mem_map.mpr ⟨w, hw, rfl⟩

theorem wellFormed_mem (corpus : List (List (List Char))) (h : WellFormed corpus)
    (w : List Char) (hw : w ∈ corpus.flatten) : w ≠ [] ∧ wordOf (pathOf w) = w := by
  rcases List.mem_flatten.mp hw with ⟨ph, hph, hwph⟩
  exact ⟨(h ph hph w hwph).1, wordOf_pathOf w (h ph hph w hwph).2⟩

theorem pathOf_ne_nil (w : List Char) (h : w ≠ []) : pathOf w ≠ [] := by
  cases w with
  | nil => exact absurd rfl h
  | cons c cs => simp [pathOf]

theorem getTrieNode_of_mem (corpus : List (List (List Char))) (h : WellFormed corpus)
    (root : TrieNode) (w : List Char) (hw : w ∈ corpus.flatten) :
    getTrieNode root w = .ok (root.deref (pathOf w)) := by
  obtain ⟨hne, hwp⟩ := wellFormed_mem corpus h w hw
  have := getTrieNode_wordOf root (pathOf w)
  rw [hwp, if_neg (pathOf_ne_nil w hne)] at this
  exact this

theorem mem_adjacentPairs {α : Type} (l : List α) (a b : α) (h : (a, b) ∈ adjacentPairs l) :
    a ∈ l ∧ b ∈ l := by
  induction l with
  | nil => cases h
  | cons x rest ih =>
    cases rest with
    | nil => cases h
    | cons y rest2 =>
      simp only [adjacentPairs, List.mem_cons, Prod.mk.injEq] at h
      rcases h with ⟨rfl, rfl⟩ | h
      · simp
      · have := ih h
        exact ⟨List.mem_cons_of_mem _ this.1, List.mem_cons_of_mem _ this.2⟩

theorem mem_of_followCount_pos (corpus : List (List (List Char))) (w v : List Char)
    (h : 0 < followCount corpus w v) : w ∈ corpus.flatten ∧ v ∈ corpus.flatten := by
  unfold followCount at h
  induction corpus with
  | nil => simp at h
  | cons ph rest ih =>
    simp only [List.map_cons, List.sum_cons] at h
    by_cases h1 : 0 < (adjacentPairs ph).count (w, v)
    · have := mem_adjacentPairs ph w v (List.count_pos_iff.mp h1)
      simp [this.1, this.2]
    · have hrest := ih (by omega)
      simp [hrest.1, hrest.2]

theorem mem_of_occurrences_pos (corpus : List (List (List Char))) (w : List Char) :
    0 < occurrences corpus w ↔ w ∈ corpus.flatten := by
  unfold occurrences
  exact List.count_pos_iff

/-! ## The claims about building and enumerating -/

/-- C1: for a corpus of lowercase words separated by single spaces, in the trie
built by `insertPhrase` on a fresh root, phrase by phrase, every word `w` of
the corpus is found by `getTrieNode`, and the pairs enumerated from the subtrie
of its node are exactly the words `v` that come immediately after `w` inside
one phrase, each with the number of such adjacent occurrences as its count;
`getTrieWords` lists the same words. The first word of a phrase follows no
word: `followCount` counts neighbours inside a phrase only. -/
theorem subtrie_holds_followers (corpus : List (List (List Char))) (h : WellFormed corpus) :
    ∃ root, buildTrie (corpus.map phraseText) = .ok root ∧
      ∀ w ∈ corpus.flatten, ∃ n, getTrieNode root w = .ok n ∧ n.isNull = false ∧
        (∀ v k, (v, k) ∈ printTrieSimpleFormat n.subtrieOf
          ↔ (k = (followCount corpus w v : Int) ∧ 0 < k)) ∧
        getTrieWords n.subtrieOf []
          = ((printTrieSimpleFormat n.subtrieOf).map (fun e => e.1 ++ [' '])).flatten := by
  obtain ⟨root, hbuild, _, _, hfol, hpres⟩ := buildTrie_wellFormed corpus h
  refine ⟨root, hbuild, ?_⟩
  intro w hw
  obtain ⟨_, hwp⟩ := wellFormed_mem corpus h w hw
  refine ⟨root.deref (pathOf w), getTrieNode_of_mem corpus h root w hw, hpres w hw, ?_, ?_⟩
  · intro v k
    rw [printTrieSimpleFormat_eq]
    constructor
    · intro hmem
      rcases List.mem_map.mp hmem with ⟨⟨q, j⟩, hq, heq⟩
      simp only [Prod.mk.injEq] at heq
      obtain ⟨rfl, rfl⟩ := heq
      rw [mem_entriesBelow] at hq
      obtain ⟨_, hj, hpos⟩ := hq
      refine ⟨?_, hpos⟩
      have := hfol (pathOf w) q
      rw [hwp] at this
      rw [hj, ← this]; rfl
    · rintro ⟨hk, hpos⟩
      have hv : v ∈ corpus.flatten :=
        (mem_of_followCount_pos corpus w v (by omega)).2
      obtain ⟨hvne, hvp⟩ := wellFormed_mem corpus h v hv
      refine List.mem_map.mpr ⟨(pathOf v, k), ?_, by simp [hvp]⟩
      rw [mem_entriesBelow]
      refine ⟨pathOf_ne_nil v hvne, ?_, hpos⟩
      have := hfol (pathOf w) (pathOf v)
      rw [hwp, hvp] at this
      rw [hk, ← this]; rfl
  · rw [getTrieWords_eq, printTrieSimpleFormat_eq, List.map_map]
    rfl

/-- C1 at the corpus `the cat sat`, `the dog sat`. -/
theorem subtrie_holds_followers_witness :
    printTrieSimpleFormat (trieTheCat.deref (pathOf "the".toList)).subtrieOf
      = [("cat".toList, 1), ("dog".toList, 1)] ∧
    printTrieSimpleFormat (trieTheCat.deref (pathOf "sat".toList)).subtrieOf = [] ∧
    WellFormed corpusTheCat ∧
    ∃ root, buildTrie (corpusTheCat.map phraseText) = .ok root ∧
      ∀ w ∈ corpusTheCat.flatten, ∃ n, getTrieNode root w = .ok n ∧ n.isNull = false ∧
        (∀ v k, (v, k) ∈ printTrieSimpleFormat n.subtrieOf
          ↔ (k = (followCount corpusTheCat w v : Int) ∧ 0 < k)) ∧
        getTrieWords n.subtrieOf []
          = ((printTrieSimpleFormat n.subtrieOf).map (fun e => e.1 ++ [' '])).flatten :=
  ⟨by decide, by decide, by decide, subtrie_holds_followers corpusTheCat (by decide)⟩

/-- C2: for a corpus of lowercase words separated by single spaces, the pairs
printed by `printTrieSimpleFormat` for the built trie are exactly the words of
the corpus, each paired with its number of occurrences, no word is printed
twice, and `getTrieWords` lists the same words in the same order. -/
theorem main_trie_lists_corpus_words (corpus : List (List (List Char)))
    (h : WellFormed corpus) :
    ∃ root, buildTrie (corpus.map phraseText) = .ok root ∧
      (∀ w k, (w, k) ∈ printTrieSimpleFormat root
        ↔ (w ∈ corpus.flatten ∧ k = (occurrences corpus w : Int))) ∧
      ((printTrieSimpleFormat root).map Prod.fst).Nodup ∧
      getTrieWords root []
        = ((printTrieSimpleFormat root).map (fun e => e.1 ++ [' '])).flatten := by
  obtain ⟨root, hbuild, _, hcnt, _, _⟩ := buildTrie_wellFormed corpus h
  refine ⟨root, hbuild, ?_, ?_, ?_⟩
  · intro w k
    rw [printTrieSimpleFormat_eq]
    constructor
    · intro hmem
      rcases List.mem_map.mp hmem with ⟨⟨q, j⟩, hq, heq⟩
      simp only [Prod.mk.injEq] at heq
      obtain ⟨rfl, rfl⟩ := heq
      rw [mem_entriesBelow] at hq
      obtain ⟨_, hj, hpos⟩ := hq
      have hc := hcnt q
      unfold cnt at hc
      rw [hc] at hj
      refine ⟨(mem_of_occurrences_pos corpus (wordOf q)).mp (by omega), hj⟩
    · rintro ⟨hw, hk⟩
      obtain ⟨hwne, hwp⟩ := wellFormed_mem corpus h w hw
      refine List.mem_map.mpr ⟨(pathOf w, k), ?_, by simp [hwp]⟩
      rw [mem_entriesBelow]
      have hc := hcnt (pathOf w)
      unfold cnt at hc
      rw [hwp] at hc
      have hpos := (mem_of_occurrences_pos corpus w).mpr hw
      refine ⟨pathOf_ne_nil w hwne, by rw [hk, hc], by omega⟩
  · exact (printTrieSimpleFormat_sorted root).imp (fun hab => ne_of_lt hab)
  · rw [getTrieWords_eq, printTrieSimpleFormat_eq, List.map_map]
    rfl

/-- C2 at the corpus `the cat sat`, `the dog sat`. -/
theorem main_trie_lists_corpus_words_witness :
    printTrieSimpleFormat trieTheCat
      = [("cat".toList, 1), ("dog".toList, 1), ("sat".toList, 2), ("the".toList, 2)] ∧
    WellFormed corpusTheCat ∧
    ∃ root, buildTrie (corpusTheCat.map phraseText) = .ok root ∧
      (∀ w k, (w, k) ∈ printTrieSimpleFormat root
        ↔ (w ∈ corpusTheCat.flatten ∧ k = (occurrences corpusTheCat w : Int))) ∧
      ((printTrieSimpleFormat root).map Prod.fst).Nodup ∧
      getTrieWords root []
        = ((printTrieSimpleFormat root).map (fun e => e.1 ++ [' '])).flatten :=
  ⟨by decide, by decide, main_trie_lists_corpus_words corpusTheCat (by decide)⟩

/-- C3: for a corpus of lowercase words separated by single spaces, in the
built trie `getTrieNode` finds every word of the corpus at a node whose count
is the number of occurrences of the word; and the count stored at any letter
path is the number of times the word spelled by the path was inserted, so it
is greater than 0 exactly when that word occurs in the corpus. -/
theorem count_is_number_of_occurrences (corpus : List (List (List Char)))
    (h : WellFormed corpus) :
    ∃ root, buildTrie (corpus.map phraseText) = .ok root ∧
      (∀ w ∈ corpus.flatten, ∃ n, getTrieNode root w = .ok n ∧ n.isNull = false ∧
        n.countOf = (occurrences corpus w : Int)) ∧
      (∀ p : List (Fin 26),
        (root.deref p).countOf = (occurrences corpus (wordOf p) : Int) ∧
        (0 < (root.deref p).countOf ↔ wordOf p ∈ corpus.flatten)) := by
  obtain ⟨root, hbuild, _, hcnt, _, hpres⟩ := buildTrie_wellFormed corpus h
  refine ⟨root, hbuild, ?_, ?_⟩
  · intro w hw
    obtain ⟨_, hwp⟩ := wellFormed_mem corpus h w hw
    refine ⟨root.deref (pathOf w), getTrieNode_of_mem corpus h root w hw, hpres w hw, ?_⟩
    have hc := hcnt (pathOf w)
    unfold cnt at hc
    rw [hwp] at hc
    exact hc
  · intro p
    have hc := hcnt p
    unfold cnt at hc
    refine ⟨hc, ?_⟩
    rw [hc, ← mem_of_occurrences_pos]
    omega

/-- C3 at the corpus `the cat sat`, `the dog sat`. -/
theorem count_is_number_of_occurrences_witness :
    (∃ n, getTrieNode trieTheCat "the".toList = .ok n ∧ n.countOf = 2) ∧
    WellFormed corpusTheCat ∧
    ∃ root, buildTrie (corpusTheCat.map phraseText) = .ok root ∧
      (∀ w ∈ corpusTheCat.flatten, ∃ n, getTrieNode root w = .ok n ∧ n.isNull = false ∧
        n.countOf = (occurrences corpusTheCat w : Int)) ∧
      (∀ p : List (Fin 26),
        (root.deref p).countOf = (occurrences corpusTheCat (wordOf p) : Int) ∧
        (0 < (root.deref p).countOf ↔ wordOf p ∈ corpusTheCat.flatten)) :=
  ⟨⟨_, rfl, rfl⟩, by decide, count_is_number_of_occurrences corpusTheCat (by decide)⟩

/-! ## The search loop of the prediction -/

theorem getTextPredictionScan_append (sub : TrieNode) (w : List Char) (hw : ∀ c ∈ w, c ≠ ' ')
    (buf rest : List Char) (m : Int) (b : Option (List Char)) :
    getTextPredictionScan sub ⟨buf, m, b⟩ (w ++ rest)
      = getTextPredictionScan sub ⟨buf ++ w, m, b⟩ rest := by
  induction w generalizing buf with
  | nil => simp
  | cons c cs ih =>
    have hc : c ≠ ' ' := hw c (List.mem_cons_self _ _)
    rw [List.cons_append, getTextPredictionScan, if_pos hc]
    have := ih (fun d hd => hw d (List.mem_cons_of_mem _ hd)) (buf ++ [c])
    simp only [List.append_assoc, List.singleton_append] at this
    exact this

theorem getTextPredictionScan_entry (sub : TrieNode) (p : List (Fin 26)) (k : Int)
    (hp : p ≠ []) (hk : k = (sub.deref p).countOf) (hpos : 0 < k)
    (rest : List Char) (m : Int) (b : Option (List Char)) :
    getTextPredictionScan sub ⟨[], m, b⟩ (wordOf p ++ ' ' :: rest)
      = getTextPredictionScan sub
          ⟨[], (if m < k then (k, some (wordOf p)) else (m, b)).1,
            (if m < k then (k, some (wordOf p)) else (m, b)).2⟩ rest := by
  rw [getTextPredictionScan_append sub (wordOf p) (wordOf_no_space p)]
  simp only [List.nil_append]
  rw [getTextPredictionScan]
  simp only [ne_eq, not_true_eq_false, if_false, getTrieNode_wordOf, if_neg hp]
  cases hd : sub.deref p with
  | null =>
    rw [hd] at hk
    simp only [TrieNode.countOf] at hk
    omega
  | node c ch s =>
    rw [hd] at hk
    simp only [TrieNode.countOf] at hk
    subst hk
    by_cases hm : m < k
    · simp only [hm, if_true]
    · simp only [hm, if_false]

theorem getTextPredictionScan_entries (sub : TrieNode) (es : List (List (Fin 26) × Int)) :
    (∀ e ∈ es, e.1 ≠ [] ∧ e.2 = (sub.deref e.1).countOf ∧ 0 < e.2) →
    ∀ (m : Int) (b : Option (List Char)),
      getTextPredictionScan sub ⟨[], m, b⟩ ((es.map (fun e => wordOf e.1 ++ [' '])).flatten)
        = .ok ⟨[], (pickBest (m, b) (es.map (fun e => (wordOf e.1, e.2)))).1,
            (pickBest (m, b) (es.map (fun e => (wordOf e.1, e.2)))).2⟩ := by
  induction es with
  | nil => intro _ m b; rfl
  | cons e rest ih =>
    intro h m b
    obtain ⟨hp, hk, hpos⟩ := h e (List.mem_cons_self _ _)
    simp only [List.map_cons, List.flatten_cons, List.append_assoc, List.singleton_append]
    rw [getTextPredictionScan_entry sub e.1 e.2 hp hk hpos,
      ih (fun f hf => h f (List.mem_cons_of_mem _ hf))]
    rfl

theorem getTextPredictionScan_eq (sub : TrieNode) :
    getTextPredictionScan sub ⟨[], 0, none⟩ (getTrieWords sub [])
      = .ok ⟨[], (pickBest (0, none) (printTrieSimpleFormat sub)).1,
          (pickBest (0, none) (printTrieSimpleFormat sub)).2⟩ := by
  rw [getTrieWords_eq, printTrieSimpleFormat_eq, List.nil_append]
  apply getTextPredictionScan_entries
  intro e he
  exact (mem_entriesBelow sub e.1 e.2).mp he

theorem getTextPrediction_succ (root : TrieNode) (c : Int) (ch : Fin 26 → TrieNode)
    (sub : TrieNode) (counter : Nat) :
    getTextPrediction root (.node c ch sub) (counter + 1)
      = match (pickBest (0, none) (printTrieSimpleFormat sub)).2 with
        | none => ⟨[], some .uninitialised⟩
        | some w => predictionAfter root w counter := by
  rw [getTextPrediction, getTextPredictionScan_eq]
  simp only
  cases (pickBest (0, none) (printTrieSimpleFormat sub)).2 with
  | none => rfl
  | some w =>
    simp only [predictionAfter]

theorem pickBest_spec (l : List (List Char × Int)) :
    ∀ (m : Int) (b : Option (List Char)),
      ∃ k b1, pickBest (m, b) l = (k, b1) ∧ (∀ e ∈ l, e.2 ≤ k) ∧
        ((k = m ∧ b1 = b ∧ ∀ e ∈ l, e.2 ≤ m) ∨
          (∃ l1 w l2, l = l1 ++ (w, k) :: l2 ∧ b1 = some w ∧ m < k ∧ ∀ e ∈ l1, e.2 < k)) := by
  induction l with
  | nil => intro m b; exact ⟨m, b, rfl, by simp, Or.inl ⟨rfl, rfl, by simp⟩⟩
  | cons e rest ih =>
    intro m b
    by_cases hm : m < e.2
    · have hstep : pickBest (m, b) (e :: rest) = pickBest (e.2, some e.1) rest := by
        simp only [pickBest, hm, if_true]
      obtain ⟨k, b1, hk, hall, hcase⟩ := ih e.2 (some e.1)
      have hge : e.2 ≤ k := by
        rcases hcase with ⟨heq, _⟩ | ⟨_, _, _, _, _, hlt, _⟩ <;> omega
      refine ⟨k, b1, hstep.trans hk, ?_, Or.inr ?_⟩
      · intro f hf
        rcases List.mem_cons.mp hf with rfl | hf
        · exact hge
        · exact hall f hf
      · rcases hcase with ⟨heq, hb, _⟩ | ⟨l1, w, l2, hl, hw, hlt, hl1⟩
        · refine ⟨[], e.1, rest, ?_, hb, by omega, ?_⟩
          · rw [heq]; rfl
          · intro f hf; cases hf
        · refine ⟨e :: l1, w, l2, ?_, hw, by omega, ?_⟩
          · rw [hl]; simp
          · intro f hf
            rcases List.mem_cons.mp hf with rfl | hf
            · exact hlt
            · exact hl1 f hf
    · have hstep : pickBest (m, b) (e :: rest) = pickBest (m, b) rest := by
        simp only [pickBest, hm, if_false]
      obtain ⟨k, b1, hk, hall, hcase⟩ := ih m b
      have hge : m ≤ k := by
        rcases hcase with ⟨heq, _⟩ | ⟨_, _, _, _, _, hlt, _⟩ <;> omega
      refine ⟨k, b1, hstep.trans hk, ?_, ?_⟩
      · intro f hf
        rcases List.mem_cons.mp hf with rfl | hf
        · omega
        · exact hall f hf
      · rcases hcase with ⟨heq, hb, hle⟩ | ⟨l1, w, l2, hl, hw, hlt, hl1⟩
        · left
          refine ⟨heq, hb, ?_⟩
          intro f hf
          rcases List.mem_cons.mp hf with rfl | hf
          · omega
          · exact hle f hf
        · right
          refine ⟨e :: l1, w, l2, ?_, hw, hlt, ?_⟩
          · rw [hl]; simp
          · intro f hf
            rcases List.mem_cons.mp hf with rfl | hf
            · omega
            · exact hl1 f hf

theorem printTrieSimpleFormat_pos (sub : TrieNode) :
    ∀ e ∈ printTrieSimpleFormat sub, 0 < e.2 := by
  intro e he
  rw [printTrieSimpleFormat_eq] at he
  rcases List.mem_map.mp he with ⟨⟨q, j⟩, hq, rfl⟩
  exact ((mem_entriesBelow sub q j).mp hq).2.2

/-- The word chosen by the search loop: it is printed with a count that is the
maximum, and every other word with that count is lexicographically greater. -/
theorem pickBest_printTrieSimpleFormat (sub : TrieNode) (hne : printTrieSimpleFormat sub ≠ []) :
    ∃ b k, (pickBest (0, none) (printTrieSimpleFormat sub)).2 = some b ∧
      (b, k) ∈ printTrieSimpleFormat sub ∧
      ∀ v j, (v, j) ∈ printTrieSimpleFormat sub → j ≤ k ∧ (j = k → b ≤ v) := by
  obtain ⟨k, b1, hk, hall, hcase⟩ := pickBest_spec (printTrieSimpleFormat sub) 0 none
  rcases hcase with ⟨_, _, hle⟩ | ⟨l1, w, l2, hl, hw, _, hl1⟩
  · exfalso
    cases hp : printTrieSimpleFormat sub with
    | nil => exact hne hp
    | cons e rest =>
      have h1 := printTrieSimpleFormat_pos sub e (by rw [hp]; exact List.mem_cons_self _ _)
      have h2 := hle e (by rw [hp]; exact List.mem_cons_self _ _)
      omega
  · refine ⟨w, k, by rw [hk, hw], ?_, ?_⟩
    · rw [hl]; simp
    · intro v j hv
      refine ⟨hall (v, j) hv, ?_⟩
      intro hj
      have hsorted := printTrieSimpleFormat_sorted sub
      rw [hl] at hv hsorted
      simp only [List.map_append, List.map_cons, List.pairwise_append, List.pairwise_cons] at hsorted
      rcases List.mem_append.mp hv with hv1 | hv2
      · have := hl1 (v, j) hv1
        simp only at this
        omega
      · rcases List.mem_cons.mp hv2 with heq | hv3
        · simp only [Prod.mk.injEq] at heq
          rw [heq.1]
        · exact le_of_lt (hsorted.2.1.1 v (List.mem_map.mpr ⟨(v, j), hv3, rfl⟩))

/-! ## The claims about prediction -/

theorem predictionAfter_words (root : TrieNode) (w : List Char) (counter : Nat) :
    ∃ rest, (predictionAfter root w counter).words = w :: rest := by
  unfold predictionAfter
  cases getTrieNode root w with
  | error e => exact ⟨[], rfl⟩
  | ok next =>
    by_cases h1 : next.isNull = true
    · exact ⟨[], by simp [h1]⟩
    · by_cases h2 : next.subtrieOf.isNull = true
      · exact ⟨[], by simp [h1, h2]⟩
      · exact ⟨(getTextPrediction root next counter).words, by simp [h1, h2]⟩

theorem printTrieSimpleFormat_subtrieOf_ne (node : TrieNode)
    (hne : printTrieSimpleFormat node.subtrieOf ≠ []) :
    ∃ c ch sub, node = .node c ch sub := by
  cases node with
  | null => exact absurd rfl hne
  | node c ch sub => exact ⟨c, ch, sub, rfl⟩

/-- C4: when the subtrie of `node` holds at least one word and the counter is
greater than 0, the first word printed by `getTextPrediction` is a word of that
subtrie whose count is the maximum over the subtrie, and every word of the
subtrie with the same count is lexicographically not smaller. -/
theorem first_prediction_is_most_frequent (root node : TrieNode) (counter : Nat)
    (hne : printTrieSimpleFormat node.subtrieOf ≠ []) (hc : 0 < counter) :
    ∃ b k rest, (getTextPrediction root node counter).words = b :: rest ∧
      (b, k) ∈ printTrieSimpleFormat node.subtrieOf ∧
      ∀ v j, (v, j) ∈ printTrieSimpleFormat node.subtrieOf → j ≤ k ∧ (j = k → b ≤ v) := by
  obtain ⟨c, ch, sub, rfl⟩ := printTrieSimpleFormat_subtrieOf_ne node hne
  obtain ⟨n, rfl⟩ : ∃ n, counter = n + 1 := ⟨counter - 1, by omega⟩
  obtain ⟨b, k, hb, hmem, hmax⟩ := pickBest_printTrieSimpleFormat sub hne
  obtain ⟨rest, hrest⟩ := predictionAfter_words root b n
  refine ⟨b, k, rest, ?_, hmem, hmax⟩
  rw [getTextPrediction_succ, hb]
  exact hrest

/-- C4 at the corpus `a x`, `a y` with the seed `a`: the word printed is `x`. -/
theorem first_prediction_is_most_frequent_witness :
    (getTextPrediction trieAXY (trieAXY.deref [0]) 1).words = ["x".toList] ∧
    ∃ b k rest, (getTextPrediction trieAXY (trieAXY.deref [0]) 1).words = b :: rest ∧
      (b, k) ∈ printTrieSimpleFormat (trieAXY.deref [0]).subtrieOf ∧
      ∀ v j, (v, j) ∈ printTrieSimpleFormat (trieAXY.deref [0]).subtrieOf →
        j ≤ k ∧ (j = k → b ≤ v) :=
  ⟨by decide,
    first_prediction_is_most_frequent trieAXY (trieAXY.deref [0]) 1 (by decide) (by decide)⟩

theorem getTrieNode_printed (root sub : TrieNode) (b : List Char) (k : Int)
    (h : (b, k) ∈ printTrieSimpleFormat sub) : ∃ next, getTrieNode root b = .ok next := by
  rw [printTrieSimpleFormat_eq] at h
  rcases List.mem_map.mp h with ⟨⟨q, j⟩, _, heq⟩
  simp only [Prod.mk.injEq] at heq
  obtain ⟨rfl, _⟩ := heq
  exact ⟨_, getTrieNode_wordOf root q⟩

/-- C5: when the subtrie of `node` holds at least one word, the run of
`getTextPrediction` with a counter greater than 0 prints the best follow-word
`b` of `node` (maximal count, lexicographically first among the maximal); it
then resolves `b` in `root`, and when `b` is found there at a node with a
subtrie it continues with the run from that node with the counter decreased by
one, and otherwise prints nothing more. -/
theorem prediction_chains_through_root (root node : TrieNode) (counter : Nat)
    (hne : printTrieSimpleFormat node.subtrieOf ≠ []) :
    ∃ b k next, (b, k) ∈ printTrieSimpleFormat node.subtrieOf ∧
      (∀ v j, (v, j) ∈ printTrieSimpleFormat node.subtrieOf → j ≤ k ∧ (j = k → b ≤ v)) ∧
      getTrieNode root b = .ok next ∧
      getTextPrediction root node (counter + 1) =
        if next.isNull = false ∧ next.subtrieOf.isNull = false then
          ⟨b :: (getTextPrediction root next counter).words,
            (getTextPrediction root next counter).fault⟩
        else ⟨[b], none⟩ := by
  obtain ⟨c, ch, sub, rfl⟩ := printTrieSimpleFormat_subtrieOf_ne node hne
  obtain ⟨b, k, hb, hmem, hmax⟩ := pickBest_printTrieSimpleFormat sub hne
  obtain ⟨next, hnext⟩ := getTrieNode_printed root sub b k hmem
  refine ⟨b, k, next, hmem, hmax, hnext, ?_⟩
  rw [getTextPrediction_succ, hb]
  simp only [predictionAfter, hnext]
  by_cases h1 : next.isNull = true
  · simp [h1]
  · by_cases h2 : next.subtrieOf.isNull = true
    · simp [h1, h2]
    · simp [h1, h2]

/-- C5 at the corpus `i like cats`, `i like dogs`, `i like cats` with the seed
`i` and two steps: the words printed are `like`, `cats`. -/
theorem prediction_chains_through_root_witness :
    (getTextPrediction trieILike (trieILike.deref [8]) 2).words
      = ["like".toList, "cats".toList] ∧
    ∃ b k next, (b, k) ∈ printTrieSimpleFormat (trieILike.deref [8]).subtrieOf ∧
      (∀ v j, (v, j) ∈ printTrieSimpleFormat (trieILike.deref [8]).subtrieOf →
        j ≤ k ∧ (j = k → b ≤ v)) ∧
      getTrieNode trieILike b = .ok next ∧
      getTextPrediction trieILike (trieILike.deref [8]) (1 + 1) =
        if next.isNull = false ∧ next.subtrieOf.isNull = false then
          ⟨b :: (getTextPrediction trieILike next 1).words,
            (getTextPrediction trieILike next 1).fault⟩
        else ⟨[b], none⟩ :=
  ⟨by decide, prediction_chains_through_root trieILike (trieILike.deref [8]) 1 (by decide)⟩

theorem getTextPrediction_length (root : TrieNode) (n : Nat) :
    ∀ node : TrieNode, (getTextPrediction root node n).words.length ≤ n := by
  induction n with
  | zero =>
    intro node
    cases node <;> simp [getTextPrediction]
  | succ n ih =>
    intro node
    cases node with
    | null => simp [getTextPrediction]
    | node c ch sub =>
      rw [getTextPrediction_succ]
      cases (pickBest (0, none) (printTrieSimpleFormat sub)).2 with
      | none => simp
      | some w =>
        simp only [predictionAfter]
        cases getTrieNode root w with
        | error e => simp
        | ok next =>
          by_cases h1 : next.isNull = true
          · simp [h1]
          · by_cases h2 : next.subtrieOf.isNull = true
            · simp [h1, h2]
            · have := ih next
              simp [h1, h2]
              omega

/-- C6: a run of `getTextPrediction` with counter `n` prints at most `n`
words, and so does the prediction printed by `eventCommand2` after the echoed
seed word, for the number `n` read from the command. -/
theorem prediction_prints_at_most_counter (root node : TrieNode) (n : Nat)
    (phrase : List Char) :
    (getTextPrediction root node n).words.length ≤ n ∧
    (eventCommand2 root phrase).2.words.length ≤ atoi (eventCommand2Split phrase).2 := by
  refine ⟨getTextPrediction_length root n node, ?_⟩
  cases root with
  | null => simp [eventCommand2]
  | node c ch s =>
    simp only [eventCommand2]
    cases getTrieNode (.node c ch s) (eventCommand2Split phrase).1 with
    | error e => simp
    | ok found =>
      by_cases h1 : found.isNull = true
      · simp [h1]
      · by_cases h2 : found.subtrieOf.isNull = true
        · simp [h1, h2]
        · simp only [h1, h2, Bool.false_eq_true, if_false]
          exact getTextPrediction_length _ _ found

/-! ## Characters that reach the walk of `getTrieNode` -/

theorem isUpper_iff (c : Char) : c.isUpper = true ↔ 65 ≤ c.toNat ∧ c.toNat ≤ 90 := by
  simp only [Char.isUpper, Bool.and_eq_true, decide_eq_true_eq]
  constructor
  · rintro ⟨h1, h2⟩
    exact ⟨h1, h2⟩
  · rintro ⟨h1, h2⟩
    exact ⟨h1, h2⟩

theorem eq_upper_letter (c : Char) (h : c.isUpper = true) :
    ∃ j : Fin 26, c = Char.ofNat (65 + j.val) := by
  rw [isUpper_iff] at h
  refine ⟨⟨c.toNat - 65, by omega⟩, ?_⟩
  have e : 65 + (c.toNat - 65) = c.toNat := by omega
  simp only [e, Char.ofNat_toNat]

theorem toLower_isLower_of_isAlpha (c : Char) (h : c.isAlpha = true) :
    c.toLower.isLower = true := by
  simp only [Char.isAlpha, Bool.or_eq_true] at h
  rcases h with h | h
  · obtain ⟨j, rfl⟩ := eq_upper_letter c h
    revert j; decide
  · rw [toLower_of_isLower c h]; exact h

theorem eq_space_of_toLower (c : Char) (h : c.toLower = ' ') : c = ' ' := by
  by_cases hu : c.isUpper = true
  · obtain ⟨j, rfl⟩ := eq_upper_letter c hu
    revert j; decide
  · have : c.toLower = c := by
      rw [isUpper_iff] at hu
      simp only [Char.toLower]
      split
      · rename_i h1
        exact absurd h1 hu
      · rfl
    rw [this] at h; exact h

theorem mem_stripPunctuators (s : List Char) (d : Char) (h : d ∈ stripPunctuators s) :
    ∃ c ∈ s, (c.isAlpha = true ∨ c = ' ') ∧ d = c.toLower := by
  induction s with
  | nil => cases h
  | cons c cs ih =>
    simp only [stripPunctuators] at h
    by_cases hc : (c.isAlpha || c == ' ') = true
    · rw [if_pos hc] at h
      rcases List.mem_cons.mp h with rfl | h
      · refine ⟨c, List.mem_cons_self _ _, ?_, rfl⟩
        simpa using hc
      · obtain ⟨e, he, hp⟩ := ih h
        exact ⟨e, List.mem_cons_of_mem _ he, hp⟩
    · rw [if_neg hc] at h
      obtain ⟨e, he, hp⟩ := ih h
      exact ⟨e, List.mem_cons_of_mem _ he, hp⟩

theorem normalised_isLower (word : List Char) (h : ' ' ∉ word) :
    ∀ d ∈ stripPunctuators (strlwr word), d.isLower = true := by
  intro d hd
  obtain ⟨c, hc, hkeep, rfl⟩ := mem_stripPunctuators _ d hd
  rcases List.mem_map.mp hc with ⟨e, he, rfl⟩
  rcases hkeep with hal | hsp
  · exact toLower_isLower_of_isAlpha _ hal
  · exact absurd (eq_space_of_toLower e hsp ▸ he) h

theorem getTrieNodeLoop_lower (n : TrieNode) (s : List Char)
    (h : ∀ c ∈ s, c.isLower = true) : getTrieNodeLoop n s = .ok (n.deref (pathOf s)) := by
  have := getTrieNodeLoop_wordOf n (pathOf s)
  rw [wordOf_pathOf s h] at this
  exact this

/-- A query without a space never leaves the children array. -/
theorem getTrieNode_ok_of_no_space (root : TrieNode) (word : List Char) (h : ' ' ∉ word) :
    ∃ n, getTrieNode root word = .ok n := by
  cases root with
  | null => exact ⟨_, rfl⟩
  | node c ch s =>
    simp only [getTrieNode]
    split
    · exact ⟨_, rfl⟩
    · exact ⟨_, getTrieNodeLoop_lower _ _ (normalised_isLower word h)⟩

theorem eventCommand2Split_no_space (phrase : List Char) :
    ' ' ∉ (eventCommand2Split phrase).1 := by
  induction phrase with
  | nil => simp [eventCommand2Split]
  | cons c cs ih =>
    simp only [eventCommand2Split]
    by_cases h1 : (c.isAlpha && decide (c ≠ ' ')) = true
    · rw [if_pos h1]
      simp only [Bool.and_eq_true, decide_eq_true_eq] at h1
      simp only [List.mem_cons, not_or]
      exact ⟨fun e => h1.2 e.symm, ih⟩
    · rw [if_neg h1]
      split
      · exact ih
      · exact ih

/-- C7: the prediction printed by `eventCommand2` is empty, and ends without a
fault, when the seed word is not found by `getTrieNode` in the main trie, when
its node has no subtrie, and when the requested number of words is 0; and a
run of `getTextPrediction` with counter 0 prints nothing. -/
theorem prediction_empty_without_error (root node : TrieNode) (phrase : List Char) :
    ((∃ n, getTrieNode root (eventCommand2Split phrase).1 = .ok n ∧ n.isNull = true) →
      (eventCommand2 root phrase).2 = ⟨[], none⟩) ∧
    ((∃ n, getTrieNode root (eventCommand2Split phrase).1 = .ok n ∧ n.subtrieOf.isNull = true) →
      (eventCommand2 root phrase).2 = ⟨[], none⟩) ∧
    (atoi (eventCommand2Split phrase).2 = 0 → (eventCommand2 root phrase).2 = ⟨[], none⟩) ∧
    getTextPrediction root node 0 = ⟨[], none⟩ := by
  have hzero : ∀ m : TrieNode, getTextPrediction root m 0 = ⟨[], none⟩ := by
    intro m; cases m <;> rfl
  refine ⟨?_, ?_, ?_, hzero node⟩
  · rintro ⟨n, hn, hnull⟩
    cases root with
    | null => rfl
    | node c ch s => simp only [eventCommand2, hn, hnull, if_true]
  · rintro ⟨n, hn, hnull⟩
    cases root with
    | null => rfl
    | node c ch s =>
      simp only [eventCommand2, hn, hnull, if_true]
      split <;> rfl
  · intro h0
    cases root with
    | null => rfl
    | node c ch s =>
      obtain ⟨n, hn⟩ := getTrieNode_ok_of_no_space (.node c ch s) _
        (eventCommand2Split_no_space phrase)
      simp only [eventCommand2, hn, h0, hzero]
      split
      · rfl
      · split <;> rfl

/-- C7 at the corpus `the cat sat`, `the dog sat`: the commands `zzz 3` and
`the 0` print no predicted word and end without a fault. -/
theorem prediction_empty_without_error_witness :
    (eventCommand2 trieTheCat "zzz 3".toList).2 = ⟨[], none⟩ ∧
    (eventCommand2 trieTheCat "the 0".toList).2 = ⟨[], none⟩ :=
  ⟨(prediction_empty_without_error trieTheCat .null "zzz 3".toList).1 ⟨.null, by rfl, by rfl⟩,
    (prediction_empty_without_error trieTheCat .null "the 0".toList).2.2.1 (by decide)⟩

/-! ## The claims about lookup and enumeration order -/

theorem deref_append (n : TrieNode) (q r : List (Fin 26)) :
    n.deref (q ++ r) = (n.deref q).deref r := by
  induction q generalizing n with
  | nil => cases n <;> rfl
  | cons i q2 ih =>
    cases n with
    | null => simp [TrieNode.deref, deref_null]
    | node c ch s => simp only [List.cons_append, deref_node_cons]; exact ih (ch i)

theorem deref_singleton (n : TrieNode) (i : Fin 26) : n.deref [i] = n.childOf i := by
  cases n with
  | null => rfl
  | node c ch s => cases h : ch i <;> simp [TrieNode.deref, TrieNode.childOf, h]

theorem deref_isNull_iff (p : List (Fin 26)) :
    ∀ root : TrieNode, root.isNull = false →
      ((root.deref p).isNull = true ↔
        ∃ q i r, p = q ++ i :: r ∧ (root.deref q).isNull = false ∧
          ((root.deref q).childOf i).isNull = true) := by
  induction p with
  | nil =>
    intro root hroot
    have : root.deref [] = root := by cases root <;> rfl
    rw [this, hroot]
    simp
  | cons j rest ih =>
    intro root hroot
    cases root with
    | null => cases hroot
    | node c ch s =>
      rw [deref_node_cons]
      by_cases hj : (ch j).isNull = true
      · have hd : ((ch j).deref rest).isNull = true := by
          cases hcj : ch j with
          | null => rw [deref_null]; rfl
          | node _ _ _ => rw [hcj] at hj; cases hj
        simp only [hd, true_iff]
        exact ⟨[], j, rest, rfl, rfl, hj⟩
      · have hj2 : (ch j).isNull = false := by simpa using hj
        rw [ih (ch j) hj2]
        constructor
        · rintro ⟨q, i, r, hp, hq, hchild⟩
          exact ⟨j :: q, i, r, by rw [hp]; rfl, hq, hchild⟩
        · rintro ⟨q, i, r, hp, hq, hchild⟩
          cases q with
          | nil =>
            simp only [List.nil_append, List.cons.injEq] at hp
            obtain ⟨rfl, rfl⟩ := hp
            simp only [TrieNode.deref, TrieNode.childOf] at hchild
            rw [hchild] at hj2; cases hj2
          | cons k q2 =>
            simp only [List.cons_append, List.cons.injEq] at hp
            obtain ⟨rfl, rfl⟩ := hp
            exact ⟨q2, i, r, rfl, hq, hchild⟩

/-- C8: for a trie and a word of lowercase letters, `getTrieNode` returns
without a fault; it returns `NULL` exactly when the word is empty or some
letter of the word has no child at its place on the path from the root; and
when it returns a node, this is the node reached by following all the letters
of the word from the root. -/
theorem getTrieNode_absent_iff (root : TrieNode) (word : List Char)
    (hroot : root.isNull = false) (hword : ∀ c ∈ word, c.isLower = true) :
    ∃ n, getTrieNode root word = .ok n ∧
      (n.isNull = true ↔
        (word = [] ∨ ∃ q i r, pathOf word = q ++ i :: r ∧ (root.deref q).isNull = false ∧
          ((root.deref q).childOf i).isNull = true)) ∧
      (n.isNull = false → n = root.deref (pathOf word)) := by
  have hget := getTrieNode_wordOf root (pathOf word)
  rw [wordOf_pathOf word hword] at hget
  refine ⟨_, hget, ?_, ?_⟩
  · cases word with
    | nil => simp [pathOf, TrieNode.isNull]
    | cons c cs =>
      have hne : pathOf (c :: cs) ≠ [] := by simp [pathOf]
      rw [if_neg hne, deref_isNull_iff _ root hroot]
      simp
  · intro h
    by_cases hp : pathOf word = []
    · rw [if_pos hp] at h; cases h
    · rw [if_neg hp]

/-- C8 at the trie of `the cat sat`, `the dog sat` and the word `cab`: the
letters `c`, `a` have children on the path and `b` has none. -/
theorem getTrieNode_absent_iff_witness :
    getTrieNode trieTheCat "cab".toList = .ok .null ∧
    ∃ n, getTrieNode trieTheCat "cab".toList = .ok n ∧
      (n.isNull = true ↔
        ("cab".toList = [] ∨ ∃ q i r, pathOf "cab".toList = q ++ i :: r ∧
          (trieTheCat.deref q).isNull = false ∧
          ((trieTheCat.deref q).childOf i).isNull = true)) ∧
      (n.isNull = false → n = trieTheCat.deref (pathOf "cab".toList)) :=
  ⟨by rfl, getTrieNode_absent_iff trieTheCat "cab".toList (by rfl) (by decide)⟩

/-- C9: for every trie, whatever its shape, the words printed by
`printTrieSimpleFormat`, and by `printTrieNodeWordsSimpleFormat` from any node
and partial word, are in strictly increasing lexicographic order, and the
buffers filled by `getTrieWords` and `getTrieNodeWords` hold the same words in
the same order, each followed by a space. -/
theorem enumeration_strictly_increasing (root node : TrieNode) (word : List Char) :
    ((printTrieSimpleFormat root).map Prod.fst).Pairwise (fun a b => a < b) ∧
    ((printTrieNodeWordsSimpleFormat node word []).map Prod.fst).Pairwise (fun a b => a < b) ∧
    getTrieWords root []
      = ((printTrieSimpleFormat root).map (fun e => e.1 ++ [' '])).flatten ∧
    getTrieNodeWords node [] word
      = ((printTrieNodeWordsSimpleFormat node word []).map (fun e => e.1 ++ [' '])).flatten := by
  refine ⟨printTrieSimpleFormat_sorted root, printTrieNodeWordsSimpleFormat_sorted node word,
    ?_, ?_⟩
  · rw [getTrieWords_eq, printTrieSimpleFormat_eq, List.map_map]
    rfl
  · rw [getTrieNodeWords_eq, printTrieNodeWordsSimpleFormat_eq, List.nil_append, List.nil_append,
      List.map_map]
    rfl

/-- C10, the code at the failing input: in the trie of the line `ab` the query
`ab` is found with count 1, but for the query `a b` the space survives
`stripPunctuators`, the walk computes the index `' ' - 'a' = -65` and reads
`children[-65]`. -/
theorem getTrieNode_space_out_of_bounds :
    (∃ n, getTrieNode trieAB "ab".toList = .ok n ∧ n.countOf = 1) ∧
    stripPunctuators (strlwr "a b".toList) = "a b".toList ∧
    ((' ' : Char).toNat : Int) - 97 = -65 ∧
    getTrieNode trieAB "a b".toList = .error .outOfBounds :=
  ⟨⟨_, rfl, rfl⟩, by decide, by decide, by rfl⟩

/-! ### Queries without a space -/

theorem toLower_toLower (c : Char) : c.toLower.toLower = c.toLower := by
  by_cases hu : c.isUpper = true
  · obtain ⟨j, rfl⟩ := eq_upper_letter c hu
    revert j; decide
  · have : c.toLower = c := by
      rw [isUpper_iff] at hu
      simp only [Char.toLower]
      split
      · rename_i h1
        exact absurd h1 hu
      · rfl
    rw [this, this]

theorem isAlpha_toLower (c : Char) : c.toLower.isAlpha = c.isAlpha := by
  by_cases hu : c.isUpper = true
  · obtain ⟨j, rfl⟩ := eq_upper_letter c hu
    revert j; decide
  · have : c.toLower = c := by
      rw [isUpper_iff] at hu
      simp only [Char.toLower]
      split
      · rename_i h1
        exact absurd h1 hu
      · rfl
    rw [this]

theorem stripPunctuators_strlwr_no_space (word : List Char) (h : ' ' ∉ word) :
    stripPunctuators (strlwr word) = lettersOnly word := by
  induction word with
  | nil => rfl
  | cons c cs ih =>
    have hc : c ≠ ' ' := fun e => h (e ▸ List.mem_cons_self _ _)
    have hcs : ' ' ∉ cs := fun e => h (List.mem_cons_of_mem _ e)
    have ih2 := ih hcs
    simp only [strlwr, lettersOnly] at ih2
    have hsp : (c.toLower == ' ') = false := by
      simp only [beq_eq_false_iff_ne, ne_eq]
      exact fun e => hc (eq_space_of_toLower c e)
    simp only [strlwr, lettersOnly, List.map_cons, stripPunctuators, hsp, Bool.or_false,
      isAlpha_toLower, toLower_toLower, List.filter_cons]
    by_cases ha : c.isAlpha = true
    · simp only [ha, if_true, List.map_cons, ih2]
    · simp only [ha, Bool.false_eq_true, if_false, ih2]

theorem lettersOnly_isLower (word : List Char) : ∀ d ∈ lettersOnly word, d.isLower = true := by
  intro d hd
  rcases List.mem_map.mp hd with ⟨c, hc, rfl⟩
  exact toLower_isLower_of_isAlpha c (List.mem_filter.mp hc).2

/-- For a query without a space `getTrieNode` does what C10 says: it gives
the result of the query reduced to its lowercased letters, and the walk never
leaves the children array. -/
theorem getTrieNode_eq_lettersOnly (root : TrieNode) (word : List Char) (h : ' ' ∉ word) :
    getTrieNode root word = getTrieNode root (lettersOnly word) ∧
    ∃ n, getTrieNode root word = .ok n := by
  refine ⟨?_, getTrieNode_ok_of_no_space root word h⟩
  cases root with
  | null => rfl
  | node c ch s =>
    have h1 := stripPunctuators_strlwr_no_space word h
    have h2 := stripPunctuators_strlwr_clean (lettersOnly word)
      (fun d hd => Or.inl (lettersOnly_isLower word d hd))
    simp only [getTrieNode, h1, h2]

/-! ## `stripPunctuators` -/

theorem stripPunctuators_eq_filter_map (s : List Char) :
    stripPunctuators s = (s.filter (fun c => c.isAlpha || c == ' ')).map Char.toLower := by
  induction s with
  | nil => rfl
  | cons c cs ih =>
    simp only [stripPunctuators, List.filter_cons]
    by_cases h : (c.isAlpha || c == ' ') = true
    · simp only [h, if_true, List.map_cons, ih]
    · simp only [h, Bool.false_eq_true, if_false, ih]

theorem stripPunctuators_chars (s : List Char) :
    ∀ c ∈ stripPunctuators s, c.isLower = true ∨ c = ' ' := by
  intro d hd
  obtain ⟨c, _, hkeep, rfl⟩ := mem_stripPunctuators s d hd
  rcases hkeep with h | rfl
  · exact Or.inl (toLower_isLower_of_isAlpha c h)
  · exact Or.inr (by decide)

theorem stripPunctuators_clean (s : List Char) (h : ∀ c ∈ s, c.isLower = true ∨ c = ' ') :
    stripPunctuators s = s := by
  have := stripPunctuators_strlwr_clean s h
  have hs : strlwr s = s := by
    unfold strlwr
    conv_rhs => rw [← List.map_id s]
    apply List.map_congr_left
    intro c hc
    rcases h c hc with hl | rfl
    · exact toLower_of_isLower c hl
    · decide
  rw [hs] at this
  exact this

/-- C19: `stripPunctuators` returns the characters of the string that are
letters or spaces, in their order, each lowercased, and drops every other
character; so its result holds only lowercase letters and spaces, and
applying it to its own result changes nothing. -/
theorem stripPunctuators_keeps_letters_and_spaces (s : List Char) :
    stripPunctuators s = (s.filter (fun c => c.isAlpha || c == ' ')).map Char.toLower ∧
    (∀ c ∈ stripPunctuators s, c.isLower = true ∨ c = ' ') ∧
    stripPunctuators (stripPunctuators s) = stripPunctuators s :=
  ⟨stripPunctuators_eq_filter_map s, stripPunctuators_chars s,
    stripPunctuators_clean _ (stripPunctuators_chars s)⟩

/-! ## Phrases without a letter -/

theorem insertPhraseLoop_spaces (root : TrieNode) (text : List Char)
    (h : ∀ c ∈ text, c = ' ') :
    insertPhraseLoop ⟨root, none, []⟩ text = .ok ⟨root, none, []⟩ := by
  induction text with
  | nil => exact insertPhraseWordEnd_nil root
  | cons c cs ih =>
    have hc : c = ' ' := h c (List.mem_cons_self _ _)
    subst hc
    rw [insertPhraseLoop]
    simp only [ne_eq, not_true_eq_false, if_false, insertPhraseWordEnd_nil]
    exact ih (fun d hd => h d (List.mem_cons_of_mem _ hd))

theorem normalised_chars (phrase : List Char) :
    ∀ c ∈ stripPunctuators (strlwr phrase), c.isLower = true ∨ c = ' ' :=
  stripPunctuators_chars _

/-- C12: a phrase whose normalised text holds no letter leaves the trie as it
is, whatever the trie: `insertPhrase` returns the same trie value, so no node
and no subtrie is created and no count changes; and `insertWord` on the empty
word returns `NULL` and the unchanged node. -/
theorem insertPhrase_without_letter (root node : TrieNode) (phrase : List Char)
    (h : ∀ c ∈ stripPunctuators (strlwr phrase), c.isAlpha = false) :
    insertPhrase root phrase = .ok root ∧ insertWord node [] = .ok (node, none) := by
  refine ⟨?_, insertWord_nil node⟩
  cases root with
  | null => rfl
  | node c ch s =>
    simp only [insertPhrase]
    split
    · rfl
    · rw [insertPhraseLoop_spaces]
      intro d hd
      rcases normalised_chars phrase d hd with hl | hsp
      · have := h d hd
        rw [isAlpha_of_isLower d hl] at this
        cases this
      · exact hsp

/-- C12 at the trie of `the cat sat`, `the dog sat`: the empty line, a lone
newline, a line of punctuation and digits, and a line of spaces. -/
theorem insertPhrase_without_letter_witness :
    (insertPhrase trieTheCat [] = .ok trieTheCat ∧
      insertWord trieTheCat [] = .ok (trieTheCat, none)) ∧
    (insertPhrase trieTheCat [Char.ofNat 10] = .ok trieTheCat ∧
      insertWord trieTheCat [] = .ok (trieTheCat, none)) ∧
    (insertPhrase trieTheCat "?! 12 -".toList = .ok trieTheCat ∧
      insertWord trieTheCat [] = .ok (trieTheCat, none)) ∧
    (insertPhrase trieTheCat "   ".toList = .ok trieTheCat ∧
      insertWord trieTheCat [] = .ok (trieTheCat, none)) :=
  ⟨insertPhrase_without_letter trieTheCat trieTheCat [] (by decide),
    insertPhrase_without_letter trieTheCat trieTheCat [Char.ofNat 10] (by decide),
    insertPhrase_without_letter trieTheCat trieTheCat "?! 12 -".toList (by decide),
    insertPhrase_without_letter trieTheCat trieTheCat "   ".toList (by decide)⟩

/-! ## `insertWord` on any word -/

theorem insertPath_nil (n : TrieNode) : insertPath n [] = n := by
  cases n <;> rfl

theorem isNull_deref_orCreate (n : TrieNode) (q : List (Fin 26)) :
    ((orCreate n).deref q).isNull = false ↔ ((n.deref q).isNull = false ∨ q = []) := by
  cases n with
  | null =>
    cases q with
    | nil => simp [orCreate, TrieNode.isNull, TrieNode.deref, createTrieNode]
    | cons i r =>
      simp [orCreate, TrieNode.isNull, TrieNode.deref, createTrieNode, deref_null]
  | node c ch s =>
    cases q with
    | nil => simp [orCreate, TrieNode.isNull, TrieNode.deref]
    | cons i r => simp [orCreate, TrieNode.isNull]

theorem isNull_deref_insertPath_iff (p : List (Fin 26)) :
    ∀ (n : TrieNode) (q : List (Fin 26)), n.isNull = false →
      (((insertPath n p).deref q).isNull = false ↔
        ((n.deref q).isNull = false ∨ ∃ r, p = q ++ r)) := by
  induction p with
  | nil =>
    intro n q hn
    rw [insertPath_nil]
    constructor
    · intro h; exact Or.inl h
    · rintro (h | ⟨r, hr⟩)
      · exact h
      · have hq : q = [] := by
          cases q with
          | nil => rfl
          | cons a b => cases hr
        subst hq
        cases n <;> simpa [TrieNode.deref] using hn
  | cons i rest ih =>
    intro n q hn
    cases n with
    | null => cases hn
    | node c ch s =>
      cases q with
      | nil =>
        have h1 : ((insertPath (.node c ch s) (i :: rest)).deref []).isNull = false := by
          cases rest <;> rfl
        simp only [h1, true_iff]
        exact Or.inl rfl
      | cons k q2 =>
        by_cases hk : k = i
        · subst hk
          cases rest with
          | nil =>
            simp only [insertPath, deref_node_cons, setChild_same]
            cases q2 with
            | nil =>
              simp only [TrieNode.deref, isNull_incrementCount, orCreate_isNull, true_iff]
              exact Or.inr ⟨[], rfl⟩
            | cons m q3 =>
              rw [deref_incrementCount_cons, isNull_deref_orCreate]
              simp
          | cons j r2 =>
            simp only [insertPath, deref_node_cons, setChild_same]
            rw [ih (orCreate (ch k)) q2 (orCreate_isNull _), isNull_deref_orCreate]
            constructor
            · rintro ((h | rfl) | ⟨r, hr⟩)
              · exact Or.inl h
              · exact Or.inr ⟨j :: r2, rfl⟩
              · exact Or.inr ⟨r, by rw [hr]; rfl⟩
            · rintro (h | ⟨r, hr⟩)
              · exact Or.inl (Or.inl h)
              · simp only [List.cons_append, List.cons.injEq, true_and] at hr
                exact Or.inr ⟨r, hr⟩
        · have hne : ¬ ∃ r, i :: rest = k :: q2 ++ r := by
            rintro ⟨r, hr⟩
            simp only [List.cons_append, List.cons.injEq] at hr
            exact hk hr.1.symm
          cases rest with
          | nil =>
            simp only [insertPath, deref_node_cons, setChild_other _ _ _ _ hk, hne, or_false]
          | cons j r2 =>
            simp only [insertPath, deref_node_cons, setChild_other _ _ _ _ hk, hne, or_false]

/-- C15: for a node and a non-empty word of lowercase letters, `insertWord`
returns a pointer to the node at the end of the path spelled by the word; that
node exists afterwards, the nodes that exist afterwards are those that existed
before together with the nodes along that path, and the count at the end of
the path is one more than the count stored there before (0 when the path did
not exist). -/
theorem insertWord_returns_end_of_path (node : TrieNode) (word : List Char)
    (hnode : node.isNull = false) (hne : word ≠ [])
    (hword : ∀ c ∈ word, c.isLower = true) :
    ∃ node1, insertWord node word = .ok (node1, some (pathOf word)) ∧
      (node1.deref (pathOf word)).isNull = false ∧
      (node1.deref (pathOf word)).countOf = (node.deref (pathOf word)).countOf + 1 ∧
      ((node.deref (pathOf word)).isNull = true → (node1.deref (pathOf word)).countOf = 1) ∧
      (∀ q, (node1.deref q).isNull = false ↔
        ((node.deref q).isNull = false ∨ ∃ r, pathOf word = q ++ r)) := by
  have hp := pathOf_ne_nil word hne
  have hins := insertWord_wordOf node (pathOf word) hnode hp
  rw [wordOf_pathOf word hword] at hins
  have hcount := countOf_deref_insertPath node (pathOf word) hnode hp (pathOf word)
  simp only [if_true] at hcount
  refine ⟨insertPath node (pathOf word), hins,
    isNull_deref_insertPath_self node _ hnode hp, hcount, ?_, ?_⟩
  · intro hnull
    rw [hcount]
    cases hd : node.deref (pathOf word) with
    | null => rfl
    | node c ch s => rw [hd] at hnull; cases hnull
  · intro q
    exact isNull_deref_insertPath_iff (pathOf word) node q hnode

/-- C15 at the trie of `the cat sat`, `the dog sat` and the word `cab`. -/
theorem insertWord_returns_end_of_path_witness :
    ∃ node1, insertWord trieTheCat "cab".toList = .ok (node1, some (pathOf "cab".toList)) ∧
      (node1.deref (pathOf "cab".toList)).isNull = false ∧
      (node1.deref (pathOf "cab".toList)).countOf
        = (trieTheCat.deref (pathOf "cab".toList)).countOf + 1 ∧
      ((trieTheCat.deref (pathOf "cab".toList)).isNull = true →
        (node1.deref (pathOf "cab".toList)).countOf = 1) ∧
      (∀ q, (node1.deref q).isNull = false ↔
        ((trieTheCat.deref q).isNull = false ∨ ∃ r, pathOf "cab".toList = q ++ r)) :=
  insertWord_returns_end_of_path trieTheCat "cab".toList (by rfl) (by decide) (by decide)

theorem getIndex_fin (c : Char) (h : 0 ≤ getIndex c ∧ getIndex c < 26) :
    (⟨(getIndex c).toNat, by omega⟩ : Fin 26) = indexOf c.toLower := by
  apply Fin.ext
  simp only [indexOf]
  unfold getIndex at h ⊢
  omega

/-- When `insertWord` returns, the node it leaves is the one described by
`insertPath`, and the pointer it returns is the path of the word (`NULL` for a
`NULL` node or an empty word). -/
theorem insertWord_ok (word : List Char) :
    ∀ (node node1 : TrieNode) (ret : Option (List (Fin 26))),
      insertWord node word = .ok (node1, ret) →
      node1 = insertPath node (indexPath word) ∧
      ret = if node.isNull = true ∨ word = [] then none else some (indexPath word) := by
  induction word with
  | nil =>
    intro node node1 ret h
    rw [insertWord_nil] at h
    simp only [Except.ok.injEq, Prod.mk.injEq] at h
    obtain ⟨rfl, rfl⟩ := h
    simp [indexPath, insertPath_nil]
  | cons c rest ih =>
    intro node node1 ret h
    cases node with
    | null =>
      simp only [insertWord, Except.ok.injEq, Prod.mk.injEq] at h
      obtain ⟨rfl, rfl⟩ := h
      simp [insertPath, TrieNode.isNull]
    | node cn ch s =>
      rw [insertWord] at h
      by_cases hr : 0 ≤ getIndex c ∧ getIndex c < 26
      · rw [dif_pos hr] at h
        simp only [getIndex_fin c hr] at h
        cases rest with
        | nil =>
          simp only [List.length_cons, List.length_nil, Nat.zero_add, lt_irrefl, if_false,
            Except.ok.injEq, Prod.mk.injEq] at h
          obtain ⟨rfl, rfl⟩ := h
          simp [indexPath, insertPath, orCreate, TrieNode.isNull]
        | cons d rest2 =>
          have hlen : 1 < (c :: d :: rest2).length := by simp
          rw [if_pos hlen] at h
          cases hrec : insertWord (if (ch (indexOf c.toLower)).isNull = true then createTrieNode
              else ch (indexOf c.toLower)) (d :: rest2) with
          | error e => rw [hrec] at h; cases h
          | ok res =>
            obtain ⟨child1, ret1⟩ := res
            rw [hrec] at h
            simp only [Except.ok.injEq, Prod.mk.injEq] at h
            obtain ⟨rfl, rfl⟩ := h
            obtain ⟨hc1, hr1⟩ := ih _ _ _ hrec
            have hnn : (orCreate (ch (indexOf c.toLower))).isNull = false := orCreate_isNull _
            simp only [orCreate] at hnn
            simp only [hnn, Bool.false_eq_true, reduceCtorEq, or_self, if_false] at hr1
            subst hc1 hr1
            refine ⟨?_, ?_⟩
            · simp only [indexPath, List.map_cons, insertPath, orCreate]
            · simp [TrieNode.isNull, indexPath]
      · rw [dif_neg hr] at h
        cases h

/-- C16: when `insertWord` returns, the count stored at every letter path is
what it was before, except at the path of the returned node where it is one
more (a path that did not exist before has count 0 before); so no count
decreases; and the subtrie of every node is what it was before. -/
theorem insertWord_changes_only_terminal_count (node : TrieNode) (word : List Char)
    (node1 : TrieNode) (ret : Option (List (Fin 26)))
    (h : insertWord node word = .ok (node1, ret)) :
    (∀ q, (node1.deref q).countOf
      = (node.deref q).countOf + (if ret = some q then 1 else 0)) ∧
    (∀ q, (node.deref q).countOf ≤ (node1.deref q).countOf) ∧
    (∀ q, (node1.deref q).subtrieOf = (node.deref q).subtrieOf) ∧
    (ret = if node.isNull = true ∨ word = [] then none else some (indexPath word)) := by
  obtain ⟨rfl, hret⟩ := insertWord_ok word node node1 ret h
  have hcount : ∀ q, ((insertPath node (indexPath word)).deref q).countOf
      = (node.deref q).countOf + (if ret = some q then 1 else 0) := by
    intro q
    by_cases hn : node.isNull = true
    · have : node = .null := by cases node with
        | null => rfl
        | node _ _ _ => cases hn
      subst this
      simp [hret, insertPath, TrieNode.isNull]
    · have hn2 : node.isNull = false := by simpa using hn
      cases word with
      | nil => simp [hret, indexPath, insertPath_nil]
      | cons c rest =>
        have hp : indexPath (c :: rest) ≠ [] := by simp [indexPath]
        rw [countOf_deref_insertPath node _ hn2 hp q, hret]
        simp only [hn2, Bool.false_eq_true, reduceCtorEq, or_self, if_false, Option.some.injEq]
        by_cases hq : q = indexPath (c :: rest)
        · simp [hq]
        · have : ¬ indexPath (c :: rest) = q := fun e => hq e.symm
          simp [hq, this]
  refine ⟨hcount, ?_, fun q => subtrieOf_deref_insertPath node _ q, hret⟩
  intro q
  rw [hcount q]
  split <;> omega

/-- C16 at the trie of `the cat sat`, `the dog sat` and the word `cab`. -/
theorem insertWord_changes_only_terminal_count_witness :
    ∃ node1, insertWord trieTheCat "cab".toList = .ok (node1, some [2, 0, 1]) ∧
    (∀ q, (node1.deref q).countOf
      = (trieTheCat.deref q).countOf + (if some [2, 0, 1] = some q then 1 else 0)) ∧
    (∀ q, (trieTheCat.deref q).countOf ≤ (node1.deref q).countOf) ∧
    (∀ q, (node1.deref q).subtrieOf = (trieTheCat.deref q).subtrieOf) ∧
    (some [2, 0, 1] = if trieTheCat.isNull = true ∨ "cab".toList = [] then none
      else some (indexPath "cab".toList)) :=
  ⟨insertPath trieTheCat [2, 0, 1], by rfl,
    insertWord_changes_only_terminal_count trieTheCat "cab".toList
      (insertPath trieTheCat [2, 0, 1]) (some [2, 0, 1]) (by rfl)⟩

/-! ## The sum of the counts below a first letter -/

theorem sum_map_setChild_not_mem (f : TrieNode → Int) (ch : Fin 26 → TrieNode) (i : Fin 26)
    (v : TrieNode) (l : List (Fin 26)) (h : i ∉ l) :
    (l.map (fun j => f (setChild ch i v j))).sum = (l.map (fun j => f (ch j))).sum := by
  congr 1
  apply List.map_congr_left
  intro j hj
  have : j ≠ i := fun e => h (e ▸ hj)
  rw [setChild_other _ _ _ _ this]

theorem sum_map_setChild (f : TrieNode → Int) (ch : Fin 26 → TrieNode) (i : Fin 26)
    (v : TrieNode) (l : List (Fin 26)) (hnd : l.Nodup) (h : i ∈ l) :
    (l.map (fun j => f (setChild ch i v j))).sum
      = (l.map (fun j => f (ch j))).sum - f (ch i) + f v := by
  induction l with
  | nil => cases h
  | cons j rest ih =>
    rw [List.nodup_cons] at hnd
    simp only [List.map_cons, List.sum_cons]
    by_cases hj : j = i
    · subst hj
      rw [setChild_same, sum_map_setChild_not_mem f ch j v rest hnd.1]
      ring
    · have hi : i ∈ rest := by
        rcases List.mem_cons.mp h with e | e
        · exact absurd e.symm hj
        · exact e
      rw [setChild_other _ _ _ _ hj, ih hnd.2 hi]
      ring

theorem totalCount_node_setChild (c : Int) (ch : Fin 26 → TrieNode) (s : TrieNode)
    (i : Fin 26) (v : TrieNode) :
    totalCount (.node c (setChild ch i v) s)
      = totalCount (.node c ch s) - totalCount (ch i) + totalCount v := by
  simp only [totalCount]
  rw [sum_map_setChild totalCount ch i v _ (List.nodup_finRange 26) (List.mem_finRange i)]
  ring

theorem totalCount_createTrieNode : totalCount createTrieNode = 0 := by
  decide

theorem totalCount_orCreate (n : TrieNode) : totalCount (orCreate n) = totalCount n := by
  cases n with
  | null => exact totalCount_createTrieNode
  | node c ch s => rfl

theorem totalCount_incrementCount (n : TrieNode) (h : n.isNull = false) :
    totalCount (incrementCount n) = totalCount n + 1 := by
  cases n with
  | null => cases h
  | node c ch s => simp only [incrementCount, totalCount]; ring

theorem totalCount_insertPath (p : List (Fin 26)) :
    ∀ n : TrieNode, n.isNull = false → p ≠ [] →
      totalCount (insertPath n p) = totalCount n + 1 := by
  induction p with
  | nil => intro n _ h; exact absurd rfl h
  | cons i rest ih =>
    intro n hn _
    cases n with
    | null => cases hn
    | node c ch s =>
      cases rest with
      | nil =>
        simp only [insertPath]
        rw [totalCount_node_setChild, totalCount_incrementCount _ (orCreate_isNull _),
          totalCount_orCreate]
        ring
      | cons j r2 =>
        simp only [insertPath]
        rw [totalCount_node_setChild, ih _ (orCreate_isNull _) (by simp), totalCount_orCreate]
        ring

theorem totalCount_setSubtrieAt (s : TrieNode) (p : List (Fin 26)) :
    ∀ n : TrieNode, totalCount (setSubtrieAt s n p) = totalCount n := by
  induction p with
  | nil =>
    intro n
    cases n with
    | null => rfl
    | node c ch sub => rfl
  | cons i rest ih =>
    intro n
    cases n with
    | null => rfl
    | node c ch sub =>
      simp only [setSubtrieAt]
      rw [totalCount_node_setChild, ih]
      ring

theorem totalCount_childOf_insertPath (n : TrieNode) (p : List (Fin 26)) (L : Fin 26)
    (hn : n.isNull = false) (hp : p ≠ []) :
    totalCount ((insertPath n p).childOf L)
      = totalCount (n.childOf L) + (if p.head? = some L then 1 else 0) := by
  cases n with
  | null => cases hn
  | node c ch s =>
    cases p with
    | nil => exact absurd rfl hp
    | cons i rest =>
      have hX : totalCount (match rest with
          | [] => incrementCount (orCreate (ch i))
          | j :: r => insertPath (orCreate (ch i)) (j :: r)) = totalCount (ch i) + 1 := by
        cases rest with
        | nil =>
          simp only
          rw [totalCount_incrementCount _ (orCreate_isNull _), totalCount_orCreate]
        | cons j r =>
          simp only
          rw [totalCount_insertPath _ _ (orCreate_isNull _) (by simp), totalCount_orCreate]
      by_cases hL : L = i
      · subst hL
        cases rest with
        | nil =>
          simp only [insertPath, TrieNode.childOf, setChild_same, List.head?_cons, if_true]
          exact hX
        | cons j r =>
          simp only [insertPath, TrieNode.childOf, setChild_same, List.head?_cons, if_true]
          exact hX
      · have hne : ¬ (some i = some L) := by
          intro e; exact hL (Option.some.inj e).symm
        cases rest with
        | nil =>
          simp only [insertPath, TrieNode.childOf, setChild_other _ _ _ _ hL, List.head?_cons,
            hne, if_false, add_zero]
        | cons j r =>
          simp only [insertPath, TrieNode.childOf, setChild_other _ _ _ _ hL, List.head?_cons,
            hne, if_false, add_zero]

theorem totalCount_childOf_setSubtrieAt (s n : TrieNode) (p : List (Fin 26)) (L : Fin 26) :
    totalCount ((setSubtrieAt s n p).childOf L) = totalCount (n.childOf L) := by
  cases n with
  | null => cases p <;> rfl
  | node c ch sub =>
    cases p with
    | nil => rfl
    | cons i rest =>
      simp only [setSubtrieAt, TrieNode.childOf]
      by_cases hL : L = i
      · subst hL
        rw [setChild_same, totalCount_setSubtrieAt]
      · rw [setChild_other _ _ _ _ hL]

theorem totalCount_childOf_linkStep (root : TrieNode) (prev : Option (List (Fin 26)))
    (p : List (Fin 26)) (L : Fin 26) (hroot : root.isNull = false) (hp : p ≠ []) :
    totalCount ((linkStep root prev p).childOf L)
      = totalCount (root.childOf L) + (if p.head? = some L then 1 else 0) := by
  cases prev with
  | none => exact totalCount_childOf_insertPath root p L hroot hp
  | some r =>
    simp only [linkStep]
    rw [totalCount_childOf_insertPath _ p L (by rw [setSubtrieAt_isNull]; exact hroot) hp,
      totalCount_childOf_setSubtrieAt]

theorem totalCount_childOf_insertPaths (ps : List (List (Fin 26))) (L : Fin 26) :
    ∀ (root : TrieNode) (prev : Option (List (Fin 26))),
      root.isNull = false → (∀ p ∈ ps, p ≠ []) →
      totalCount ((insertPaths root prev ps).childOf L)
        = totalCount (root.childOf L)
          + ((ps.filter (fun p => p.head? = some L)).length : Int) := by
  induction ps with
  | nil => intro root prev _ _; simp [insertPaths]
  | cons p rest ih =>
    intro root prev hroot hne
    have hp : p ≠ [] := hne p (List.mem_cons_self _ _)
    simp only [insertPaths]
    rw [ih _ _ (by rw [linkStep_isNull]; exact hroot)
      (fun r hr => hne r (List.mem_cons_of_mem _ hr)),
      totalCount_childOf_linkStep root prev p L hroot hp, List.filter_cons]
    by_cases h : p.head? = some L
    · simp [h]; ring
    · simp [h]

theorem totalCount_childOf_insertCorpus (pc : List (List (List (Fin 26)))) (L : Fin 26) :
    ∀ (root : TrieNode), root.isNull = false → (∀ ps ∈ pc, ∀ p ∈ ps, p ≠ []) →
      totalCount ((insertCorpus root pc).childOf L)
        = totalCount (root.childOf L)
          + ((pc.flatten.filter (fun p => p.head? = some L)).length : Int) := by
  induction pc with
  | nil => intro root _ _; simp [insertCorpus]
  | cons ps rest ih =>
    intro root hroot hne
    simp only [insertCorpus, List.flatten_cons, List.filter_append, List.length_append]
    rw [ih _ (by rw [insertPaths_isNull]; exact hroot)
      (fun qs hqs => hne qs (List.mem_cons_of_mem _ hqs)),
      totalCount_childOf_insertPaths ps L root none hroot (hne ps (List.mem_cons_self _ _))]
    push_cast; ring

theorem buildTrie_eq_insertCorpus (corpus : List (List (List Char))) (h : WellFormed corpus) :
    buildTrie (corpus.map phraseText)
      = .ok (insertCorpus createTrieNode (corpus.map (fun ph => ph.map pathOf))) := by
  have hne := wellFormed_paths_ne_nil corpus h
  have heq := wellFormed_eq_map corpus h
  have := insertPhrases_paths (corpus.map (fun ph => ph.map pathOf)) createTrieNode rfl hne
  unfold buildTrie
  rw [← this]
  conv_lhs => rw [heq]
  rw [List.map_map]
  rfl

theorem filter_head_wordOf (ps : List (List (Fin 26))) (L : Fin 26) :
    ((ps.map wordOf).filter (fun w => w.head? = some (letterOf L))).length
      = (ps.filter (fun p => p.head? = some L)).length := by
  induction ps with
  | nil => rfl
  | cons p rest ih =>
    have hiff : ((wordOf p).head? = some (letterOf L)) ↔ (p.head? = some L) := by
      cases p with
      | nil => simp [wordOf]
      | cons i r =>
        simp only [wordOf, List.map_cons, List.head?_cons, Option.some.injEq]
        exact ⟨fun e => letterOf_injective e, fun e => by rw [e]⟩
    simp only [List.map_cons, List.filter_cons]
    by_cases hp : p.head? = some L
    · simp [hp, hiff.mpr hp, ih]
    · have : ¬ (wordOf p).head? = some (letterOf L) := fun e => hp (hiff.mp e)
      simp [hp, this, ih]

/-- C13: for a corpus of lowercase words separated by single spaces and every
letter, the sum of the counts of the nodes reachable through children from the
root's child for that letter (subtries excluded) is the number of word
occurrences of the corpus that start with the letter. -/
theorem counts_below_first_letter (corpus : List (List (List Char)))
    (h : WellFormed corpus) :
    ∃ root, buildTrie (corpus.map phraseText) = .ok root ∧
      ∀ L : Fin 26, totalCount (root.childOf L)
        = ((corpus.flatten.filter (fun w => w.head? = some (letterOf L))).length : Int) := by
  refine ⟨_, buildTrie_eq_insertCorpus corpus h, ?_⟩
  intro L
  rw [totalCount_childOf_insertCorpus _ L createTrieNode rfl
    (wellFormed_paths_ne_nil corpus h)]
  have heq := wellFormed_eq_map corpus h
  conv_rhs => rw [heq, ← List.map_flatten, filter_head_wordOf]
  simp [createTrieNode, TrieNode.childOf, totalCount]

/-- C13 at the corpus `the cat sat`, `the dog sat`: two words start with `t`,
two with `s`, one with `c`. -/
theorem counts_below_first_letter_witness :
    (totalCount (trieTheCat.childOf 19) = 2 ∧ totalCount (trieTheCat.childOf 18) = 2 ∧
      totalCount (trieTheCat.childOf 2) = 1) ∧
    WellFormed corpusTheCat ∧
    ∃ root, buildTrie (corpusTheCat.map phraseText) = .ok root ∧
      ∀ L : Fin 26, totalCount (root.childOf L)
        = ((corpusTheCat.flatten.filter (fun w => w.head? = some (letterOf L))).length : Int) :=
  ⟨by decide, by decide, counts_below_first_letter corpusTheCat (by decide)⟩

/-! ## `insertPhrase` on any phrase -/

theorem isLower_of_mem_append (buf : List Char) (c : Char)
    (hbuf : ∀ d ∈ buf, d.isLower = true) (hc : c.isLower = true) :
    ∀ d ∈ buf ++ [c], d.isLower = true := by
  intro d hd
  rcases List.mem_append.mp hd with h | h
  · exact hbuf d h
  · rw [List.mem_singleton.mp h]; exact hc

theorem insertPhraseWordEnd_lower (root : TrieNode) (prev : Option (List (Fin 26)))
    (w : List Char) (hroot : root.isNull = false) (hw : ∀ c ∈ w, c.isLower = true) :
    insertPhraseWordEnd ⟨root, prev, w⟩
      = .ok ⟨linkStep root prev (pathOf w), nextPrev (pathOf w), []⟩ := by
  cases w with
  | nil =>
    cases prev with
    | none =>
      rw [insertPhraseWordEnd_nil]
      simp [linkStep, pathOf, nextPrev, insertPath_nil]
    | some r =>
      simp only [insertPhraseWordEnd, insertWord_nil, linkStep, pathOf, List.map_nil,
        insertPath_nil, nextPrev, if_true, orCreate]
  | cons c cs =>
    have hne : pathOf (c :: cs) ≠ [] := by simp [pathOf]
    have := insertPhraseWordEnd_wordOf root prev (pathOf (c :: cs)) hroot hne
    rw [wordOf_pathOf _ hw] at this
    rw [this, nextPrev, if_neg hne]

theorem insertPhraseLoop_tokens (text : List Char) :
    ∀ (root : TrieNode) (prev : Option (List (Fin 26))) (buf : List Char),
      root.isNull = false → (∀ c ∈ buf, c.isLower = true) →
      (∀ c ∈ text, c.isLower = true ∨ c = ' ') →
      ∃ last, insertPhraseLoop ⟨root, prev, buf⟩ text
        = .ok ⟨insertTokens root prev ((tokensAux buf text).map pathOf), last, []⟩ := by
  induction text with
  | nil =>
    intro root prev buf hroot hbuf _
    refine ⟨nextPrev (pathOf buf), ?_⟩
    rw [insertPhraseLoop, insertPhraseWordEnd_lower root prev buf hroot hbuf]
    rfl
  | cons c cs ih =>
    intro root prev buf hroot hbuf htext
    have hcs : ∀ d ∈ cs, d.isLower = true ∨ d = ' ' :=
      fun d hd => htext d (List.mem_cons_of_mem _ hd)
    by_cases hc : c = ' '
    · subst hc
      obtain ⟨last, hlast⟩ := ih (linkStep root prev (pathOf buf)) (nextPrev (pathOf buf)) []
        (by rw [linkStep_isNull]; exact hroot) (by intro d hd; cases hd) hcs
      refine ⟨last, ?_⟩
      rw [insertPhraseLoop]
      simp only [ne_eq, not_true_eq_false, if_false,
        insertPhraseWordEnd_lower root prev buf hroot hbuf, hlast, tokensAux, List.map_cons,
        insertTokens]
    · have hlow : c.isLower = true := by
        rcases htext c (List.mem_cons_self _ _) with h | h
        · exact h
        · exact absurd h hc
      obtain ⟨last, hlast⟩ := ih root prev (buf ++ [c]) hroot
        (isLower_of_mem_append buf c hbuf hlow) hcs
      refine ⟨last, ?_⟩
      rw [insertPhraseLoop, if_pos hc]
      simp only [hlast, tokensAux, hc, ne_eq, not_false_eq_true, if_true]

theorem linkStep_null (prev : Option (List (Fin 26))) (p : List (Fin 26)) :
    linkStep .null prev p = .null := by
  cases prev with
  | none => cases p <;> rfl
  | some r =>
    simp only [linkStep]
    have : setSubtrieAt (insertPath (orCreate (TrieNode.null.deref r).subtrieOf) p) .null r
        = .null := by cases r <;> rfl
    rw [this]
    cases p <;> rfl

theorem insertTokens_null (ps : List (List (Fin 26))) :
    ∀ prev : Option (List (Fin 26)), insertTokens .null prev ps = .null := by
  induction ps with
  | nil => intro prev; rfl
  | cons p rest ih => intro prev; simp only [insertTokens, linkStep_null, ih]

/-- What `insertPhrase` does, for every trie and every phrase: it completes
the pieces of the normalised phrase between spaces, one after the other. -/
theorem insertPhrase_eq_insertTokens (root : TrieNode) (phrase : List Char) :
    insertPhrase root phrase = .ok (insertTokens root none (phraseTokens phrase)) := by
  cases root with
  | null => rw [insertTokens_null]; rfl
  | node c ch s =>
    simp only [insertPhrase]
    split
    · rename_i hlen
      have : phrase = [] := List.length_eq_zero.mp hlen
      subst this
      rfl
    · obtain ⟨last, hlast⟩ := insertPhraseLoop_tokens (stripPunctuators (strlwr phrase))
        (.node c ch s) none [] rfl (by intro d hd; cases hd) (normalised_chars phrase)
      rw [hlast]
      rfl

/-! ## Two tries with the same nodes, counts and subtries are equal -/

theorem deref_nil (n : TrieNode) : n.deref [] = n := by
  cases n <;> rfl

theorem trieNode_ext (t1 : TrieNode) :
    ∀ t2 : TrieNode,
      (∀ q, (t1.deref q).isNull = (t2.deref q).isNull ∧
        (t1.deref q).countOf = (t2.deref q).countOf ∧
        (t1.deref q).subtrieOf = (t2.deref q).subtrieOf) → t1 = t2 := by
  induction t1 with
  | null =>
    intro t2 h
    have := (h []).1
    rw [deref_nil, deref_nil] at this
    cases t2 with
    | null => rfl
    | node _ _ _ => cases this
  | node c ch s ih _ =>
    intro t2 h
    cases t2 with
    | null =>
      have := (h []).1
      cases this
    | node c2 ch2 s2 =>
      have h0 := h []
      simp only [TrieNode.deref, TrieNode.countOf, TrieNode.subtrieOf] at h0
      obtain ⟨_, hc, hs⟩ := h0
      have hch : ch = ch2 := by
        funext i
        apply ih i (ch2 i)
        intro q
        exact h (i :: q)
      rw [hc, hs, hch]

theorem bool_eq_of_false_iff {a b : Bool} (h : a = false ↔ b = false) : a = b := by
  cases a <;> cases b <;> simp at h ⊢

/-! ## What one completed word does to the trie -/

theorem cnt_linkStep_any (root : TrieNode) (prev : Option (List (Fin 26)))
    (p q : List (Fin 26)) (hroot : root.isNull = false) :
    cnt (linkStep root prev p) q = cnt root q + (if q = p ∧ p ≠ [] then 1 else 0) := by
  by_cases hp : p = []
  · subst hp
    cases prev with
    | none => simp [linkStep, insertPath_nil]
    | some r => simp [linkStep, insertPath_nil, cnt, countOf_deref_setSubtrieAt]
  · rw [cnt_linkStep root prev p q hroot hp]
    simp [hp]

theorem present_linkStep (root : TrieNode) (prev : Option (List (Fin 26)))
    (p q : List (Fin 26)) (hroot : root.isNull = false) :
    ((linkStep root prev p).deref q).isNull = false ↔
      ((root.deref q).isNull = false ∨ ∃ r, p = q ++ r) := by
  cases prev with
  | none => exact isNull_deref_insertPath_iff p root q hroot
  | some r =>
    simp only [linkStep]
    rw [isNull_deref_insertPath_iff p _ q (by rw [setSubtrieAt_isNull]; exact hroot),
      isNull_deref_setSubtrieAt]

theorem subtrieOf_linkStep (root : TrieNode) (prev : Option (List (Fin 26)))
    (p q : List (Fin 26))
    (hprev : ∀ r, prev = some r → (root.deref r).isNull = false) :
    ((linkStep root prev p).deref q).subtrieOf
      = if prev = some q then extendSubtrie (root.deref q).subtrieOf p
        else (root.deref q).subtrieOf := by
  cases prev with
  | none => simp [linkStep, subtrieOf_deref_insertPath]
  | some r =>
    simp only [linkStep, subtrieOf_deref_insertPath]
    rw [subtrieOf_deref_setSubtrieAt _ _ _ _ (hprev r rfl)]
    by_cases hq : q = r
    · subst hq; simp [extendSubtrie]
    · have : ¬ r = q := fun e => hq e.symm
      simp [hq, this]

theorem nextPrev_valid (root : TrieNode) (prev : Option (List (Fin 26))) (p : List (Fin 26))
    (hroot : root.isNull = false) :
    ∀ r, nextPrev p = some r → ((linkStep root prev p).deref r).isNull = false := by
  intro r hr
  unfold nextPrev at hr
  by_cases hp : p = []
  · rw [if_pos hp] at hr; cases hr
  · rw [if_neg hp] at hr
    cases hr
    exact linkStep_present_self root prev p hroot hp

/-! ## What a phrase does to the trie -/

theorem cnt_insertTokens (ps : List (List (Fin 26))) :
    ∀ (root : TrieNode) (prev : Option (List (Fin 26))) (q : List (Fin 26)),
      root.isNull = false →
      cnt (insertTokens root prev ps) q = cnt root q + tokenCount q ps := by
  induction ps with
  | nil => intro root prev q _; simp [insertTokens, tokenCount]
  | cons p rest ih =>
    intro root prev q hroot
    simp only [insertTokens, tokenCount]
    rw [ih _ _ q (by rw [linkStep_isNull]; exact hroot), cnt_linkStep_any root prev p q hroot]
    ring

theorem insertTokens_isNull (ps : List (List (Fin 26))) :
    ∀ (root : TrieNode) (prev : Option (List (Fin 26))),
      (insertTokens root prev ps).isNull = root.isNull := by
  induction ps with
  | nil => intro root prev; rfl
  | cons p rest ih =>
    intro root prev
    simp only [insertTokens]
    rw [ih, linkStep_isNull]

theorem present_insertTokens (ps : List (List (Fin 26))) :
    ∀ (root : TrieNode) (prev : Option (List (Fin 26))) (q : List (Fin 26)),
      root.isNull = false →
      (((insertTokens root prev ps).deref q).isNull = false ↔
        ((root.deref q).isNull = false ∨ ∃ p ∈ ps, ∃ r, p = q ++ r)) := by
  induction ps with
  | nil => intro root prev q _; simp [insertTokens]
  | cons p rest ih =>
    intro root prev q hroot
    simp only [insertTokens]
    rw [ih _ _ q (by rw [linkStep_isNull]; exact hroot), present_linkStep root prev p q hroot]
    simp only [List.mem_cons, exists_eq_or_imp]
    tauto

theorem subtrieOf_insertTokens (ps : List (List (Fin 26))) :
    ∀ (root : TrieNode) (prev : Option (List (Fin 26))) (q : List (Fin 26)),
      root.isNull = false → (∀ r, prev = some r → (root.deref r).isNull = false) →
      ((insertTokens root prev ps).deref q).subtrieOf
        = (followersOf q prev ps).foldl extendSubtrie (root.deref q).subtrieOf := by
  induction ps with
  | nil => intro root prev q _ _; rfl
  | cons p rest ih =>
    intro root prev q hroot hprev
    simp only [insertTokens, followersOf]
    rw [ih _ _ q (by rw [linkStep_isNull]; exact hroot) (nextPrev_valid root prev p hroot),
      subtrieOf_linkStep root prev p q hprev, List.foldl_append]
    by_cases h : prev = some q
    · simp [h]
    · simp [h]

/-! ## What the followers of a word do to its subtrie -/

theorem present_extendSubtrie (s : TrieNode) (p b : List (Fin 26)) :
    ((extendSubtrie s p).deref b).isNull = false ↔
      ((s.deref b).isNull = false ∨ ∃ r, p = b ++ r) := by
  unfold extendSubtrie
  rw [isNull_deref_insertPath_iff p _ b (orCreate_isNull s), isNull_deref_orCreate]
  constructor
  · rintro ((h | rfl) | h)
    · exact Or.inl h
    · exact Or.inr ⟨p, rfl⟩
    · exact Or.inr h
  · rintro (h | h)
    · exact Or.inl (Or.inl h)
    · exact Or.inr h

theorem countOf_extendSubtrie (s : TrieNode) (p b : List (Fin 26)) :
    ((extendSubtrie s p).deref b).countOf
      = (s.deref b).countOf + (if b = p ∧ p ≠ [] then 1 else 0) := by
  unfold extendSubtrie
  by_cases hp : p = []
  · subst hp
    rw [insertPath_nil, deref_orCreate_countOf]
    simp
  · rw [countOf_deref_insertPath _ _ (orCreate_isNull s) hp, deref_orCreate_countOf]
    simp [hp]

theorem subtrieOf_extendSubtrie (s : TrieNode) (p b : List (Fin 26)) :
    ((extendSubtrie s p).deref b).subtrieOf = (s.deref b).subtrieOf := by
  unfold extendSubtrie
  rw [subtrieOf_deref_insertPath, deref_orCreate_subtrieOf]

theorem present_foldl_extendSubtrie (F : List (List (Fin 26))) :
    ∀ (s : TrieNode) (b : List (Fin 26)),
      ((F.foldl extendSubtrie s).deref b).isNull = false ↔
        ((s.deref b).isNull = false ∨ ∃ p ∈ F, ∃ r, p = b ++ r) := by
  induction F with
  | nil => intro s b; simp
  | cons p rest ih =>
    intro s b
    simp only [List.foldl_cons]
    rw [ih, present_extendSubtrie]
    simp only [List.mem_cons, exists_eq_or_imp]
    tauto

theorem countOf_foldl_extendSubtrie (F : List (List (Fin 26))) :
    ∀ (s : TrieNode) (b : List (Fin 26)),
      ((F.foldl extendSubtrie s).deref b).countOf = (s.deref b).countOf + tokenCount b F := by
  induction F with
  | nil => intro s b; simp [tokenCount]
  | cons p rest ih =>
    intro s b
    simp only [List.foldl_cons, tokenCount]
    rw [ih, countOf_extendSubtrie]
    ring

theorem subtrieOf_foldl_extendSubtrie (F : List (List (Fin 26))) :
    ∀ (s : TrieNode) (b : List (Fin 26)),
      ((F.foldl extendSubtrie s).deref b).subtrieOf = (s.deref b).subtrieOf := by
  induction F with
  | nil => intro s b; rfl
  | cons p rest ih =>
    intro s b
    simp only [List.foldl_cons]
    rw [ih, subtrieOf_extendSubtrie]

theorem tokenCount_append (b : List (Fin 26)) (A B : List (List (Fin 26))) :
    tokenCount b (A ++ B) = tokenCount b A + tokenCount b B := by
  induction A with
  | nil => simp [tokenCount]
  | cons p rest ih =>
    rw [List.cons_append, tokenCount, tokenCount, ih]
    ring

theorem foldl_extendSubtrie_comm (s : TrieNode) (A B : List (List (Fin 26))) :
    (A ++ B).foldl extendSubtrie s = (B ++ A).foldl extendSubtrie s := by
  apply trieNode_ext
  intro b
  refine ⟨bool_eq_of_false_iff ?_, ?_, ?_⟩
  · rw [present_foldl_extendSubtrie, present_foldl_extendSubtrie]
    simp only [List.mem_append]
    constructor
    · rintro (h | ⟨p, hp | hp, hr⟩)
      · exact Or.inl h
      · exact Or.inr ⟨p, Or.inr hp, hr⟩
      · exact Or.inr ⟨p, Or.inl hp, hr⟩
    · rintro (h | ⟨p, hp | hp, hr⟩)
      · exact Or.inl h
      · exact Or.inr ⟨p, Or.inr hp, hr⟩
      · exact Or.inr ⟨p, Or.inl hp, hr⟩
  · rw [countOf_foldl_extendSubtrie, countOf_foldl_extendSubtrie, tokenCount_append,
      tokenCount_append]
    ring
  · rw [subtrieOf_foldl_extendSubtrie, subtrieOf_foldl_extendSubtrie]

/-! ## The order of two phrases -/

theorem insertTokens_comm (root : TrieNode) (P Q : List (List (Fin 26))) :
    insertTokens (insertTokens root none P) none Q
      = insertTokens (insertTokens root none Q) none P := by
  by_cases hroot : root.isNull = true
  · have : root = .null := by
      cases root with
      | null => rfl
      | node _ _ _ => cases hroot
    subst this
    simp only [insertTokens_null]
  · have hr : root.isNull = false := by simpa using hroot
    have hP : (insertTokens root none P).isNull = false := by
      rw [insertTokens_isNull]; exact hr
    have hQ : (insertTokens root none Q).isNull = false := by
      rw [insertTokens_isNull]; exact hr
    have hnone : ∀ (t : TrieNode) (r : List (Fin 26)),
        (none : Option (List (Fin 26))) = some r → (t.deref r).isNull = false := by
      intro t r h; cases h
    apply trieNode_ext
    intro q
    refine ⟨bool_eq_of_false_iff ?_, ?_, ?_⟩
    · rw [present_insertTokens Q _ none q hP, present_insertTokens P _ none q hr,
        present_insertTokens P _ none q hQ, present_insertTokens Q _ none q hr]
      exact or_right_comm
    · have e1 := cnt_insertTokens Q (insertTokens root none P) none q hP
      have e2 := cnt_insertTokens P root none q hr
      have e3 := cnt_insertTokens P (insertTokens root none Q) none q hQ
      have e4 := cnt_insertTokens Q root none q hr
      unfold cnt at e1 e2 e3 e4
      rw [e1, e2, e3, e4]
      ring
    · rw [subtrieOf_insertTokens Q _ none q hP (hnone _),
        subtrieOf_insertTokens P _ none q hr (hnone _),
        subtrieOf_insertTokens P _ none q hQ (hnone _),
        subtrieOf_insertTokens Q _ none q hr (hnone _),
        ← List.foldl_append, ← List.foldl_append]
      exact foldl_extendSubtrie_comm _ _ _

/-- C20: for every trie and all phrases `p` and `q`, `insertPhrase` with `p`
and then `q` returns the same trie, with the same nodes, counts and subtries,
as `insertPhrase` with `q` and then `p`. -/
theorem insertPhrase_order_irrelevant (root : TrieNode) (p q : List Char) :
    ∃ t, insertPhrases root [p, q] = .ok t ∧ insertPhrases root [q, p] = .ok t := by
  refine ⟨insertTokens (insertTokens root none (phraseTokens p)) none (phraseTokens q), ?_, ?_⟩
  · simp only [insertPhrases, insertPhrase_eq_insertTokens]
  · simp only [insertPhrases, insertPhrase_eq_insertTokens]
    rw [insertTokens_comm]

/-! ## Phrases with empty words -/

/-- The part of C11 that holds for every phrase: each non-empty word of the
normalised phrase is inserted into the main trie once. -/
theorem insertPhrase_main_counts (root : TrieNode) (phrase : List Char)
    (hroot : root.isNull = false) :
    ∃ t, insertPhrase root phrase = .ok t ∧
      ∀ q, (t.deref q).countOf = (root.deref q).countOf + tokenCount q (phraseTokens phrase) :=
  ⟨_, insertPhrase_eq_insertTokens root phrase,
    fun q => cnt_insertTokens (phraseTokens phrase) root none q hroot⟩

/-- C11, the code at the failing input: for the phrase `a  b` (and likewise
`a - b`, whose normalised text is `a  b`) the loop of `insertPhrase` completes
the words `a`, the empty word and `b`. At the empty word it creates the subtrie
of `a` and resets `previousWordNode` to `NULL`, so `b` is inserted into the
main trie only: the subtrie of `a` exists and holds no word, where after the
phrase `a b` it holds `b` with count 1. -/
theorem insertPhrase_two_spaces_breaks_link :
    stripPunctuators (strlwr "a - b".toList) = "a  b".toList ∧
    phraseTokens "a  b".toList = [[0], [], [1]] ∧
    printTrieSimpleFormat trieTwoSpaces = [("a".toList, 1), ("b".toList, 1)] ∧
    (trieTwoSpaces.deref [0]).subtrieOf.isNull = false ∧
    printTrieSimpleFormat (trieTwoSpaces.deref [0]).subtrieOf = [] ∧
    printTrieSimpleFormat (trieDash.deref [0]).subtrieOf = [] ∧
    printTrieSimpleFormat (trieOneSpace.deref [0]).subtrieOf = [("b".toList, 1)] := by
  refine ⟨by decide, by decide, by decide, by decide, by decide, by decide, by decide⟩

/-- C17, the code at the failing input: after the single phrase `a `, which
ends with a space, the node of `a` has a subtrie in which no word was ever
recorded; the enumerators find nothing in it, and the prediction from `a`
prints `mostFrequentWord` before anything was copied into it. -/
theorem trailing_space_creates_empty_subtrie :
    phraseTokens "a ".toList = [[0], []] ∧
    (trieTrailingSpace.deref [0]).subtrieOf.isNull = false ∧
    printTrieSimpleFormat (trieTrailingSpace.deref [0]).subtrieOf = [] ∧
    getTrieWords (trieTrailingSpace.deref [0]).subtrieOf [] = [] ∧
    getNumberOfChildren (trieTrailingSpace.deref [0]).subtrieOf = 0 ∧
    eventCommand2 trieTrailingSpace "a 1".toList
      = ("a".toList, ⟨[], some .uninitialised⟩) := by
  refine ⟨by decide, by decide, by decide, by decide, by decide, by decide⟩

/-! ## The read operations leave the trie as it is -/

theorem represents_node (heap : Heap) (a : Nat) (c : Int) (ch : Fin 26 → TrieNode)
    (s : TrieNode) :
    represents heap (some a) (.node c ch s) = true ↔
      (heap a).count = c ∧ (∀ i, represents heap ((heap a).children i) (ch i) = true) ∧
        represents heap (heap a).subtrie s = true := by
  simp [represents, List.all_eq_true, and_assoc]

theorem represents_isNone (heap : Heap) (p : Option Nat) (t : TrieNode)
    (h : represents heap p t = true) : p.isNone = t.isNull := by
  cases p <;> cases t <;> simp_all [represents, TrieNode.isNull]

theorem represents_none (heap : Heap) (t : TrieNode) (h : represents heap none t = true) :
    t = .null := by
  cases t <;> simp_all [represents]

theorem represents_some (heap : Heap) (a : Nat) (t : TrieNode)
    (h : represents heap (some a) t = true) : ∃ c ch s, t = .node c ch s := by
  cases t with
  | null => simp [represents] at h
  | node c ch s => exact ⟨c, ch, s, rfl⟩

theorem le_foldl_max (f : Fin 26 → Nat) :
    ∀ (L : List (Fin 26)) (m : Nat),
      m ≤ L.foldl (fun m i => max m (f i)) m ∧
      ∀ i ∈ L, f i ≤ L.foldl (fun m i => max m (f i)) m := by
  intro L
  induction L with
  | nil => intro m; simp
  | cons j L ih =>
    intro m
    obtain ⟨h1, h2⟩ := ih (max m (f j))
    refine ⟨le_trans (le_max_left _ _) h1, ?_⟩
    intro i hi
    rcases List.mem_cons.1 hi with rfl | hi
    · exact le_trans (le_max_right _ _) h1
    · exact h2 i hi

theorem height_child (c : Int) (ch : Fin 26 → TrieNode) (s : TrieNode) (i : Fin 26) :
    (ch i).height < (TrieNode.node c ch s).height := by
  have h := (le_foldl_max (fun i => (ch i).height) (List.finRange 26) 0).2 i (List.mem_finRange i)
  simp only [TrieNode.height]
  omega

theorem height_subtrie (c : Int) (ch : Fin 26 → TrieNode) (s : TrieNode) :
    s.height < (TrieNode.node c ch s).height := by
  simp only [TrieNode.height]
  omega

theorem mem_getNumberOfChildren (heap : Heap) (p : Option Nat) (t : TrieNode)
    (h : represents heap p t = true) :
    Mem.getNumberOfChildren heap p = .returned (getNumberOfChildren t) heap := by
  cases p with
  | none => rw [represents_none heap t h]; rfl
  | some a =>
    obtain ⟨c, ch, s, rfl⟩ := represents_some heap a t h
    have hch := ((represents_node heap a c ch s).1 h).2.1
    have hf : (fun (n : Nat) (i : Fin 26) => if ((heap a).children i).isNone then n else n + 1)
        = (fun (n : Nat) (i : Fin 26) => if (ch i).isNull then n else n + 1) := by
      funext n i
      rw [represents_isNone heap _ _ (hch i)]
    simp only [Mem.getNumberOfChildren, getNumberOfChildren, hf]

theorem mem_foldl_children {α : Type} (heap : Heap) (a : Nat) (ch : Fin 26 → TrieNode)
    (hch : ∀ i, represents heap ((heap a).children i) (ch i) = true)
    (F : Fin 26 → Heap → Option Nat → α → Outcome α)
    (G : Fin 26 → α → α)
    (hFG : ∀ i acc, F i heap ((heap a).children i) acc = .returned (G i acc) heap) :
    ∀ (L : List (Fin 26)) (acc : α),
      L.foldl (fun (o : Outcome α) (i : Fin 26) =>
          o.andThen fun listOfWords heap1 =>
            match (heap1 a).children i with
            | none => Outcome.returned listOfWords heap1
            | some child => F i heap1 (some child) listOfWords) (Outcome.returned acc heap)
        = Outcome.returned
            (L.foldl (fun acc i => if (ch i).isNull then acc else G i acc) acc) heap := by
  intro L
  induction L with
  | nil => intro acc; rfl
  | cons i L ih =>
    intro acc
    rw [List.foldl_cons, List.foldl_cons]
    have hnone := represents_isNone heap _ _ (hch i)
    have hstep : (Outcome.returned acc heap).andThen (fun listOfWords heap1 =>
          match (heap1 a).children i with
          | none => Outcome.returned listOfWords heap1
          | some child => F i heap1 (some child) listOfWords)
        = Outcome.returned (if (ch i).isNull then acc else G i acc) heap := by
      simp only [Outcome.andThen]
      have hF := hFG i acc
      cases hchild : (heap a).children i with
      | none =>
        rw [hchild] at hnone
        simp only [Option.isNone_none] at hnone
        simp [← hnone]
      | some child =>
        rw [hchild] at hnone hF
        simp only [Option.isNone_some] at hnone
        simp [← hnone, hF]
    rw [hstep, ih]

theorem mem_getTrieNodeWords (t : TrieNode) :
    ∀ (depth : Nat) (heap : Heap) (p : Option Nat) (listOfWords word : List Char),
      represents heap p t = true → t.height ≤ depth →
      Mem.getTrieNodeWords depth heap p listOfWords word
        = .returned (getTrieNodeWords t listOfWords word) heap := by
  induction t with
  | null =>
    intro depth heap p listOfWords word h _
    cases p with
    | none => cases depth <;> rfl
    | some a => simp [represents] at h
  | node c ch s ih _ =>
    intro depth heap p listOfWords word h hd
    cases p with
    | none => simp [represents] at h
    | some a =>
      cases depth with
      | zero => simp [TrieNode.height] at hd
      | succ depth =>
        obtain ⟨hc, hch, _⟩ := (represents_node heap a c ch s).1 h
        rw [Mem.getTrieNodeWords, mem_getNumberOfChildren heap (some a) _ h, getTrieNodeWords]
        simp only [Outcome.andThen, hc]
        by_cases hk : 0 < getNumberOfChildren (.node c ch s)
        · rw [if_pos hk, if_pos hk]
          exact mem_foldl_children heap a ch hch
            (fun i heap1 child acc =>
              Mem.getTrieNodeWords depth heap1 child acc (word ++ [letterOf i]))
            (fun i acc => getTrieNodeWords (ch i) acc (word ++ [letterOf i]))
            (fun i acc => ih i depth heap _ acc _ (hch i)
              (by have := height_child c ch s i; omega))
            (List.finRange 26) _
        · rw [if_neg hk, if_neg hk]

theorem mem_getTrieWords (t : TrieNode) (depth : Nat) (heap : Heap) (p : Option Nat)
    (listOfWords : List Char) (h : represents heap p t = true) (hd : t.height ≤ depth) :
    Mem.getTrieWords depth heap p listOfWords
      = .returned (getTrieWords t listOfWords) heap := by
  cases p with
  | none => rw [represents_none heap t h]; rfl
  | some a =>
    obtain ⟨c, ch, s, rfl⟩ := represents_some heap a t h
    obtain ⟨_, hch, _⟩ := (represents_node heap a c ch s).1 h
    rw [Mem.getTrieWords, mem_getNumberOfChildren heap (some a) _ h, getTrieWords]
    simp only [Outcome.andThen]
    by_cases hk : 0 < getNumberOfChildren (.node c ch s)
    · rw [if_pos hk, if_pos hk]
      exact mem_foldl_children heap a ch hch
        (fun i heap1 child acc => Mem.getTrieNodeWords depth heap1 child acc [letterOf i])
        (fun i acc => getTrieNodeWords (ch i) acc [letterOf i])
        (fun i acc => mem_getTrieNodeWords (ch i) depth heap _ acc _ (hch i)
          (by have := height_child c ch s i; omega))
        (List.finRange 26) _
    · rw [if_neg hk, if_neg hk]

theorem mem_printTrieNodeWordsSimpleFormat (t : TrieNode) :
    ∀ (depth : Nat) (heap : Heap) (p : Option Nat) (word : List Char)
      (out : List (List Char × Int)),
      represents heap p t = true → t.height ≤ depth →
      Mem.printTrieNodeWordsSimpleFormat depth heap p word out
        = .returned (printTrieNodeWordsSimpleFormat t word out) heap := by
  induction t with
  | null =>
    intro depth heap p word out h _
    cases p with
    | none => cases depth <;> rfl
    | some a => simp [represents] at h
  | node c ch s ih _ =>
    intro depth heap p word out h hd
    cases p with
    | none => simp [represents] at h
    | some a =>
      cases depth with
      | zero => simp [TrieNode.height] at hd
      | succ depth =>
        obtain ⟨hc, hch, _⟩ := (represents_node heap a c ch s).1 h
        rw [Mem.printTrieNodeWordsSimpleFormat, mem_getNumberOfChildren heap (some a) _ h,
          printTrieNodeWordsSimpleFormat]
        simp only [Outcome.andThen, hc]
        by_cases hk : 0 < getNumberOfChildren (.node c ch s)
        · rw [if_pos hk, if_pos hk]
          exact mem_foldl_children heap a ch hch
            (fun i heap1 child acc =>
              Mem.printTrieNodeWordsSimpleFormat depth heap1 child (word ++ [letterOf i]) acc)
            (fun i acc => printTrieNodeWordsSimpleFormat (ch i) (word ++ [letterOf i]) acc)
            (fun i acc => ih i depth heap _ _ acc (hch i)
              (by have := height_child c ch s i; omega))
            (List.finRange 26) _
        · rw [if_neg hk, if_neg hk]

theorem mem_printTrieSimpleFormat (t : TrieNode) (depth : Nat) (heap : Heap) (p : Option Nat)
    (h : represents heap p t = true) (hd : t.height ≤ depth) :
    Mem.printTrieSimpleFormat depth heap p = .returned (printTrieSimpleFormat t) heap := by
  cases p with
  | none => rw [represents_none heap t h]; rfl
  | some a =>
    obtain ⟨c, ch, s, rfl⟩ := represents_some heap a t h
    obtain ⟨_, hch, _⟩ := (represents_node heap a c ch s).1 h
    rw [Mem.printTrieSimpleFormat, mem_getNumberOfChildren heap (some a) _ h,
      printTrieSimpleFormat]
    simp only [Outcome.andThen]
    by_cases hk : 0 < getNumberOfChildren (.node c ch s)
    · rw [if_pos hk, if_pos hk]
      exact mem_foldl_children heap a ch hch
        (fun i heap1 child acc =>
          Mem.printTrieNodeWordsSimpleFormat depth heap1 child [letterOf i] acc)
        (fun i acc => printTrieNodeWordsSimpleFormat (ch i) [letterOf i] acc)
        (fun i acc => mem_printTrieNodeWordsSimpleFormat (ch i) depth heap _ _ acc (hch i)
          (by have := height_child c ch s i; omega))
        (List.finRange 26) _
    · rw [if_neg hk, if_neg hk]

theorem mem_getTrieNodeLoop (heap : Heap) (word : List Char) :
    ∀ (a : Nat) (t : TrieNode), represents heap (some a) t = true →
      (∀ e, getTrieNodeLoop t word = .error e →
        Mem.getTrieNodeLoop heap a word = .fault e) ∧
      (∀ t1, getTrieNodeLoop t word = .ok t1 →
        ∃ found, Mem.getTrieNodeLoop heap a word = .returned found heap ∧
          represents heap found t1 = true ∧ t1.height ≤ t.height) := by
  induction word with
  | nil =>
    intro a t h
    obtain ⟨c, ch, s, rfl⟩ := represents_some heap a t h
    refine ⟨fun e he => ?_, fun t1 ht1 => ?_⟩
    · simp [getTrieNodeLoop] at he
    · simp only [getTrieNodeLoop, Except.ok.injEq] at ht1
      subst ht1
      exact ⟨some a, rfl, h, le_refl _⟩
  | cons letter rest ih =>
    intro a t h
    obtain ⟨c, ch, s, rfl⟩ := represents_some heap a t h
    obtain ⟨_, hch, _⟩ := (represents_node heap a c ch s).1 h
    by_cases hi : 0 ≤ (letter.toNat : Int) - 97 ∧ (letter.toNat : Int) - 97 < 26
    · have hpure : getTrieNodeLoop (.node c ch s) (letter :: rest)
          = getTrieNodeLoop (ch ⟨((letter.toNat : Int) - 97).toNat, by omega⟩) rest := by
        simp [getTrieNodeLoop, childAt, hi]
      have hrep := hch ⟨((letter.toNat : Int) - 97).toNat, by omega⟩
      have hlt := height_child c ch s ⟨((letter.toNat : Int) - 97).toNat, by omega⟩
      rw [hpure, Mem.getTrieNodeLoop, dif_pos hi]
      cases hchild : (heap a).children ⟨((letter.toNat : Int) - 97).toNat, by omega⟩ with
      | none =>
        rw [hchild] at hrep
        have hnull := represents_none heap _ hrep
        rw [hnull]
        refine ⟨fun e he => ?_, fun t1 ht1 => ?_⟩
        · simp [getTrieNodeLoop] at he
        · simp only [getTrieNodeLoop, Except.ok.injEq] at ht1
          subst ht1
          exact ⟨none, rfl, rfl, by simp [TrieNode.height]⟩
      | some child =>
        rw [hchild] at hrep
        obtain ⟨h1, h2⟩ := ih child _ hrep
        refine ⟨fun e he => h1 e he, fun t1 ht1 => ?_⟩
        obtain ⟨found, hf1, hf2, hf3⟩ := h2 t1 ht1
        exact ⟨found, hf1, hf2, by omega⟩
    · have hpure : getTrieNodeLoop (.node c ch s) (letter :: rest) = .error .outOfBounds := by
        rw [getTrieNodeLoop, childAt, dif_neg hi]
      rw [hpure, Mem.getTrieNodeLoop, dif_neg hi]
      refine ⟨fun e he => ?_, fun t1 ht1 => ?_⟩
      · simp only [Except.error.injEq] at he
        rw [he]
      · simp at ht1

theorem mem_getTrieNode (heap : Heap) (root : Option Nat) (t : TrieNode) (word : List Char)
    (h : represents heap root t = true) :
    (∀ e, getTrieNode t word = .error e → Mem.getTrieNode heap root word = .fault e) ∧
    (∀ t1, getTrieNode t word = .ok t1 →
      ∃ found, Mem.getTrieNode heap root word = .returned found heap ∧
        represents heap found t1 = true ∧ t1.height ≤ t.height) := by
  cases root with
  | none =>
    rw [represents_none heap t h]
    refine ⟨fun e he => ?_, fun t1 ht1 => ?_⟩
    · simp [getTrieNode] at he
    · simp only [getTrieNode, Except.ok.injEq] at ht1
      subst ht1
      exact ⟨none, rfl, rfl, le_refl _⟩
  | some a =>
    obtain ⟨c, ch, s, rfl⟩ := represents_some heap a t h
    simp only [getTrieNode, Mem.getTrieNode]
    by_cases hlen : (stripPunctuators (strlwr word)).length = 0
    · rw [if_pos hlen, if_pos hlen]
      refine ⟨fun e he => ?_, fun t1 ht1 => ?_⟩
      · simp at he
      · simp only [Except.ok.injEq] at ht1
        subst ht1
        exact ⟨none, rfl, rfl, by simp [TrieNode.height]⟩
    · rw [if_neg hlen, if_neg hlen]
      exact mem_getTrieNodeLoop heap _ a _ h

theorem mem_getTextPredictionScan (heap : Heap) (node : Nat) (sub : TrieNode)
    (hsub : represents heap (heap node).subtrie sub = true) :
    ∀ (l : List Char) (st : ScanState),
      Mem.getTextPredictionScan node heap st l
        = Outcome.ofExcept heap (getTextPredictionScan sub st l) := by
  intro l
  induction l with
  | nil => intro st; rfl
  | cons c cs ih =>
    intro st
    rw [Mem.getTextPredictionScan, getTextPredictionScan]
    by_cases hc : c ≠ ' '
    · rw [if_pos hc, if_pos hc, ih]
    · rw [if_neg hc, if_neg hc]
      obtain ⟨h1, h2⟩ := mem_getTrieNode heap _ sub st.word hsub
      cases hg : getTrieNode sub st.word with
      | error e =>
        rw [h1 e hg]
        rfl
      | ok t1 =>
        obtain ⟨found, hf, hrep, _⟩ := h2 t1 hg
        rw [hf]
        simp only [Outcome.andThen]
        cases found with
        | none =>
          rw [represents_none heap t1 hrep]
          simp only [ih]
        | some q =>
          obtain ⟨count, ch, s, rfl⟩ := represents_some heap q t1 hrep
          obtain ⟨hcount, _, _⟩ := (represents_node heap q count ch s).1 hrep
          simp only [hf, Outcome.andThen, hcount]
          by_cases hm : st.maxFrequency < count
          · simp only [if_pos hm, hf, Outcome.andThen, hcount, ih]
          · simp only [if_neg hm, ih]

theorem mem_getTextPrediction (heap : Heap) (root : Option Nat) (t : TrieNode)
    (hroot : represents heap root t = true) (depth : Nat) (hd : t.height ≤ depth) :
    ∀ (n : Nat) (node : Option Nat) (nt : TrieNode),
      represents heap node nt = true → nt.height ≤ depth →
      Mem.getTextPrediction depth root heap node n
        = Outcome.ofPrinted heap (getTextPrediction t nt n) := by
  intro n
  induction n with
  | zero =>
    intro node nt h _
    cases node with
    | none => rw [represents_none heap nt h]; rfl
    | some a =>
      obtain ⟨c, ch, s, rfl⟩ := represents_some heap a nt h
      rfl
  | succ n ih =>
    intro node nt h hnd
    cases node with
    | none => rw [represents_none heap nt h]; rfl
    | some a =>
      obtain ⟨c, ch, s, rfl⟩ := represents_some heap a nt h
      obtain ⟨_, _, hs⟩ := (represents_node heap a c ch s).1 h
      have hsd : s.height ≤ depth := by
        have := height_subtrie c ch s
        omega
      rw [Mem.getTextPrediction, getTextPrediction,
        mem_getTrieWords s depth heap _ [] hs hsd]
      simp only [Outcome.andThen]
      rw [mem_getTextPredictionScan heap a s hs]
      cases getTextPredictionScan s ⟨[], 0, none⟩ (getTrieWords s []) with
      | error e => rfl
      | ok st =>
        simp only [Outcome.ofExcept, Outcome.andThen]
        cases st.mostFrequentWord with
        | none => rfl
        | some w =>
          simp only
          obtain ⟨h1, h2⟩ := mem_getTrieNode heap root t w hroot
          cases hg : getTrieNode t w with
          | error e =>
            rw [h1 e hg]
            rfl
          | ok next =>
            obtain ⟨found, hf, hrep, hh⟩ := h2 next hg
            rw [hf]
            simp only [Outcome.andThen]
            cases found with
            | none =>
              rw [represents_none heap next hrep]
              rfl
            | some q =>
              obtain ⟨c1, ch1, s1, rfl⟩ := represents_some heap q next hrep
              obtain ⟨_, _, hs1⟩ := (represents_node heap q c1 ch1 s1).1 hrep
              have hnone := represents_isNone heap _ _ hs1
              have e1 : (TrieNode.node c1 ch1 s1).isNull = false := rfl
              have e2 : (TrieNode.node c1 ch1 s1).subtrieOf = s1 := rfl
              simp only [e1, e2, Bool.false_eq_true, if_false, hnone]
              by_cases hsn : s1.isNull = true
              · rw [if_pos hsn, if_pos hsn]
                rfl
              · rw [if_neg hsn, if_neg hsn]
                rw [ih (some q) _ hrep (by omega)]
                cases hp : (getTextPrediction t (.node c1 ch1 s1) n).fault with
                | none => simp [Outcome.ofPrinted, hp, Outcome.andThen]
                | some e => simp [Outcome.ofPrinted, hp, Outcome.andThen]

/-! ### On any memory, a read that returns leaves the memory it was given -/

theorem leaves_returned {α : Type} (heap : Heap) (value : α) :
    (Outcome.returned value heap).leaves heap := by
  intro v heap1 h
  cases h
  rfl

theorem leaves_andThen {α β : Type} (heap : Heap) (o : Outcome α) (f : α → Heap → Outcome β)
    (ho : o.leaves heap) (hf : ∀ value, (f value heap).leaves heap) :
    (o.andThen f).leaves heap := by
  cases o with
  | returned value heap1 =>
    have := ho value heap1 rfl
    subst this
    exact hf value
  | fault e => intro v heap1 h; cases h
  | nullDereference => intro v heap1 h; cases h
  | tooDeep => intro v heap1 h; cases h

theorem leaves_foldl {α : Type} (heap : Heap) (g : Fin 26 → α → Heap → Outcome α)
    (hg : ∀ i value, (g i value heap).leaves heap) :
    ∀ (L : List (Fin 26)) (o : Outcome α), o.leaves heap →
      (L.foldl (fun (o : Outcome α) (i : Fin 26) => o.andThen (g i)) o).leaves heap := by
  intro L
  induction L with
  | nil => intro o ho; exact ho
  | cons i L ih =>
    intro o ho
    rw [List.foldl_cons]
    exact ih _ (leaves_andThen heap o (g i) ho (hg i))

theorem getTrieNodeLoop_leaves (heap : Heap) (word : List Char) :
    ∀ node : Nat, (Mem.getTrieNodeLoop heap node word).leaves heap := by
  induction word with
  | nil => intro node; exact leaves_returned heap _
  | cons letter rest ih =>
    intro node
    rw [Mem.getTrieNodeLoop]
    split
    · split
      · exact leaves_returned heap _
      · exact ih _
    · intro v heap1 h; cases h

theorem getTrieNode_leaves (heap : Heap) (root : Option Nat) (word : List Char) :
    (Mem.getTrieNode heap root word).leaves heap := by
  cases root with
  | none => exact leaves_returned heap _
  | some a =>
    simp only [Mem.getTrieNode]
    split
    · exact leaves_returned heap _
    · exact getTrieNodeLoop_leaves heap _ a

theorem getTrieNodeWords_leaves (depth : Nat) :
    ∀ (heap : Heap) (node : Option Nat) (listOfWords word : List Char),
      (Mem.getTrieNodeWords depth heap node listOfWords word).leaves heap := by
  induction depth with
  | zero =>
    intro heap node listOfWords word
    cases node with
    | none => exact leaves_returned heap _
    | some a => intro v heap1 h; cases h
  | succ depth ih =>
    intro heap node listOfWords word
    cases node with
    | none => exact leaves_returned heap _
    | some a =>
      rw [Mem.getTrieNodeWords]
      simp only [Mem.getNumberOfChildren, Outcome.andThen]
      split
      · apply leaves_foldl heap
          (fun i listOfWords heap1 =>
            match (heap1 a).children i with
            | none => Outcome.returned listOfWords heap1
            | some child =>
              Mem.getTrieNodeWords depth heap1 (some child) listOfWords (word ++ [letterOf i]))
        · intro i value
          split
          · exact leaves_returned heap _
          · exact ih heap _ _ _
        · exact leaves_returned heap _
      · exact leaves_returned heap _

theorem getTrieWords_leaves (depth : Nat) (heap : Heap) (root : Option Nat)
    (listOfWords : List Char) : (Mem.getTrieWords depth heap root listOfWords).leaves heap := by
  cases root with
  | none => exact leaves_returned heap _
  | some a =>
    rw [Mem.getTrieWords]
    simp only [Mem.getNumberOfChildren, Outcome.andThen]
    split
    · apply leaves_foldl heap
        (fun i listOfWords heap1 =>
          match (heap1 a).children i with
          | none => Outcome.returned listOfWords heap1
          | some child => Mem.getTrieNodeWords depth heap1 (some child) listOfWords [letterOf i])
      · intro i value
        split
        · exact leaves_returned heap _
        · exact getTrieNodeWords_leaves depth heap _ _ _
      · exact leaves_returned heap _
    · exact leaves_returned heap _

theorem printTrieNodeWordsSimpleFormat_leaves (depth : Nat) :
    ∀ (heap : Heap) (node : Option Nat) (word : List Char) (out : List (List Char × Int)),
      (Mem.printTrieNodeWordsSimpleFormat depth heap node word out).leaves heap := by
  induction depth with
  | zero =>
    intro heap node word out
    cases node with
    | none => exact leaves_returned heap _
    | some a => intro v heap1 h; cases h
  | succ depth ih =>
    intro heap node word out
    cases node with
    | none => exact leaves_returned heap _
    | some a =>
      rw [Mem.printTrieNodeWordsSimpleFormat]
      simp only [Mem.getNumberOfChildren, Outcome.andThen]
      split
      · apply leaves_foldl heap
          (fun i out heap1 =>
            match (heap1 a).children i with
            | none => Outcome.returned out heap1
            | some child =>
              Mem.printTrieNodeWordsSimpleFormat depth heap1 (some child)
                (word ++ [letterOf i]) out)
        · intro i value
          split
          · exact leaves_returned heap _
          · exact ih heap _ _ _
        · exact leaves_returned heap _
      · exact leaves_returned heap _

theorem printTrieSimpleFormat_leaves (depth : Nat) (heap : Heap) (root : Option Nat) :
    (Mem.printTrieSimpleFormat depth heap root).leaves heap := by
  cases root with
  | none => exact leaves_returned heap _
  | some a =>
    rw [Mem.printTrieSimpleFormat]
    simp only [Mem.getNumberOfChildren, Outcome.andThen]
    split
    · apply leaves_foldl heap
        (fun i out heap1 =>
          match (heap1 a).children i with
          | none => Outcome.returned out heap1
          | some child =>
            Mem.printTrieNodeWordsSimpleFormat depth heap1 (some child) [letterOf i] out)
      · intro i value
        split
        · exact leaves_returned heap _
        · exact printTrieNodeWordsSimpleFormat_leaves depth heap _ _ _
      · exact leaves_returned heap _
    · exact leaves_returned heap _

theorem getTextPredictionScan_leaves (heap : Heap) (node : Nat) :
    ∀ (l : List Char) (st : ScanState),
      (Mem.getTextPredictionScan node heap st l).leaves heap := by
  intro l
  induction l with
  | nil => intro st; exact leaves_returned heap _
  | cons c cs ih =>
    intro st
    rw [Mem.getTextPredictionScan]
    split
    · exact ih _
    · apply leaves_andThen heap _ _ (getTrieNode_leaves heap _ _)
      intro found
      cases found with
      | none => exact ih _
      | some q =>
        apply leaves_andThen heap _ _ (getTrieNode_leaves heap _ _)
        intro compared
        cases compared with
        | none => intro v heap1 h; cases h
        | some q1 =>
          simp only
          split
          · apply leaves_andThen heap _ _ (getTrieNode_leaves heap _ _)
            intro assigned
            cases assigned with
            | none => intro v heap1 h; cases h
            | some q2 => exact ih _
          · exact ih _

theorem getTextPrediction_leaves (depth : Nat) (root : Option Nat) (counter : Nat) :
    ∀ (heap : Heap) (node : Option Nat),
      (Mem.getTextPrediction depth root heap node counter).leaves heap := by
  induction counter with
  | zero =>
    intro heap node
    cases node with
    | none => exact leaves_returned heap _
    | some a => exact leaves_returned heap _
  | succ counter ih =>
    intro heap node
    cases node with
    | none => exact leaves_returned heap _
    | some a =>
      rw [Mem.getTextPrediction]
      apply leaves_andThen heap _ _ (getTrieWords_leaves depth heap _ _)
      intro listOfWords
      apply leaves_andThen heap _ _ (getTextPredictionScan_leaves heap a _ _)
      intro st
      cases st.mostFrequentWord with
      | none => intro v heap1 h; cases h
      | some w =>
        apply leaves_andThen heap _ _ (getTrieNode_leaves heap _ _)
        intro nextWord
        cases nextWord with
        | none => exact leaves_returned heap _
        | some q =>
          simp only
          split
          · exact leaves_returned heap _
          · apply leaves_andThen heap _ _ (ih heap _)
            intro rest
            exact leaves_returned heap _

/-- On any memory, whether its structs make up a trie or not, and for any
nesting that is followed: when `getTrieNode`, `getTrieWords`,
`getTrieNodeWords`, `getTextPrediction` or `printTrieSimpleFormat` returns, the
memory it leaves is the memory it was given. -/
theorem reads_return_the_memory (heap : Heap) (root node : Option Nat) (depth : Nat) :
    (∀ word, (Mem.getTrieNode heap root word).leaves heap) ∧
    (∀ listOfWords, (Mem.getTrieWords depth heap root listOfWords).leaves heap) ∧
    (∀ listOfWords word, (Mem.getTrieNodeWords depth heap node listOfWords word).leaves heap) ∧
    (∀ counter, (Mem.getTextPrediction depth root heap node counter).leaves heap) ∧
    (Mem.printTrieSimpleFormat depth heap root).leaves heap :=
  ⟨fun word => getTrieNode_leaves heap root word,
    fun l => getTrieWords_leaves depth heap root l,
    fun l w => getTrieNodeWords_leaves depth heap node l w,
    fun n => getTextPrediction_leaves depth root n heap node,
    printTrieSimpleFormat_leaves depth heap root⟩

/-- C14: the read operations do not change the trie. Let the structs
reachable from `root` in memory make up the trie `t`, and those reachable from
`node` the trie `nt`. Then `getTrieNode`, `getTrieWords`, `getTrieNodeWords`,
`getTextPrediction` and the listing `printTrieSimpleFormat`, run on the nodes
in memory, return what they return on the trie values and leave the memory
they were given, so that every struct has the count, the children and the
subtrie it had; a call that does not return runs into the fault that the call
on the trie value runs into. Two enumerations in a row, the second on the
memory that the first left, give the same words, and so do two listings. -/
theorem reads_leave_trie_unchanged (heap : Heap) (root node : Option Nat) (t nt : TrieNode)
    (depth : Nat) (hroot : represents heap root t = true)
    (hnode : represents heap node nt = true)
    (hdepth : t.height ≤ depth) (hnodeDepth : nt.height ≤ depth) :
    (∀ word t1, getTrieNode t word = .ok t1 →
      ∃ found, Mem.getTrieNode heap root word = .returned found heap ∧
        represents heap found t1 = true) ∧
    (∀ word e, getTrieNode t word = .error e →
      Mem.getTrieNode heap root word = .fault e) ∧
    (∀ listOfWords,
      Mem.getTrieWords depth heap root listOfWords
        = .returned (getTrieWords t listOfWords) heap) ∧
    (∀ listOfWords word,
      Mem.getTrieNodeWords depth heap root listOfWords word
        = .returned (getTrieNodeWords t listOfWords word) heap) ∧
    (∀ counter,
      Mem.getTextPrediction depth root heap node counter
        = Outcome.ofPrinted heap (getTextPrediction t nt counter)) ∧
    Mem.printTrieSimpleFormat depth heap root = .returned (printTrieSimpleFormat t) heap ∧
    (∀ listOfWords,
      ((Mem.getTrieWords depth heap root listOfWords).andThen fun first heap1 =>
        (Mem.getTrieWords depth heap1 root listOfWords).andThen fun second heap2 =>
          .returned (first, second) heap2)
        = .returned (getTrieWords t listOfWords, getTrieWords t listOfWords) heap) ∧
    ((Mem.printTrieSimpleFormat depth heap root).andThen fun first heap1 =>
        (Mem.printTrieSimpleFormat depth heap1 root).andThen fun second heap2 =>
          .returned (first, second) heap2)
      = .returned (printTrieSimpleFormat t, printTrieSimpleFormat t) heap := by
  refine ⟨fun word t1 h1 => ?_, fun word e he => ?_, fun l => ?_, fun l w => ?_, fun n => ?_,
    ?_, fun l => ?_, ?_⟩
  · obtain ⟨found, hf, hrep, _⟩ := (mem_getTrieNode heap root t word hroot).2 t1 h1
    exact ⟨found, hf, hrep⟩
  · exact (mem_getTrieNode heap root t word hroot).1 e he
  · exact mem_getTrieWords t depth heap root l hroot hdepth
  · exact mem_getTrieNodeWords t depth heap root l w hroot hdepth
  · exact mem_getTextPrediction heap root t hroot depth hdepth n node nt hnode hnodeDepth
  · exact mem_printTrieSimpleFormat t depth heap root hroot hdepth
  · rw [mem_getTrieWords t depth heap root l hroot hdepth]
    simp only [Outcome.andThen]
    rw [mem_getTrieWords t depth heap root l hroot hdepth]
  · rw [mem_printTrieSimpleFormat t depth heap root hroot hdepth]
    simp only [Outcome.andThen]
    rw [mem_printTrieSimpleFormat t depth heap root hroot hdepth]

/-- C14 at the trie of the line `a b a` as it lies in memory, with the node of
`a` as the node to predict from: the enumeration of the root, a prediction of
three words through the cycle, the lookup of `b` and the listing leave the
memory as it is. -/
theorem reads_leave_trie_unchanged_witness :
    (represents heapABA (some 0) trieABA = true ∧
      represents heapABA (some 1) (trieABA.deref [0]) = true ∧
      trieABA.height ≤ 4 ∧ (trieABA.deref [0]).height ≤ 4) ∧
    Mem.getTrieWords 4 heapABA (some 0) [] = .returned "a b ".toList heapABA ∧
    Mem.getTextPrediction 4 (some 0) heapABA (some 1) 3
      = .returned ["b".toList, "a".toList, "b".toList] heapABA ∧
    (∃ found, Mem.getTrieNode heapABA (some 0) "b".toList = .returned found heapABA ∧
      represents heapABA found (trieABA.deref [1]) = true) ∧
    Mem.printTrieSimpleFormat 4 heapABA (some 0)
      = .returned [("a".toList, 2), ("b".toList, 1)] heapABA :=
  ⟨by decide,
    (reads_leave_trie_unchanged heapABA (some 0) (some 1) trieABA (trieABA.deref [0]) 4
      (by decide) (by decide) (by decide) (by decide)).2.2.1 [],
    (reads_leave_trie_unchanged heapABA (some 0) (some 1) trieABA (trieABA.deref [0]) 4
      (by decide) (by decide) (by decide) (by decide)).2.2.2.2.1 3,
    (reads_leave_trie_unchanged heapABA (some 0) (some 1) trieABA (trieABA.deref [0]) 4
      (by decide) (by decide) (by decide) (by decide)).1 "b".toList (trieABA.deref [1])
      (by rfl),
    (reads_leave_trie_unchanged heapABA (some 0) (some 1) trieABA (trieABA.deref [0]) 4
      (by decide) (by decide) (by decide) (by decide)).2.2.2.2.2.1⟩

/-! ## The trie built from any lines -/

theorem insertPhrases_eq_insertTokenLists (phrases : List (List Char)) :
    ∀ root : TrieNode,
      insertPhrases root phrases = .ok (insertTokenLists root (phrases.map phraseTokens)) := by
  induction phrases with
  | nil => intro root; rfl
  | cons phrase rest ih =>
    intro root
    simp only [insertPhrases, insertPhrase_eq_insertTokens, List.map_cons, insertTokenLists]
    exact ih _

theorem buildTrie_eq_insertTokenLists (phrases : List (List Char)) :
    buildTrie phrases = .ok (insertTokenLists createTrieNode (phrases.map phraseTokens)) :=
  insertPhrases_eq_insertTokenLists phrases createTrieNode

theorem insertTokenLists_isNull (tl : List (List (List (Fin 26)))) :
    ∀ root : TrieNode, (insertTokenLists root tl).isNull = root.isNull := by
  induction tl with
  | nil => intro root; rfl
  | cons ps rest ih =>
    intro root
    simp only [insertTokenLists]
    rw [ih, insertTokens_isNull]

theorem cnt_insertTokenLists (tl : List (List (List (Fin 26)))) :
    ∀ (root : TrieNode) (q : List (Fin 26)), root.isNull = false →
      cnt (insertTokenLists root tl) q = cnt root q + tokenCount q tl.flatten := by
  induction tl with
  | nil => intro root q _; simp [insertTokenLists, tokenCount]
  | cons ps rest ih =>
    intro root q hroot
    simp only [insertTokenLists, List.flatten_cons]
    rw [ih _ q (by rw [insertTokens_isNull]; exact hroot), cnt_insertTokens ps root none q hroot,
      tokenCount_append]
    ring

theorem present_insertTokenLists (tl : List (List (List (Fin 26)))) :
    ∀ (root : TrieNode) (q : List (Fin 26)), root.isNull = false →
      (((insertTokenLists root tl).deref q).isNull = false ↔
        ((root.deref q).isNull = false ∨ ∃ p ∈ tl.flatten, ∃ r, p = q ++ r)) := by
  induction tl with
  | nil => intro root q _; simp [insertTokenLists]
  | cons ps rest ih =>
    intro root q hroot
    simp only [insertTokenLists, List.flatten_cons]
    rw [ih _ q (by rw [insertTokens_isNull]; exact hroot),
      present_insertTokens ps root none q hroot]
    simp only [List.mem_append]
    constructor
    · rintro ((h | ⟨p, hp, hr⟩) | ⟨p, hp, hr⟩)
      · exact Or.inl h
      · exact Or.inr ⟨p, Or.inl hp, hr⟩
      · exact Or.inr ⟨p, Or.inr hp, hr⟩
    · rintro (h | ⟨p, hp | hp, hr⟩)
      · exact Or.inl (Or.inl h)
      · exact Or.inl (Or.inr ⟨p, hp, hr⟩)
      · exact Or.inr ⟨p, hp, hr⟩

theorem subtrieOf_insertTokenLists (tl : List (List (List (Fin 26)))) :
    ∀ (root : TrieNode) (q : List (Fin 26)), root.isNull = false →
      ((insertTokenLists root tl).deref q).subtrieOf
        = ((tl.map (followersOf q none)).flatten).foldl extendSubtrie
            (root.deref q).subtrieOf := by
  induction tl with
  | nil => intro root q _; rfl
  | cons ps rest ih =>
    intro root q hroot
    simp only [insertTokenLists, List.map_cons, List.flatten_cons, List.foldl_append]
    rw [ih _ q (by rw [insertTokens_isNull]; exact hroot),
      subtrieOf_insertTokens ps root none q hroot (by intro r hr; cases hr)]

theorem tokenCount_nil_path (ps : List (List (Fin 26))) : tokenCount [] ps = 0 := by
  induction ps with
  | nil => rfl
  | cons p rest ih =>
    simp only [tokenCount, ih, add_zero]
    have : ¬ (([] : List (Fin 26)) = p ∧ p ≠ []) := by
      rintro ⟨h1, h2⟩; exact h2 h1.symm
    simp [this]

/-- C22: in the trie built from a fresh root by `insertPhrase` on any lines,
the root of the main trie has count 0, the root of every subtrie has count 0,
and no node inside a subtrie, its root included, has a subtrie of its own. -/
theorem nesting_is_one_level (phrases : List (List Char)) :
    ∃ root, buildTrie phrases = .ok root ∧ root.isNull = false ∧ root.countOf = 0 ∧
      ∀ a : List (Fin 26), ((root.deref a).subtrieOf).countOf = 0 ∧
        ∀ b : List (Fin 26), (((root.deref a).subtrieOf).deref b).subtrieOf.isNull = true := by
  refine ⟨_, buildTrie_eq_insertTokenLists phrases, ?_, ?_, ?_⟩
  · rw [insertTokenLists_isNull]; rfl
  · have := cnt_insertTokenLists (phrases.map phraseTokens) createTrieNode [] rfl
    simp only [cnt, deref_nil, tokenCount_nil_path, add_zero] at this
    rw [this]; rfl
  · intro a
    rw [subtrieOf_insertTokenLists _ createTrieNode a rfl, deref_createTrieNode_subtrieOf]
    refine ⟨?_, ?_⟩
    · have := countOf_foldl_extendSubtrie
        ((List.map (followersOf a none) (phrases.map phraseTokens)).flatten) .null []
      simp only [deref_nil, tokenCount_nil_path, add_zero] at this
      rw [this]; rfl
    · intro b
      rw [subtrieOf_foldl_extendSubtrie, deref_null]
      rfl

/-! ## Prefixes of inserted words -/

theorem tokensAux_lower (text : List Char) :
    ∀ buf : List Char, (∀ c ∈ buf, c.isLower = true) →
      (∀ c ∈ text, c.isLower = true ∨ c = ' ') →
      ∀ t ∈ tokensAux buf text, ∀ c ∈ t, c.isLower = true := by
  induction text with
  | nil =>
    intro buf hbuf _ t ht
    simp only [tokensAux, List.mem_singleton] at ht
    subst ht
    exact hbuf
  | cons c cs ih =>
    intro buf hbuf htext t ht
    have hcs : ∀ d ∈ cs, d.isLower = true ∨ d = ' ' :=
      fun d hd => htext d (List.mem_cons_of_mem _ hd)
    simp only [tokensAux] at ht
    by_cases hc : c = ' '
    · simp only [hc, ne_eq, not_true_eq_false, if_false, List.mem_cons] at ht
      rcases ht with rfl | ht
      · exact hbuf
      · exact ih [] (by intro d hd; cases hd) hcs t ht
    · have hlow : c.isLower = true := by
        rcases htext c (List.mem_cons_self _ _) with h | h
        · exact h
        · exact absurd h hc
      simp only [hc, ne_eq, not_false_eq_true, if_true] at ht
      exact ih (buf ++ [c]) (isLower_of_mem_append buf c hbuf hlow) hcs t ht

theorem completedWords_lower (phrases : List (List Char)) :
    ∀ t ∈ completedWords phrases, ∀ c ∈ t, c.isLower = true := by
  intro t ht
  unfold completedWords at ht
  rcases List.mem_flatten.mp ht with ⟨l, hl, htl⟩
  rcases List.mem_map.mp hl with ⟨phrase, _, rfl⟩
  exact tokensAux_lower _ [] (by intro d hd; cases hd) (normalised_chars phrase) t htl

theorem flatten_phraseTokens (phrases : List (List Char)) :
    (phrases.map phraseTokens).flatten = (completedWords phrases).map pathOf := by
  unfold completedWords
  rw [List.map_flatten, List.map_map]
  rfl

theorem mem_insertedWords (phrases : List (List Char)) (w : List Char) :
    w ∈ insertedWords phrases ↔ (w ∈ completedWords phrases ∧ w ≠ []) := by
  unfold insertedWords
  rw [List.mem_filter]
  simp

theorem followersOf_eq_nil (q : List (Fin 26)) (ps : List (List (Fin 26))) :
    ∀ prev : Option (List (Fin 26)), prev ≠ some q → q ∉ ps → followersOf q prev ps = [] := by
  induction ps with
  | nil => intro prev _ _; rfl
  | cons p rest ih =>
    intro prev hprev hq
    simp only [followersOf, hprev, if_false, List.nil_append]
    apply ih
    · unfold nextPrev
      split
      · exact fun e => by cases e
      · intro e
        apply hq
        rw [Option.some.inj e]
        exact List.mem_cons_self _ _
    · exact fun h => hq (List.mem_cons_of_mem _ h)

theorem tokenCount_eq_zero (q : List (Fin 26)) (ps : List (List (Fin 26))) (h : q ∉ ps) :
    tokenCount q ps = 0 := by
  induction ps with
  | nil => rfl
  | cons p rest ih =>
    have h1 : q ≠ p := fun e => h (e ▸ List.mem_cons_self _ _)
    have h2 := ih (fun e => h (List.mem_cons_of_mem _ e))
    simp only [tokenCount, h2, add_zero]
    simp [h1]

theorem pathOf_append (s r : List Char) : pathOf (s ++ r) = pathOf s ++ pathOf r := by
  simp [pathOf]

theorem getTrieNode_append_newline (root : TrieNode) (s : List Char)
    (hs : ∀ c ∈ s, c.isLower = true) :
    getTrieNode root (s ++ [Char.ofNat 10]) = getTrieNode root s := by
  have hsp1 : ' ' ∉ s := fun h => by
    have := hs _ h
    revert this; decide
  have hsp2 : ' ' ∉ s ++ [Char.ofNat 10] := by
    intro h
    rcases List.mem_append.mp h with h | h
    · exact hsp1 h
    · simp only [List.mem_singleton] at h
      revert h; decide
  have hl : lettersOnly (s ++ [Char.ofNat 10]) = lettersOnly s := by
    unfold lettersOnly
    rw [List.filter_append]
    have : List.filter Char.isAlpha [Char.ofNat 10] = [] := by decide
    rw [this, List.append_nil]
  rw [(getTrieNode_eq_lettersOnly root _ hsp2).1, (getTrieNode_eq_lettersOnly root s hsp1).1, hl]

/-- C23: in the trie built from any lines, for a non-empty string that is a
proper prefix of an inserted word and is not itself an inserted word,
`getTrieNode` returns a node, not `NULL`; the count of the node is 0 and it has
no subtrie; so `eventCommand3` prints `(EMPTY)` for it, not
`(INVALID STRING)`, also when the command line ends with a newline. -/
theorem getTrieNode_finds_proper_prefix (phrases : List (List Char)) (s rest : List Char)
    (hs : s ≠ []) (_hrest : rest ≠ []) (hw : s ++ rest ∈ insertedWords phrases)
    (hns : s ∉ insertedWords phrases) :
    ∃ root, buildTrie phrases = .ok root ∧
      (∃ n, getTrieNode root s = .ok n ∧ n.isNull = false ∧ n.countOf = 0 ∧
        n.subtrieOf.isNull = true) ∧
      eventCommand3 root s = some (s, .empty) ∧
      eventCommand3 root (s ++ [Char.ofNat 10]) = some (s ++ [Char.ofNat 10], .empty) := by
  obtain ⟨hwc, _⟩ := (mem_insertedWords phrases _).mp hw
  have hlow := completedWords_lower phrases _ hwc
  have hslow : ∀ c ∈ s, c.isLower = true := fun c hc => hlow c (List.mem_append_left _ hc)
  have hp : pathOf s ≠ [] := pathOf_ne_nil s hs
  have hnot : pathOf s ∉ (phrases.map phraseTokens).flatten := by
    rw [flatten_phraseTokens]
    intro hmem
    rcases List.mem_map.mp hmem with ⟨t, ht, hts⟩
    have htlow := completedWords_lower phrases t ht
    have : t = s := by
      rw [← wordOf_pathOf t htlow, hts, wordOf_pathOf s hslow]
    subst this
    exact hns ((mem_insertedWords phrases _).mpr ⟨ht, hs⟩)
  have hroot : (insertTokenLists createTrieNode (phrases.map phraseTokens)).isNull = false := by
    rw [insertTokenLists_isNull]; rfl
  have hget : getTrieNode (insertTokenLists createTrieNode (phrases.map phraseTokens)) s
      = .ok ((insertTokenLists createTrieNode (phrases.map phraseTokens)).deref (pathOf s)) := by
    have := getTrieNode_wordOf
      (insertTokenLists createTrieNode (phrases.map phraseTokens)) (pathOf s)
    rw [wordOf_pathOf s hslow, if_neg hp] at this
    exact this
  have hpres : ((insertTokenLists createTrieNode (phrases.map phraseTokens)).deref
      (pathOf s)).isNull = false := by
    rw [present_insertTokenLists _ createTrieNode _ rfl]
    right
    refine ⟨pathOf (s ++ rest), ?_, pathOf rest, pathOf_append s rest⟩
    rw [flatten_phraseTokens]
    exact List.mem_map.mpr ⟨_, hwc, rfl⟩
  have hcount : ((insertTokenLists createTrieNode (phrases.map phraseTokens)).deref
      (pathOf s)).countOf = 0 := by
    have := cnt_insertTokenLists (phrases.map phraseTokens) createTrieNode (pathOf s) rfl
    rw [tokenCount_eq_zero _ _ hnot, cnt_createTrieNode] at this
    simpa [cnt] using this
  have hsub : ((insertTokenLists createTrieNode (phrases.map phraseTokens)).deref
      (pathOf s)).subtrieOf.isNull = true := by
    rw [subtrieOf_insertTokenLists _ createTrieNode _ rfl]
    have hF : ((phrases.map phraseTokens).map (followersOf (pathOf s) none)).flatten = [] := by
      rw [List.flatten_eq_nil_iff]
      intro l hl
      rcases List.mem_map.mp hl with ⟨ps, hps, rfl⟩
      apply followersOf_eq_nil _ _ _ (by intro e; cases e)
      exact fun h => hnot (List.mem_flatten.mpr ⟨ps, hps, h⟩)
    rw [hF, deref_createTrieNode_subtrieOf]
    rfl
  have hev : ∀ word, getTrieNode (insertTokenLists createTrieNode (phrases.map phraseTokens))
        word = .ok ((insertTokenLists createTrieNode (phrases.map phraseTokens)).deref
          (pathOf s)) →
      eventCommand3 (insertTokenLists createTrieNode (phrases.map phraseTokens)) word
        = some (word, .empty) := by
    intro word hword
    cases hT : insertTokenLists createTrieNode (phrases.map phraseTokens) with
    | null => rw [hT] at hroot; cases hroot
    | node c ch sub =>
      rw [hT] at hword hpres hsub
      simp only [eventCommand3, hword, hpres, hsub, Bool.false_eq_true, if_false, if_true]
  refine ⟨_, buildTrie_eq_insertTokenLists phrases, ⟨_, hget, hpres, hcount, hsub⟩,
    hev s hget, hev _ ?_⟩
  rw [getTrieNode_append_newline _ s hslow]
  exact hget

/-- C23 at the lines `the cat sat`, `the dog sat` and the string `ca`, a proper
prefix of `cat`. -/
theorem getTrieNode_finds_proper_prefix_witness :
    eventCommand3 trieTheCat "ca".toList = some ("ca".toList, .empty) ∧
    eventCommand3 trieTheCat "cab".toList = some ("cab".toList, .invalidString) ∧
    ∃ root, buildTrie ["the cat sat".toList, "the dog sat".toList] = .ok root ∧
      (∃ n, getTrieNode root "ca".toList = .ok n ∧ n.isNull = false ∧ n.countOf = 0 ∧
        n.subtrieOf.isNull = true) ∧
      eventCommand3 root "ca".toList = some ("ca".toList, .empty) ∧
      eventCommand3 root ("ca".toList ++ [Char.ofNat 10])
        = some ("ca".toList ++ [Char.ofNat 10], .empty) :=
  ⟨by decide, by decide,
    getTrieNode_finds_proper_prefix ["the cat sat".toList, "the dog sat".toList]
      "ca".toList "t".toList (by decide) (by decide) (by decide) (by decide)⟩

/-! ## Words of a subtrie are words of the main trie -/

theorem tokenCount_nonneg (b : List (Fin 26)) (ps : List (List (Fin 26))) :
    0 ≤ tokenCount b ps := by
  induction ps with
  | nil => exact le_refl _
  | cons p rest ih =>
    simp only [tokenCount]
    split <;> omega

theorem tokenCount_followersOf_le (a b : List (Fin 26)) (ps : List (List (Fin 26))) :
    ∀ prev : Option (List (Fin 26)),
      tokenCount b (followersOf a prev ps) ≤ tokenCount b ps := by
  induction ps with
  | nil => intro prev; exact le_refl _
  | cons p rest ih =>
    intro prev
    have h := ih (nextPrev p)
    simp only [followersOf, tokenCount_append]
    by_cases hprev : prev = some a
    · simp only [hprev, if_true, tokenCount]
      omega
    · simp only [hprev, if_false, tokenCount]
      split <;> omega

theorem tokenCount_followers_flatten_le (a b : List (Fin 26))
    (tl : List (List (List (Fin 26)))) :
    tokenCount b ((tl.map (followersOf a none)).flatten) ≤ tokenCount b tl.flatten := by
  induction tl with
  | nil => exact le_refl _
  | cons ps rest ih =>
    simp only [List.map_cons, List.flatten_cons, tokenCount_append]
    have := tokenCount_followersOf_le a b ps none
    omega

theorem fol_le_cnt_insertTokenLists (tl : List (List (List (Fin 26)))) (a b : List (Fin 26)) :
    fol (insertTokenLists createTrieNode tl) a b ≤ cnt (insertTokenLists createTrieNode tl) b := by
  rw [cnt_insertTokenLists tl createTrieNode b rfl, cnt_createTrieNode, zero_add]
  unfold fol
  rw [subtrieOf_insertTokenLists tl createTrieNode a rfl, deref_createTrieNode_subtrieOf,
    countOf_foldl_extendSubtrie, deref_null]
  simp only [TrieNode.countOf, zero_add]
  exact tokenCount_followers_flatten_le a b tl

theorem isNull_false_of_countOf_pos (n : TrieNode) (h : 0 < n.countOf) : n.isNull = false := by
  cases n with
  | null => simp [TrieNode.countOf] at h
  | node c ch s => rfl

/-- The part of C21 that holds for all lines: in the trie built from any
lines, a word printed from the subtrie of any node is printed from the main
trie too, with a count that is at least as large, and `getTrieNode` finds it
in the main trie. -/
theorem subtrie_words_are_main_words (phrases : List (List Char)) :
    ∃ root, buildTrie phrases = .ok root ∧
      ∀ (a : List (Fin 26)) (v : List Char) (k : Int),
        (v, k) ∈ printTrieSimpleFormat (root.deref a).subtrieOf →
        (∃ k1, k ≤ k1 ∧ (v, k1) ∈ printTrieSimpleFormat root) ∧
        ∃ n, getTrieNode root v = .ok n ∧ n.isNull = false := by
  refine ⟨_, buildTrie_eq_insertTokenLists phrases, ?_⟩
  intro a v k hmem
  rw [printTrieSimpleFormat_eq] at hmem
  rcases List.mem_map.mp hmem with ⟨⟨q, j⟩, hq, heq⟩
  simp only [Prod.mk.injEq] at heq
  obtain ⟨rfl, rfl⟩ := heq
  rw [mem_entriesBelow] at hq
  obtain ⟨hqne, hj, hpos⟩ := hq
  have hle := fol_le_cnt_insertTokenLists (phrases.map phraseTokens) a q
  unfold fol cnt at hle
  rw [← hj] at hle
  have hpos2 : 0 < ((insertTokenLists createTrieNode (phrases.map phraseTokens)).deref
      q).countOf := by omega
  refine ⟨⟨_, hle, ?_⟩, ⟨_, ?_, isNull_false_of_countOf_pos _ hpos2⟩⟩
  · rw [printTrieSimpleFormat_eq]
    refine List.mem_map.mpr ⟨(q, _), ?_, rfl⟩
    rw [mem_entriesBelow]
    exact ⟨hqne, rfl, hpos2⟩
  · have := getTrieNode_wordOf
      (insertTokenLists createTrieNode (phrases.map phraseTokens)) q
    rw [if_neg hqne] at this
    exact this

/-! ## The prediction chain on a trie without empty subtries -/

theorem getLast?_cons_of_some {α : Type} (b w : α) (l : List α) (h : l.getLast? = some w) :
    (b :: l).getLast? = some w := by
  cases l with
  | nil => cases h
  | cons x rest => rw [List.getLast?_cons_cons]; exact h

theorem getTextPrediction_chain (root : TrieNode)
    (hP1 : ∀ (a : List (Fin 26)) (v : List Char) (k : Int),
      (v, k) ∈ printTrieSimpleFormat (root.deref a).subtrieOf →
      ∃ q, q ≠ [] ∧ v = wordOf q ∧ (root.deref q).isNull = false)
    (hP2 : ∀ a : List (Fin 26), (root.deref a).subtrieOf.isNull = false →
      printTrieSimpleFormat (root.deref a).subtrieOf ≠ []) (n : Nat) :
    ∀ a : List (Fin 26), (root.deref a).subtrieOf.isNull = false →
      (getTextPrediction root (root.deref a) n).fault = none ∧
      (∀ w ∈ (getTextPrediction root (root.deref a) n).words,
        ∃ m, getTrieNode root w = .ok m ∧ m.isNull = false) ∧
      ((getTextPrediction root (root.deref a) n).words.length = n ∨
        ∃ w m, (getTextPrediction root (root.deref a) n).words.getLast? = some w ∧
          getTrieNode root w = .ok m ∧ m.subtrieOf.isNull = true) := by
  induction n with
  | zero =>
    intro a _
    have h0 : getTextPrediction root (root.deref a) 0 = ⟨[], none⟩ := by
      cases root.deref a <;> rfl
    rw [h0]
    exact ⟨rfl, (by intro w hw; cases hw), Or.inl rfl⟩
  | succ n ih =>
    intro a hsub
    have hne := hP2 a hsub
    cases hnode : root.deref a with
    | null => rw [hnode] at hsub; cases hsub
    | node c ch sub =>
      rw [hnode] at hne
      simp only [TrieNode.subtrieOf] at hne
      obtain ⟨b, k, hb, hmem, _⟩ := pickBest_printTrieSimpleFormat sub hne
      have hmem2 : (b, k) ∈ printTrieSimpleFormat (root.deref a).subtrieOf := by
        rw [hnode]; exact hmem
      obtain ⟨q, hq, rfl, hpres⟩ := hP1 a b k hmem2
      have hget : getTrieNode root (wordOf q) = .ok (root.deref q) := by
        have := getTrieNode_wordOf root q
        rw [if_neg hq] at this
        exact this
      rw [getTextPrediction_succ, hb]
      simp only [predictionAfter, hget, hpres, Bool.false_eq_true, if_false]
      by_cases hnsub : (root.deref q).subtrieOf.isNull = true
      · simp only [hnsub, if_true]
        refine ⟨?_, ?_, Or.inr ⟨wordOf q, root.deref q, rfl, hget, hnsub⟩⟩
        · first | rfl | trivial
        intro w hw
        rw [List.mem_singleton.mp hw]
        exact ⟨_, hget, hpres⟩
      · have hnsub2 : (root.deref q).subtrieOf.isNull = false := by simpa using hnsub
        obtain ⟨hf, hall, hstop⟩ := ih q hnsub2
        simp only [hnsub2, Bool.false_eq_true, if_false]
        refine ⟨hf, ?_, ?_⟩
        · intro w hw
          rcases List.mem_cons.mp hw with rfl | hw
          · exact ⟨_, hget, hpres⟩
          · exact hall w hw
        · rcases hstop with hlen | ⟨w, m, hlast, hm, hms⟩
          · left
            simp only [List.length_cons, hlen]
          · right
            exact ⟨w, m, getLast?_cons_of_some _ _ _ hlast, hm, hms⟩

theorem tokensAux_append_word (w : List Char) (hw : ∀ c ∈ w, c ≠ ' ') :
    ∀ (buf rest : List Char), tokensAux buf (w ++ rest) = tokensAux (buf ++ w) rest := by
  induction w with
  | nil => intro buf rest; simp
  | cons c cs ih =>
    intro buf rest
    have hc : c ≠ ' ' := hw c (List.mem_cons_self _ _)
    rw [List.cons_append, tokensAux, if_pos hc,
      ih (fun d hd => hw d (List.mem_cons_of_mem _ hd))]
    simp

theorem tokensAux_phraseText (rest : List (List (Fin 26))) :
    ∀ (p : List (Fin 26)) (buf : List Char),
      tokensAux buf (phraseText ((p :: rest).map wordOf))
        = (buf ++ wordOf p) :: rest.map wordOf := by
  induction rest with
  | nil =>
    intro p buf
    have := tokensAux_append_word (wordOf p) (wordOf_no_space p) buf []
    simp only [List.append_nil] at this
    simp only [List.map_cons, List.map_nil, phraseText, this, tokensAux]
  | cons p2 rest2 ih =>
    intro p buf
    have h2 := ih p2 []
    simp only [List.map_cons, List.nil_append] at h2
    simp only [List.map_cons, phraseText]
    rw [tokensAux_append_word (wordOf p) (wordOf_no_space p), tokensAux]
    simp only [ne_eq, not_true_eq_false, if_false, h2]

theorem phraseTokens_phraseText (ps : List (List (Fin 26))) :
    phraseTokens (phraseText (ps.map wordOf)) = if ps = [] then [[]] else ps := by
  unfold phraseTokens
  rw [stripPunctuators_strlwr_clean _ (phraseText_clean ps)]
  cases ps with
  | nil => rfl
  | cons p rest =>
    rw [tokensAux_phraseText]
    simp only [List.nil_append, List.map_cons, pathOf_wordOf, List.map_map, reduceCtorEq,
      if_false, List.cons.injEq, true_and]
    conv_rhs => rw [← List.map_id rest]
    apply List.map_congr_left
    intro q _
    exact pathOf_wordOf q

theorem mem_of_mem_followersOf (a x : List (Fin 26)) (ps : List (List (Fin 26))) :
    ∀ prev : Option (List (Fin 26)), x ∈ followersOf a prev ps → x ∈ ps := by
  induction ps with
  | nil => intro prev h; cases h
  | cons p rest ih =>
    intro prev h
    simp only [followersOf, List.mem_append] at h
    rcases h with h | h
    · by_cases hp : prev = some a
      · simp only [hp, if_true, List.mem_singleton] at h
        rw [h]; exact List.mem_cons_self _ _
      · simp [hp] at h
    · exact List.mem_cons_of_mem _ (ih _ h)

theorem tokenCount_pos (p : List (Fin 26)) (F : List (List (Fin 26))) (hp : p ≠ [])
    (h : p ∈ F) : 0 < tokenCount p F := by
  induction F with
  | nil => cases h
  | cons x rest ih =>
    simp only [tokenCount]
    have hnn := tokenCount_nonneg p rest
    rcases List.mem_cons.mp h with rfl | h
    · simp only [hp, ne_eq, not_false_eq_true, and_self, if_true]
      omega
    · have := ih h
      split <;> omega

theorem printed_subtrie_word (tl : List (List (List (Fin 26)))) (a : List (Fin 26))
    (v : List Char) (k : Int)
    (h : (v, k) ∈ printTrieSimpleFormat
      ((insertTokenLists createTrieNode tl).deref a).subtrieOf) :
    ∃ q, q ≠ [] ∧ v = wordOf q ∧ ((insertTokenLists createTrieNode tl).deref q).isNull = false := by
  rw [printTrieSimpleFormat_eq] at h
  rcases List.mem_map.mp h with ⟨⟨q, j⟩, hq, heq⟩
  simp only [Prod.mk.injEq] at heq
  obtain ⟨rfl, rfl⟩ := heq
  rw [mem_entriesBelow] at hq
  obtain ⟨hqne, hj, hpos⟩ := hq
  have hle := fol_le_cnt_insertTokenLists tl a q
  unfold fol cnt at hle
  rw [← hj] at hle
  exact ⟨q, hqne, rfl, isNull_false_of_countOf_pos _ (by omega)⟩

theorem subtrie_has_word (tl : List (List (List (Fin 26))))
    (hgood : ∀ ps ∈ tl, ∀ a x : List (Fin 26), x ∈ followersOf a none ps → x ≠ [])
    (a : List (Fin 26))
    (h : ((insertTokenLists createTrieNode tl).deref a).subtrieOf.isNull = false) :
    printTrieSimpleFormat ((insertTokenLists createTrieNode tl).deref a).subtrieOf ≠ [] := by
  rw [subtrieOf_insertTokenLists tl createTrieNode a rfl, deref_createTrieNode_subtrieOf] at h ⊢
  have hex : ∃ p ∈ (tl.map (followersOf a none)).flatten, ∃ r : List (Fin 26), p = [] ++ r := by
    have := (present_foldl_extendSubtrie ((tl.map (followersOf a none)).flatten) .null []).mp
      (by rw [deref_nil]; exact h)
    rcases this with hnull | hex
    · cases hnull
    · exact hex
  obtain ⟨p, hpF, _⟩ := hex
  have hpne : p ≠ [] := by
    rcases List.mem_flatten.mp hpF with ⟨l, hl, hpl⟩
    rcases List.mem_map.mp hl with ⟨ps, hps, rfl⟩
    exact hgood ps hps a p hpl
  have hcount := countOf_foldl_extendSubtrie ((tl.map (followersOf a none)).flatten) .null p
  rw [deref_null] at hcount
  simp only [TrieNode.countOf, zero_add] at hcount
  have hpos := tokenCount_pos p _ hpne hpF
  intro hnil
  have hmem : (wordOf p, tokenCount p ((tl.map (followersOf a none)).flatten))
      ∈ printTrieSimpleFormat
        (((tl.map (followersOf a none)).flatten).foldl extendSubtrie .null) := by
    rw [printTrieSimpleFormat_eq]
    refine List.mem_map.mpr ⟨(p, _), ?_, rfl⟩
    rw [mem_entriesBelow]
    exact ⟨hpne, hcount.symm, hpos⟩
  rw [hnil] at hmem
  cases hmem

/-- The rest of C21 on a well-formed corpus: from every node that has a
subtrie the prediction ends without a fault, every printed word is found in
the main trie, and the run prints as many words as the counter says unless
the last printed word has no subtrie. -/
theorem prediction_chain_on_corpus (corpus : List (List (List Char))) (h : WellFormed corpus) :
    ∃ root, buildTrie (corpus.map phraseText) = .ok root ∧
      ∀ (a : List (Fin 26)) (n : Nat), (root.deref a).subtrieOf.isNull = false →
        (getTextPrediction root (root.deref a) n).fault = none ∧
        (∀ w ∈ (getTextPrediction root (root.deref a) n).words,
          ∃ m, getTrieNode root w = .ok m ∧ m.isNull = false) ∧
        ((getTextPrediction root (root.deref a) n).words.length = n ∨
          ∃ w m, (getTextPrediction root (root.deref a) n).words.getLast? = some w ∧
            getTrieNode root w = .ok m ∧ m.subtrieOf.isNull = true) := by
  refine ⟨_, buildTrie_eq_insertTokenLists _, ?_⟩
  intro a n hsub
  apply getTextPrediction_chain _ (printed_subtrie_word _) (subtrie_has_word _ ?_) n a hsub
  intro ps hps b x hx
  rcases List.mem_map.mp hps with ⟨phrase, hphrase, rfl⟩
  rcases List.mem_map.mp hphrase with ⟨ph, hph, rfl⟩
  have hwf : ∀ w ∈ ph, w ≠ [] ∧ ∀ c ∈ w, c.isLower = true := h ph hph
  have heq : ph = (ph.map pathOf).map wordOf := by
    rw [List.map_map]
    conv_lhs => rw [← List.map_id ph]
    apply List.map_congr_left
    intro w hw
    exact (wordOf_pathOf w (hwf w hw).2).symm
  rw [heq, phraseTokens_phraseText] at hx
  by_cases hnil : ph.map pathOf = []
  · rw [if_pos hnil] at hx
    simp [followersOf, nextPrev] at hx
  · rw [if_neg hnil] at hx
    have hxm := mem_of_mem_followersOf b x _ none hx
    rcases List.mem_map.mp hxm with ⟨w, hw, rfl⟩
    exact pathOf_ne_nil w (hwf w hw).1

/-- C21, the code at the failing input: in the trie built from the line `a `
the node of `a` has a subtrie without a word; `getTextPrediction` from that
node with counter 1 prints no word of the trie: it prints `mostFrequentWord`
before anything was copied into it, and resolves that in the main trie. -/
theorem prediction_from_empty_subtrie :
    buildTrie ["a ".toList] = .ok trieTrailingSpace ∧
    (trieTrailingSpace.deref [0]).isNull = false ∧
    (trieTrailingSpace.deref [0]).subtrieOf.isNull = false ∧
    getTextPredictionScan (trieTrailingSpace.deref [0]).subtrieOf ⟨[], 0, none⟩
        (getTrieWords (trieTrailingSpace.deref [0]).subtrieOf [])
      = .ok ⟨[], 0, none⟩ ∧
    getTextPrediction trieTrailingSpace (trieTrailingSpace.deref [0]) 1
      = ⟨[], some .uninitialised⟩ := by
  refine ⟨by rfl, by decide, by decide, by rfl, by decide⟩

end TriePrediction
